import Mathlib

/-!
# SnailSpeed: 90-degree clockwise rotation of a packed bit matrix

A shallow embedding of `src/snailspeed/rotate.c` (the block transpose
`transpose_64` and the ring walk `rotate_bit_matrix`) and of the naive
reference rotator `_rotate_bit_matrix` of `src/utils/tester.c`.

* Memory is a list of bytes (`List Nat`, every entry below 256); a 64-bit
  word is loaded and stored little-endian, eight bytes at a time, and every
  access is bounds-checked: an access outside the buffer yields `none`.
* A scratch block (`ROW_TYPE block[BASE]`) is a list of 64 words with
  bounds-checked indexing.
* C loops are run by `whileLoop`, which yields `none` when the fuel is
  exhausted before the loop guard turns false.
* `uint64_t` values are natural numbers; the left shift, the only operation
  of the program that can leave the 64-bit range, is reduced modulo `2^64`.
* The counters `int i, j, k, shift` only take small non-negative values and
  are natural numbers. `bits_t` (declared in `utils.h`, which is absent) is
  taken to be a 64-bit unsigned type, as the `%zu` that prints it suggests:
  every offset into an existing buffer fits, so offsets are not reduced.

The definitions of the program come first, then the definitions used to state
and prove its properties, then the theorems.
-/

namespace SnailSpeed

/-! ## Constants of `rotate.c` -/

def BASE : Nat := 64

/-- The macro `LAST_BASE_INDEX` expands to `BASE - 1`. -/
def LAST_BASE_INDEX : Nat := BASE - 1

def LOG_BASE : Nat := 6

/-! ## Loops and memory -/

/-- A C loop `while (cond) body` run with a bound on the number of body
executions: `none` when the bound is exhausted or the body faults. -/
def whileLoop {σ : Type} (fuel : Nat) (cond : σ → Bool) (body : σ → Option σ) (s : σ) :
    Option σ :=
  match fuel with
  | 0 => if cond s then none else some s
  | n + 1 => if cond s then (body s).bind (fun s' => whileLoop n cond body s') else some s

/-- Read of element `i` of a word array: `a[i]`, checked. -/
def rd (a : List Nat) (i : Int) : Option Nat :=
  if 0 ≤ i then a[i.toNat]? else none

/-- Write of element `i` of a word array: `a[i] = v`, checked. -/
def wr (a : List Nat) (i : Int) (v : Nat) : Option (List Nat) :=
  if 0 ≤ i ∧ i.toNat < a.length then some (a.set i.toNat v) else none

/-- Little-endian value of the `n` bytes of `mem` starting at address `a`. -/
def loadLE : Nat → List Nat → Nat → Nat
  | 0, _, _ => 0
  | n + 1, mem, a => mem.getD a 0 + 256 * loadLE n mem (a + 1)

/-- Little-endian store of the low `n` bytes of `v` at address `a`. -/
def storeLE : Nat → List Nat → Nat → Nat → List Nat
  | 0, mem, _, _ => mem
  | n + 1, mem, a, v => storeLE n (mem.set a (v % 256)) (a + 1) (v / 256)

/-- Read of the 64-bit word `*(img_64 + p)` where `img_64 = (uint64_t*) img`:
bytes `8p .. 8p+7` of the buffer, little-endian, checked. -/
def load64 (mem : List Nat) (p : Int) : Option Nat :=
  if 0 ≤ p ∧ 8 * p.toNat + 8 ≤ mem.length then some (loadLE 8 mem (8 * p.toNat)) else none

/-- Write of the 64-bit word `*(img_64 + p) = v`, checked. -/
def store64 (mem : List Nat) (p : Int) (v : Nat) : Option (List Nat) :=
  if 0 ≤ p ∧ 8 * p.toNat + 8 ≤ mem.length then some (storeLE 8 mem (8 * p.toNat) v) else none

/-! ## The two swap macros -/

/-- The macro `SWAP_WITHIN_BYTES(row_1, row_2, shift, mask)`: the new values
of `row_1` and `row_2`. -/
def SWAP_WITHIN_BYTES (row_1 row_2 shift mask : Nat) : Nat × Nat :=
  let temp := (row_1 ^^^ (row_2 >>> shift)) &&& mask
  (row_1 ^^^ temp, row_2 ^^^ ((temp <<< shift) % 2 ^ 64))

/-- The macro `SWAP_BYTES(row_1, row_2, shift, mask)`: the new values of
`row_1` and `row_2`. -/
def SWAP_BYTES (row_1 row_2 shift mask : Nat) : Nat × Nat :=
  let temp := (row_1 ^^^ ((row_2 <<< shift) % 2 ^ 64)) &&& mask
  (row_1 ^^^ temp, row_2 ^^^ (temp >>> shift))

/-! ## `transpose_64` -/

/-- One execution of the macro on `*(img + (index_for_swap + shift))` and
`*(img + index_for_swap)`, followed by `index_for_swap++`. -/
def swapStep (swap : Nat → Nat → Nat → Nat → Nat × Nat) (shift mask : Nat)
    (st : List Nat × Nat) : Option (List Nat × Nat) := do
  let img := st.1
  let index_for_swap := st.2
  let row_1 ← rd img (index_for_swap + shift)
  let row_2 ← rd img index_for_swap
  let r := swap row_1 row_2 shift mask
  let img ← wr img (index_for_swap + shift) r.1
  let img ← wr img index_for_swap r.2
  some (img, index_for_swap + 1)

/-- The loop `for (index_for_swap = k; index_for_swap < shift + k; index_for_swap++)`
followed by `k += shift<<1`. -/
def groupStep (swap : Nat → Nat → Nat → Nat → Nat × Nat) (shift mask : Nat)
    (st : List Nat × Nat) : Option (List Nat × Nat) := do
  let img := st.1
  let k := st.2
  let r ← whileLoop BASE (fun s => decide (s.2 < shift + k)) (swapStep swap shift mask) (img, k)
  some (r.1, k + (shift <<< 1))

/-- The loop `for (k = 0; k < BASE; k += shift<<1)` of one stage. -/
def stage (swap : Nat → Nat → Nat → Nat → Nat × Nat) (shift mask : Nat)
    (img : List Nat) : Option (List Nat) := do
  let r ← whileLoop BASE (fun s => decide (s.2 < BASE)) (groupStep swap shift mask) (img, 0)
  some r.1

/-- Locals of `transpose_64` that live across stages. -/
structure TState where
  img : List Nat
  mask : Nat
  shift : Nat

/-- Body of `while (shift != 4)`. -/
def crossBody (s : TState) : Option TState := do
  let img ← stage SWAP_BYTES s.shift s.mask s.img
  let shift := s.shift >>> 1
  some { img := img, shift := shift, mask := s.mask ^^^ (s.mask >>> shift) }

/-- Body of `while (shift != 0)`. -/
def withinBody (s : TState) : Option TState := do
  let img ← stage SWAP_WITHIN_BYTES s.shift s.mask s.img
  let shift := s.shift >>> 1
  some { img := img, shift := shift, mask := s.mask ^^^ ((s.mask <<< shift) % 2 ^ 64) }

/-- The function `transpose_64(uint64_t *img)` on an array of words. -/
def transpose_64 (img : List Nat) : Option (List Nat) := do
  let s0 : TState := { img := img, mask := 0xFFFFFFFF00000000, shift := BASE >>> 1 }
  let s1 ← whileLoop BASE (fun s => s.shift != 4) crossBody s0
  let s2 : TState := { s1 with mask := s1.mask >>> s1.shift }
  let s3 ← whileLoop BASE (fun s => s.shift != 0) withinBody s2
  some s3.img

/-! ## `rotate_bit_matrix` -/

/-- The four scratch blocks `block_1 .. block_4` of `rotate_bit_matrix`. -/
structure Scratch where
  block_1 : List Nat
  block_2 : List Nat
  block_3 : List Nat
  block_4 : List Nat

/-- Four pointers into the word view `img_64` of the buffer, as word offsets
from `img_64`. -/
structure Ptrs where
  p1 : Int
  p2 : Int
  p3 : Int
  p4 : Int

/-- Body of the loop "filling up each block" of the ring step, with `++k`. -/
def fillStep (mem : List Nat) (size : Nat) (bp : Ptrs) (st : Scratch × Nat) :
    Option (Scratch × Nat) := do
  let b := st.1
  let k := st.2
  let v1 ← load64 mem (bp.p1 + size * k)
  let block_1 ← wr b.block_1 k v1
  let v2 ← load64 mem (bp.p2 + size * k)
  let block_2 ← wr b.block_2 k v2
  let v3 ← load64 mem (bp.p3 + size * k)
  let block_3 ← wr b.block_3 k v3
  let v4 ← load64 mem (bp.p4 + size * k)
  let block_4 ← wr b.block_4 k v4
  some ({ block_1 := block_1, block_2 := block_2, block_3 := block_3, block_4 := block_4 },
    k + 1)

/-- Body of the loop "putting blocks back in reverse order" of the ring
step, with `++k`. -/
def writeStep (b : Scratch) (size : Nat) (bp : Ptrs) (st : List Nat × Nat) :
    Option (List Nat × Nat) := do
  let mem := st.1
  let k := st.2
  let v1 ← rd b.block_1 ((LAST_BASE_INDEX : Int) - k)
  let mem ← store64 mem (bp.p2 + size * k) v1
  let v2 ← rd b.block_2 ((LAST_BASE_INDEX : Int) - k)
  let mem ← store64 mem (bp.p3 + size * k) v2
  let v3 ← rd b.block_3 ((LAST_BASE_INDEX : Int) - k)
  let mem ← store64 mem (bp.p4 + size * k) v3
  let v4 ← rd b.block_4 ((LAST_BASE_INDEX : Int) - k)
  let mem ← store64 mem (bp.p1 + size * k) v4
  some (mem, k + 1)

/-- State of the loop over `j`: the buffer, the scratch blocks, the four
`block_*_img_pointer` and `j`. -/
structure JState where
  mem : List Nat
  blocks : Scratch
  bp : Ptrs
  j : Nat

/-- Body of `for(int j = 0; j < (size / 2); j++)`, with `j++`. -/
def ringStep (N size : Nat) (s : JState) : Option JState := do
  let f ← whileLoop BASE (fun st => decide (st.2 < BASE)) (fillStep s.mem size s.bp)
    (s.blocks, 0)
  let block_1 ← transpose_64 f.1.block_1
  let block_2 ← transpose_64 f.1.block_2
  let block_3 ← transpose_64 f.1.block_3
  let block_4 ← transpose_64 f.1.block_4
  let b : Scratch :=
    { block_1 := block_1, block_2 := block_2, block_3 := block_3, block_4 := block_4 }
  let w ← whileLoop BASE (fun st => decide (st.2 < BASE)) (writeStep b size s.bp) (s.mem, 0)
  some { mem := w.1, blocks := b,
         bp := { p1 := s.bp.p1 + 1, p2 := s.bp.p2 + N, p3 := s.bp.p3 - 1, p4 := s.bp.p4 - N },
         j := s.j + 1 }

/-- State of the loop over `i`: the buffer, the scratch blocks, the four
`new_blocks_row_pointer_*` and `i`. -/
structure IState where
  mem : List Nat
  blocks : Scratch
  np : Ptrs
  i : Nat

/-- Body of `for(int i = 0; i < (size + 1) / 2; i++)`, with `i++`. -/
def ringBody (N size : Nat) (s : IState) : Option IState := do
  let bp := s.np
  let np : Ptrs :=
    { p1 := s.np.p1 + N, p2 := s.np.p2 - 1, p3 := s.np.p3 - N, p4 := s.np.p4 + 1 }
  let r ← whileLoop N (fun st => decide (st.j < size / 2)) (ringStep N size)
    { mem := s.mem, blocks := s.blocks, bp := bp, j := 0 }
  some { mem := r.mem, blocks := r.blocks, np := np, i := s.i + 1 }

/-- Body of the load loop of the center block, with `++k`. -/
def centerFillStep (mem : List Nat) (size : Nat) (p : Int) (st : List Nat × Nat) :
    Option (List Nat × Nat) := do
  let v ← load64 mem (p + size * st.2)
  let block_1 ← wr st.1 st.2 v
  some (block_1, st.2 + 1)

/-- Body of the store loop of the center block, with `++k`. -/
def centerWriteStep (block_1 : List Nat) (size : Nat) (p : Int) (st : List Nat × Nat) :
    Option (List Nat × Nat) := do
  let v ← rd block_1 ((LAST_BASE_INDEX : Int) - st.2)
  let mem ← store64 st.1 (p + size * st.2) v
  some (mem, st.2 + 1)

/-- The branch `if(size & 1)`: the center block of an odd grid. -/
def centerStep (mem : List Nat) (block_1 : List Nat) (size : Nat) : Option (List Nat) := do
  let column_index := size >>> 1
  let row_index := (size >>> 1) <<< LOG_BASE
  let p : Int := ((row_index * size + column_index : Nat) : Int)
  let f ← whileLoop BASE (fun st => decide (st.2 < BASE)) (centerFillStep mem size p)
    (block_1, 0)
  let t ← transpose_64 f.1
  let w ← whileLoop BASE (fun st => decide (st.2 < BASE)) (centerWriteStep t size p) (mem, 0)
  some w.1

/-- The function `rotate_bit_matrix(img, N)`: the buffer after the call, or
`none` when an access leaves the buffer or a loop does not stop. The scratch
blocks are uninitialised in C and are taken to hold zeros. The loops over `i`
and `j` get fuel `N`, which bounds `(size + 1) / 2`. Pointers are integer word
offsets from `img_64`; `(N - BASE) * size` is computed over the integers, which
agrees with the unsigned C expression whenever `N >= BASE`, and also when
`N < BASE`, where `size` is zero. -/
def rotate_bit_matrix (img : List Nat) (N : Nat) : Option (List Nat) := do
  let size := N >>> LOG_BASE
  let z := List.replicate BASE 0
  let s0 : IState :=
    { mem := img,
      blocks := { block_1 := z, block_2 := z, block_3 := z, block_4 := z },
      np := { p1 := 0,
              p2 := (size : Int) - 1,
              p3 := ((N : Int) - BASE) * size + size - 1,
              p4 := ((N : Int) - BASE) * size },
      i := 0 }
  let s1 ← whileLoop N (fun s => decide (s.i < (size + 1) / 2)) (ringBody N size) s0
  if size &&& 1 ≠ 0 then centerStep s1.mem s1.blocks.block_1 size else some s1.mem

/-! ## The reference rotator of `tester.c` -/

/-- Modelled from the spec: the macro or function `bits_to_bytes` of
`utils.h`, which is absent; the number of bytes of a row of `bits` bits. -/
def bits_to_bytes (bits : Nat) : Nat := bits / 8

/-- Modelled from the spec: the accessor `get_bit` of `utils.h`, which is
absent; column `x` of row `y` is bit `7 - x % 8` of byte `y * row_size + x / 8`. -/
def get_bit (img : List Nat) (row_size x y : Nat) : Nat :=
  (img.getD (y * row_size + x / 8) 0 >>> (7 - x % 8)) % 2

/-- Modelled from the spec: the accessor `set_bit` of `utils.h`, which is
absent; it sets bit `7 - x % 8` of byte `y * row_size + x / 8` to `value`. -/
def set_bit (img : List Nat) (row_size x y value : Nat) : List Nat :=
  let a := y * row_size + x / 8
  let byte := img.getD a 0
  let m := 1 <<< (7 - x % 8)
  img.set a (if value ≠ 0 then byte ||| m else byte &&& (255 ^^^ m))

/-- State of the four-way cycle of one bit. -/
structure QState where
  mem : List Nat
  i : Nat
  j : Nat
  tmp_bit : Nat
  quadrant : Nat

/-- Body of `for (quadrant = 0; quadrant < 4; quadrant++)`. -/
def quadrantStep (N row_size : Nat) (s : QState) : Option QState :=
  let next_i := ((N : Int) - s.j - 1).toNat
  let next_j := s.i
  let save_bit := s.tmp_bit
  let tmp_bit := get_bit s.mem row_size next_i next_j
  let mem := set_bit s.mem row_size next_i next_j save_bit
  some { mem := mem, i := next_i, j := next_j, tmp_bit := tmp_bit,
         quadrant := s.quadrant + 1 }

/-- Body of `for (w = 0; w < N / 2; w++)`. -/
def colStep (N row_size h : Nat) (st : List Nat × Nat) : Option (List Nat × Nat) := do
  let w := st.2
  let q ← whileLoop 4 (fun s => decide (s.quadrant < 4)) (quadrantStep N row_size)
    { mem := st.1, i := w, j := h, tmp_bit := get_bit st.1 row_size w h, quadrant := 0 }
  some (q.mem, w + 1)

/-- Body of `for (h = 0; h < N / 2; h++)`. -/
def rowStep (N row_size : Nat) (st : List Nat × Nat) : Option (List Nat × Nat) := do
  let h := st.2
  let r ← whileLoop N (fun s => decide (s.2 < N / 2)) (colStep N row_size h) (st.1, 0)
  some (r.1, h + 1)

/-- The function `_rotate_bit_matrix(bit_matrix, N)` of `tester.c`. Its
counters `w`, `h`, `i`, `j`, `next_i`, `next_j` and `row_size` are `uint32_t`;
all of them stay below `N`, so they are not reduced modulo `2^32` here: they
wrap only for `N > 2^32`, a buffer of more than `2^61` bytes. -/
def _rotate_bit_matrix (bit_matrix : List Nat) (N : Nat) : Option (List Nat) := do
  let row_size := bits_to_bytes N
  let r ← whileLoop N (fun s => decide (s.2 < N / 2)) (rowStep N row_size) (bit_matrix, 0)
  some r.1

/-! ## Definitions of the statements and of the proofs -/

/-- Word `x` of the block after one stage: the lower word of a pair takes the
second component of the swap, the upper word the first. -/
def stageWord (swap : Nat → Nat → Nat → Nat → Nat × Nat) (shift mask : Nat)
    (img : List Nat) (x : Nat) : Nat :=
  if (x / shift) % 2 = 0 then (swap (img.getD (x + shift) 0) (img.getD x 0) shift mask).2
  else (swap (img.getD x 0) (img.getD (x - shift) 0) shift mask).1

/-- Source (word, bit) of bit `p` of word `x` after a cross-boundary stage:
the pair moves when the `shift` digits of `x` and `p` agree. -/
def crossIdx (s : Nat) (xp : Nat × Nat) : Nat × Nat :=
  if (xp.1 / s) % 2 = (xp.2 / s) % 2 then
    (if (xp.1 / s) % 2 = 0 then (xp.1 + s, xp.2 + s) else (xp.1 - s, xp.2 - s))
  else xp

/-- Source (word, bit) of bit `p` of word `x` after a within-byte stage:
the pair moves when the `shift` digits of `x` and `p` differ. -/
def withinIdx (s : Nat) (xp : Nat × Nat) : Nat × Nat :=
  if (xp.1 / s) % 2 = (xp.2 / s) % 2 then xp
  else (if (xp.1 / s) % 2 = 0 then (xp.1 + s, xp.2 - s) else (xp.1 - s, xp.2 + s))

/-- Source (word, bit) in the input block of bit `p` of word `x` of the
output of `transpose_64`: the six stage maps, last stage first. -/
def srcIdx (xp : Nat × Nat) : Nat × Nat :=
  crossIdx 32 (crossIdx 16 (crossIdx 8 (withinIdx 4 (withinIdx 2 (withinIdx 1 xp)))))

/-- Check of one entry of the closed form of `srcIdx`. -/
def srcIdxOk (x p : Nat) : Bool :=
  srcIdx (x, p) == (8 * (7 - p / 8) + p % 8, 8 * (7 - x / 8) + x % 8)

/-- Every cell of the buffer holds a byte. -/
def isBytes (mem : List Nat) : Prop := ∀ x, mem.getD x 0 < 256

/-- The 64-bit word at word offset `q` of the buffer. -/
def word (mem : List Nat) (q : Nat) : Nat := loadLE 8 mem (8 * q)

/-- The word in word-row `ρ` and block column `c` of a buffer whose rows are
`size` words long. -/
def W (mem : List Nat) (size ρ c : Nat) : Nat := word mem (ρ * size + c)

/-- The buffer after a word store at word-row `ρ`, block column `c`. -/
def put (mem : List Nat) (size ρ c v : Nat) : List Nat := storeLE 8 mem (8 * (ρ * size + c)) v

/-- The 64 words of the block in block row `r`, block column `c`. -/
def blk (mem : List Nat) (size r c : Nat) : List Nat :=
  (List.range 64).map (fun m => W mem size (64 * r + m) c)

/-- The block `transpose_64` leaves in the array (empty if it did not return). -/
@[irreducible] def T (B : List Nat) : List Nat := (transpose_64 B).getD []

/-- The word that the rotation puts in word-row `ρ`, block column `c`: the
block in block row `ρ / 64` and block column `c` receives the transposed
block (`size - 1 - c`, `ρ / 64`) with its rows reversed. -/
def rotW (orig : List Nat) (size ρ c : Nat) : Nat :=
  (T (blk orig size (size - 1 - c) (ρ / 64))).getD (63 - ρ % 64) 0

/-- Block (`r`, `c`) is one of the four blocks of the ring step `(i, j)`. -/
def inQuad (size i j r c : Nat) : Prop :=
  (r = i ∧ c = j) ∨ (r = j ∧ c = size - 1 - i) ∨
  (r = size - 1 - i ∧ c = size - 1 - j) ∨ (r = size - 1 - j ∧ c = i)

/-- Block (`r`, `c`) has been rotated once the walk has finished the rings
before `t` and the steps before `u` of ring `t`. -/
def done (size t u r c : Nat) : Prop :=
  ∃ i j, (i < t ∨ (i = t ∧ j < u)) ∧ i < (size + 1) / 2 ∧ j < size / 2 ∧ inQuad size i j r c

/-- The four block pointers at step `u` of ring `t`, as the C code computes
them from `N = 64 * size`. -/
def ringPtrs (size t u : Nat) : Ptrs :=
  { p1 := (t : Int) * ((64 * size : Nat) : Int) + u,
    p2 := (size : Int) - 1 - t + (u : Int) * ((64 * size : Nat) : Int),
    p3 := (((64 * size : Nat) : Int) - (BASE : Int)) * size + size - 1
            - (t : Int) * ((64 * size : Nat) : Int) - u,
    p4 := (((64 * size : Nat) : Int) - (BASE : Int)) * size + t
            - (u : Int) * ((64 * size : Nat) : Int) }

/-- State of the buffer `mem` after the rings before `t` and the steps before
`u` of ring `t`: the rotated blocks hold the rotated words of `orig`, the
others still hold the words of `orig`. -/
def MemInv (orig mem : List Nat) (size t u : Nat) : Prop :=
  ∀ ρ c, ρ < 64 * size → c < size →
    (done size t u (ρ / 64) c → W mem size ρ c = rotW orig size ρ c) ∧
    (¬ done size t u (ρ / 64) c → W mem size ρ c = W orig size ρ c)

/-- Invariant of the loop over `j` in ring `t`, before step `u`. -/
def JInv (orig : List Nat) (size t u : Nat) (s : JState) : Prop :=
  s.j = u ∧ s.mem.length = 8 * (64 * size * size) ∧ isBytes s.mem ∧
  s.blocks.block_1.length = 64 ∧ s.blocks.block_2.length = 64 ∧
  s.blocks.block_3.length = 64 ∧ s.blocks.block_4.length = 64 ∧
  s.bp = ringPtrs size t u ∧ MemInv orig s.mem size t u

/-- Invariant of the loop over `i`, before ring `t`. -/
def IInv (orig : List Nat) (size t : Nat) (s : IState) : Prop :=
  s.i = t ∧ s.mem.length = 8 * (64 * size * size) ∧ isBytes s.mem ∧
  s.blocks.block_1.length = 64 ∧ s.blocks.block_2.length = 64 ∧
  s.blocks.block_3.length = 64 ∧ s.blocks.block_4.length = 64 ∧
  s.np = ringPtrs size t 0 ∧ MemInv orig s.mem size t 0

/-- Cell (row `i`, column `j`) of an `N × N` bit matrix: bit `7 - j % 8` of
byte `i * (N / 8) + j / 8` (row-major, most-significant bit = lowest column). -/
def cell (mem : List Nat) (N i j : Nat) : Bool :=
  (mem.getD (i * (N / 8) + j / 8) 0).testBit (7 - j % 8)

/-- State of the buffer `mem` of the reference rotator after the rows before
`h` and the columns before `w` of row `h`: the cells of the finished orbits
hold the rotated cells of `orig`, the others still hold the cells of `orig`. -/
def CellInv (orig mem : List Nat) (N h w : Nat) : Prop :=
  mem.length = N * (N / 8) ∧ isBytes mem ∧
  ∀ i j, i < N → j < N →
    (done N h w i j → cell mem N i j = cell orig N (N - 1 - j) i) ∧
    (¬ done N h w i j → cell mem N i j = cell orig N i j)

/-- The states in which the body of the loop `while (cond) body` is entered,
in order, for the run that `whileLoop` performs with the same fuel. -/
def whileTrace {σ : Type} (fuel : Nat) (cond : σ → Bool) (body : σ → Option σ) (s : σ) :
    List σ :=
  match fuel with
  | 0 => []
  | n + 1 =>
    if cond s then
      s :: (match body s with
            | some s' => whileTrace n cond body s'
            | none => [])
    else []

/-- The 64-bit complement `~x`. -/
def not64 (x : Nat) : Nat := x ^^^ (2 ^ 64 - 1)

/-- Cell (`i`, `j`) of a 64-word block read most-significant bit of each byte
first: bit `8 * (j / 8) + 7 - j % 8` of word `i`. -/
def blockCell (B : List Nat) (i j : Nat) : Bool :=
  (B.getD i 0).testBit (8 * (j / 8) + (7 - j % 8))

/-- The values of `index_for_swap` at which the swap of one stage is executed,
in execution order: for every executed iteration of the loop over `k` (the
trace of the loop of `stage`), the executed iterations of the loop over
`index_for_swap` (the trace of the loop of `groupStep`). The swap executed
at `index_for_swap` accesses `img[index_for_swap + shift]` and
`img[index_for_swap]`. -/
def stageSwaps (swap : Nat → Nat → Nat → Nat → Nat × Nat) (shift mask : Nat)
    (img : List Nat) : List Nat :=
  (whileTrace BASE (fun s => decide (s.2 < BASE)) (groupStep swap shift mask) (img, 0)).flatMap
    (fun st =>
      (whileTrace BASE (fun s => decide (s.2 < shift + st.2)) (swapStep swap shift mask)
        (st.1, st.2)).map (fun x => x.2))

/-- The locals of `rotate_bit_matrix` on entry of the loop over `i`. -/
def ringStart (img : List Nat) (N : Nat) : IState :=
  let size := N >>> LOG_BASE
  let z := List.replicate BASE 0
  { mem := img,
    blocks := { block_1 := z, block_2 := z, block_3 := z, block_4 := z },
    np := { p1 := 0,
            p2 := (size : Int) - 1,
            p3 := ((N : Int) - BASE) * size + size - 1,
            p4 := ((N : Int) - BASE) * size },
    i := 0 }

/-- The states in which the body of `for(int i = 0; i < (size + 1) / 2; i++)`
is entered during `rotate_bit_matrix(img, N)`, in order. -/
def ringTrace (img : List Nat) (N : Nat) : List IState :=
  whileTrace N (fun s => decide (s.i < ((N >>> LOG_BASE) + 1) / 2))
    (ringBody N (N >>> LOG_BASE)) (ringStart img N)

/-- The states in which the body of `for(int j = 0; j < (size / 2); j++)` is
entered during the iteration of the loop over `i` that starts in `st`, in
order. -/
def stepTrace (N : Nat) (st : IState) : List JState :=
  whileTrace N (fun s => decide (s.j < (N >>> LOG_BASE) / 2))
    (ringStep N (N >>> LOG_BASE))
    { mem := st.mem, blocks := st.blocks, bp := st.np, j := 0 }

/-- The four block positions that the specification gives for step `j` of
ring `i`. -/
def quadPos (size i j : Nat) : List (Nat × Nat) :=
  [(i, j), (j, size - 1 - i), (size - 1 - i, size - 1 - j), (size - 1 - j, i)]

/-- The block positions that the specification gives for the ring loop: the
four positions of every step `j < size / 2` of every ring
`i < (size + 1) / 2`. -/
def ringPos (size : Nat) : List (Nat × Nat) :=
  (List.range ((size + 1) / 2)).flatMap
    (fun i => (List.range (size / 2)).flatMap (fun j => quadPos size i j))

/-- The block positions that the specification gives for the whole walk: those
of the ring loop, and the center position when `size` is odd. -/
def walkPos (size : Nat) : List (Nat × Nat) :=
  ringPos size ++ (if size % 2 = 1 then [(size / 2, size / 2)] else [])

/-- Word offset of local row `k` of the block at position `p`. -/
def rowAddr (size : Nat) (p : Nat × Nat) (k : Nat) : Nat := p.1 * 64 * size + p.2 + k * size

/-- The word offsets that one execution of `fillStep` with counter `k` loads
from, in order. -/
def fillReads (size : Nat) (bp : Ptrs) (k : Nat) : List Int :=
  [bp.p1 + size * k, bp.p2 + size * k, bp.p3 + size * k, bp.p4 + size * k]

/-- The word offsets that one execution of `writeStep` with counter `k`
stores to, in order. -/
def writeStores (size : Nat) (bp : Ptrs) (k : Nat) : List Int :=
  [bp.p2 + size * k, bp.p3 + size * k, bp.p4 + size * k, bp.p1 + size * k]

/-- The word offsets loaded from during the ring step that starts in `s`: those
of the executed iterations of its load loop. -/
def stepReads (size : Nat) (s : JState) : List Int :=
  (whileTrace BASE (fun st => decide (st.2 < BASE)) (fillStep s.mem size s.bp)
    (s.blocks, 0)).flatMap (fun st => fillReads size s.bp st.2)

/-- The word offsets stored to during the ring step that starts in `s`: those
of the executed iterations of its store loop, which reads the scratch blocks
that the step leaves. -/
def stepWrites (N size : Nat) (s : JState) : List Int :=
  match ringStep N size s with
  | some s' =>
    (whileTrace BASE (fun st => decide (st.2 < BASE)) (writeStep s'.blocks size s.bp)
      (s.mem, 0)).flatMap (fun st => writeStores size s.bp st.2)
  | none => []

/-- The word offsets loaded from during the center step. -/
def centerReads (mem block_1 : List Nat) (size : Nat) : List Int :=
  let column_index := size >>> 1
  let row_index := (size >>> 1) <<< LOG_BASE
  let p : Int := ((row_index * size + column_index : Nat) : Int)
  (whileTrace BASE (fun st => decide (st.2 < BASE)) (centerFillStep mem size p)
    (block_1, 0)).map (fun st => p + size * st.2)

/-- The word offsets stored to during the center step. -/
def centerWrites (mem block_1 : List Nat) (size : Nat) : List Int :=
  let column_index := size >>> 1
  let row_index := (size >>> 1) <<< LOG_BASE
  let p : Int := ((row_index * size + column_index : Nat) : Int)
  match (whileLoop BASE (fun st => decide (st.2 < BASE)) (centerFillStep mem size p)
      (block_1, 0)).bind (fun f => transpose_64 f.1) with
  | some t =>
    (whileTrace BASE (fun st => decide (st.2 < BASE)) (centerWriteStep t size p)
      (mem, 0)).map (fun st => p + size * st.2)
  | none => []

/-- The word offsets that `rotate_bit_matrix(img, N)` loads from, in order:
those of every executed ring step, then those of the center step when it is
executed. -/
def runReads (img : List Nat) (N : Nat) : List Int :=
  (ringTrace img N).flatMap
      (fun st => (stepTrace N st).flatMap (stepReads (N >>> LOG_BASE))) ++
    (if (N >>> LOG_BASE) &&& 1 ≠ 0 then
      match whileLoop N (fun s => decide (s.i < ((N >>> LOG_BASE) + 1) / 2))
          (ringBody N (N >>> LOG_BASE)) (ringStart img N) with
      | some s1 => centerReads s1.mem s1.blocks.block_1 (N >>> LOG_BASE)
      | none => []
    else [])

/-- The word offsets that `rotate_bit_matrix(img, N)` stores to, in order. -/
def runWrites (img : List Nat) (N : Nat) : List Int :=
  (ringTrace img N).flatMap
      (fun st => (stepTrace N st).flatMap (stepWrites N (N >>> LOG_BASE))) ++
    (if (N >>> LOG_BASE) &&& 1 ≠ 0 then
      match whileLoop N (fun s => decide (s.i < ((N >>> LOG_BASE) + 1) / 2))
          (ringBody N (N >>> LOG_BASE)) (ringStart img N) with
      | some s1 => centerWrites s1.mem s1.blocks.block_1 (N >>> LOG_BASE)
      | none => []
    else [])

/-- Cell (row `i`, column `j`) of an `N × N` bit matrix when the columns of a
word are numbered from its least-significant bit: bit `j % 64` of word
`i * (N / 64) + j / 64`. -/
def cellLSB (mem : List Nat) (N i j : Nat) : Bool :=
  (word mem (i * (N / 64) + j / 64)).testBit (j % 64)

/-- The elementwise XOR of two buffers, or of two blocks of words. -/
def xorBuf (A B : List Nat) : List Nat := List.zipWith (fun a b => a ^^^ b) A B

/-! ## Proof rules for loops and arrays -/

/-- Invariant rule for `whileLoop`: if `I t` holds before iteration `t`, the
guard holds and the body succeeds while `t < n`, and the guard fails at `n`,
then a loop with fuel at least `n` stops in a state satisfying `I n`. -/
theorem whileLoop_inv {σ : Type} (cond : σ → Bool) (body : σ → Option σ)
    (I : Nat → σ → Prop) (n : Nat)
    (hstep : ∀ t s, t < n → I t s → cond s = true ∧ ∃ s', body s = some s' ∧ I (t + 1) s')
    (hexit : ∀ s, I n s → cond s = false)
    (fuel : Nat) (hf : n ≤ fuel) (s0 : σ) (h0 : I 0 s0) :
    ∃ s', whileLoop fuel cond body s0 = some s' ∧ I n s' := by
  have key : ∀ (d fuel t : Nat) (s : σ), t + d = n → d ≤ fuel → I t s →
      ∃ s', whileLoop fuel cond body s = some s' ∧ I n s' := by
    intro d
    induction d with
    | zero =>
      intro fuel t s ht _ hI
      have htn : t = n := by omega
      subst htn
      refine ⟨s, ?_, hI⟩
      cases fuel <;> simp [whileLoop, hexit s hI]
    | succ d ih =>
      intro fuel t s ht hfu hI
      obtain ⟨hc, s', hb, hI'⟩ := hstep t s (by omega) hI
      cases fuel with
      | zero => omega
      | succ fuel =>
        obtain ⟨s'', hw, hI''⟩ := ih fuel (t + 1) s' (by omega) (by omega) hI'
        exact ⟨s'', by simp [whileLoop, hc, hb, hw], hI''⟩
  exact key n fuel 0 s0 (by omega) hf h0

theorem getD_set_nat (l : List Nat) (i j v : Nat) :
    (l.set i v).getD j 0 = if i = j ∧ i < l.length then v else l.getD j 0 := by
  simp only [List.getD_eq_getElem?_getD, List.getElem?_set]
  by_cases h : i = j
  · subst h
    by_cases h2 : i < l.length
    · simp [h2]
    · simp [h2, List.getElem?_eq_none (Nat.le_of_not_lt h2)]
  · simp [h]

theorem rd_nat (a : List Nat) (i : Nat) (h : i < a.length) :
    rd a (i : Int) = some (a.getD i 0) := by
  simp [rd, List.getD_eq_getElem?_getD, List.getElem?_eq_getElem h]

theorem wr_nat (a : List Nat) (i v : Nat) (h : i < a.length) :
    wr a (i : Int) v = some (a.set i v) := by
  simp [wr, h]

/-! ## One stage of `transpose_64`, word by word -/

theorem swapStep_spec (swap : Nat → Nat → Nat → Nat → Nat × Nat) (shift mask : Nat)
    (img : List Nat) (idx : Nat) (hlen : img.length = 64) (h : idx + shift < 64) :
    swapStep swap shift mask (img, idx) =
      some ((img.set (idx + shift)
              (swap (img.getD (idx + shift) 0) (img.getD idx 0) shift mask).1).set idx
              (swap (img.getD (idx + shift) 0) (img.getD idx 0) shift mask).2, idx + 1) := by
  have h1 : rd img ((idx : Int) + (shift : Int)) = some (img.getD (idx + shift) 0) := by
    rw [← Nat.cast_add]; exact rd_nat _ _ (by omega)
  have h2 : rd img (idx : Int) = some (img.getD idx 0) := rd_nat _ _ (by omega)
  simp only [swapStep, h1, h2, Option.bind_eq_bind, Option.some_bind, bind, Option.bind]
  rw [← Nat.cast_add, wr_nat _ _ _ (by omega)]
  simp only []
  rw [wr_nat _ _ _ (by simp; omega)]

theorem groupStep_spec (swap : Nat → Nat → Nat → Nat → Nat × Nat) (shift mask : Nat)
    (img : List Nat) (k : Nat) (hlen : img.length = 64) (hs : 0 < shift)
    (hk : k + 2 * shift ≤ 64) :
    ∃ img', groupStep swap shift mask (img, k) = some (img', k + 2 * shift) ∧
      img'.length = 64 ∧
      ∀ x, img'.getD x 0 =
        if k ≤ x ∧ x < k + shift then
          (swap (img.getD (x + shift) 0) (img.getD x 0) shift mask).2
        else if k + shift ≤ x ∧ x < k + 2 * shift then
          (swap (img.getD x 0) (img.getD (x - shift) 0) shift mask).1
        else img.getD x 0 := by
  have hloop := whileLoop_inv (fun s : List Nat × Nat => decide (s.2 < shift + k))
    (swapStep swap shift mask)
    (fun t s => s.2 = k + t ∧ s.1.length = 64 ∧
      ∀ x, s.1.getD x 0 =
        if k ≤ x ∧ x < k + t then
          (swap (img.getD (x + shift) 0) (img.getD x 0) shift mask).2
        else if k + shift ≤ x ∧ x < k + shift + t then
          (swap (img.getD x 0) (img.getD (x - shift) 0) shift mask).1
        else img.getD x 0) shift
    (by
      rintro t ⟨im, idx⟩ ht ⟨hidx, hl, hv⟩
      simp only at hidx hl hv
      subst hidx
      refine ⟨by simp; omega, ?_⟩
      rw [swapStep_spec swap shift mask im (k + t) hl (by omega)]
      refine ⟨_, rfl, by simp only; omega, by simp [hl], ?_⟩
      intro x
      simp only [getD_set_nat, List.length_set, hl]
      have e1 := hv (k + t + shift)
      have e2 := hv (k + t)
      rw [if_neg (by omega), if_neg (by omega)] at e1
      rw [if_neg (by omega), if_neg (by omega)] at e2
      rw [e1, e2]
      by_cases c1 : k + t = x
      · subst c1
        split_ifs <;> first | rfl | (exfalso; omega)
      · by_cases c2 : k + t + shift = x
        · subst c2
          have e3 : k + t + shift - shift = k + t := by omega
          rw [e3]
          split_ifs <;> first | rfl | (exfalso; omega)
        · rw [hv x]
          split_ifs <;> first | rfl | (exfalso; omega))
    (by
      rintro ⟨im, idx⟩ ⟨hidx, _, _⟩
      simp only at hidx
      simp; omega)
    BASE (by simp [BASE]; omega) (img, k)
    ⟨by simp, hlen, by intro x; rw [if_neg (by omega), if_neg (by omega)]⟩
  obtain ⟨⟨im, idx⟩, hw, hidx, hl, hv⟩ := hloop
  refine ⟨im, ?_, hl, ?_⟩
  · simp only [groupStep, hw, Option.bind_eq_bind, Option.some_bind, bind, Option.bind]
    simp [Nat.shiftLeft_eq]; omega
  · intro x
    rw [hv x]
    split_ifs <;> first | rfl | (exfalso; omega)

theorem stage_spec (swap : Nat → Nat → Nat → Nat → Nat × Nat) (shift mask : Nat)
    (hs : shift = 32 ∨ shift = 16 ∨ shift = 8 ∨ shift = 4 ∨ shift = 2 ∨ shift = 1)
    (img : List Nat) (hlen : img.length = 64) :
    ∃ img', stage swap shift mask img = some img' ∧ img'.length = 64 ∧
      ∀ x, x < 64 → img'.getD x 0 = stageWord swap shift mask img x := by
  have hpos : 0 < shift := by omega
  have hdiv : 2 * shift * (32 / shift) = 64 := by
    rcases hs with h | h | h | h | h | h <;> subst h <;> rfl
  have hloop := whileLoop_inv (fun s : List Nat × Nat => decide (s.2 < BASE))
    (groupStep swap shift mask)
    (fun t s => s.2 = 2 * shift * t ∧ s.1.length = 64 ∧
      ∀ x, s.1.getD x 0 = if x < 2 * shift * t then stageWord swap shift mask img x
        else img.getD x 0) (32 / shift)
    (by
      rintro t ⟨im, k⟩ ht ⟨hk, hl, hv⟩
      simp only at hk hl hv
      subst hk
      have hle : 2 * shift * (t + 1) ≤ 64 := by
        rw [← hdiv]; exact Nat.mul_le_mul_left _ (by omega)
      have hexp : 2 * shift * (t + 1) = 2 * shift * t + 2 * shift := by ring
      refine ⟨by simp [BASE]; omega, ?_⟩
      obtain ⟨im', hg, hl', hv'⟩ :=
        groupStep_spec swap shift mask im (2 * shift * t) hl hpos (by omega)
      refine ⟨_, hg, by simp only; omega, hl', ?_⟩
      intro x
      simp only
      rw [hv' x, hexp]
      have hq : ∀ y, 2 * shift * t ≤ y → y < 2 * shift * t + 2 * shift →
          y / shift = 2 * t + (y - 2 * shift * t) / shift := by
        intro y h1 h2
        have : y = (y - 2 * shift * t) + shift * (2 * t) := by
          have : shift * (2 * t) = 2 * shift * t := by ring
          omega
        conv_lhs => rw [this]
        rw [Nat.add_mul_div_left _ _ hpos]; omega
      by_cases c1 : 2 * shift * t ≤ x ∧ x < 2 * shift * t + shift
      · have hx : (x / shift) % 2 = 0 := by
          rw [hq x c1.1 (by omega), Nat.div_eq_of_lt (by omega)]; omega
        have e1 := hv (x + shift)
        have e2 := hv x
        rw [if_neg (by omega)] at e1 e2
        rw [if_pos c1, if_pos (by omega), e1, e2]
        simp only [stageWord, hx, if_true]
      · rw [if_neg c1]
        by_cases c2 : 2 * shift * t + shift ≤ x ∧ x < 2 * shift * t + 2 * shift
        · have hx : (x / shift) % 2 = 1 := by
            rw [hq x (by omega) c2.2]
            have : (x - 2 * shift * t) / shift = 1 := by
              apply Nat.div_eq_of_lt_le <;> omega
            omega
          have e1 := hv (x - shift)
          have e2 := hv x
          rw [if_neg (by omega)] at e1 e2
          rw [if_pos c2, if_pos (by omega), e1, e2]
          simp [stageWord, hx]
        · rw [if_neg c2, hv x]
          split_ifs <;> first | rfl | (exfalso; omega))
    (by
      rintro ⟨im, k⟩ ⟨hk, _, _⟩
      simp only at hk
      simp [BASE]; omega)
    BASE (by rcases hs with h | h | h | h | h | h <;> subst h <;> simp [BASE]) (img, 0)
    ⟨by simp, hlen, by intro x; simp⟩
  obtain ⟨⟨im, k⟩, hw, hk, hl, hv⟩ := hloop
  refine ⟨im, ?_, hl, ?_⟩
  · simp [stage, hw]
  · intro x hx
    rw [hv x, if_pos (by omega)]

/-! ## The swaps, bit by bit -/

theorem testBit_false_of_ge (m n i : Nat) (hm : m < 2 ^ n) (hi : n ≤ i) :
    m.testBit i = false :=
  Nat.testBit_lt_two_pow (lt_of_lt_of_le hm (Nat.pow_le_pow_right (by decide) hi))

theorem SWAP_BYTES_fst_testBit (a b s m p : Nat) :
    (SWAP_BYTES a b s m).1.testBit p =
      if m.testBit p then (decide (p < 64) && (decide (s ≤ p) && b.testBit (p - s)))
      else a.testBit p := by
  simp only [SWAP_BYTES, Nat.testBit_xor, Nat.testBit_and, Nat.testBit_mod_two_pow,
    Nat.testBit_shiftLeft, ge_iff_le]
  cases m.testBit p <;> cases a.testBit p <;> simp

theorem SWAP_BYTES_snd_testBit (a b s m q : Nat) (hm : m < 2 ^ 64) :
    (SWAP_BYTES a b s m).2.testBit q =
      if m.testBit (s + q) then a.testBit (s + q) else b.testBit q := by
  simp only [SWAP_BYTES, Nat.testBit_xor, Nat.testBit_and, Nat.testBit_mod_two_pow,
    Nat.testBit_shiftLeft, Nat.testBit_shiftRight, ge_iff_le]
  by_cases h : m.testBit (s + q) = true
  · have hlt : s + q < 64 := by
      by_contra hc
      rw [testBit_false_of_ge m 64 (s + q) hm (by omega)] at h
      exact Bool.noConfusion h
    have e : s + q - s = q := by omega
    simp only [h, hlt, e, if_true, decide_True, Bool.and_true, Bool.true_and,
      Nat.le_add_right]
    cases a.testBit (s + q) <;> cases b.testBit q <;> rfl
  · simp [h]

theorem SWAP_WITHIN_BYTES_fst_testBit (a b s m p : Nat) :
    (SWAP_WITHIN_BYTES a b s m).1.testBit p =
      if m.testBit p then b.testBit (s + p) else a.testBit p := by
  simp only [SWAP_WITHIN_BYTES, Nat.testBit_xor, Nat.testBit_and, Nat.testBit_shiftRight]
  cases m.testBit p <;> cases a.testBit p <;> simp

theorem SWAP_WITHIN_BYTES_snd_testBit (a b s m q : Nat) (hq : q < 64) :
    (SWAP_WITHIN_BYTES a b s m).2.testBit q =
      if s ≤ q ∧ m.testBit (q - s) = true then a.testBit (q - s) else b.testBit q := by
  simp only [SWAP_WITHIN_BYTES, Nat.testBit_xor, Nat.testBit_and, Nat.testBit_mod_two_pow,
    Nat.testBit_shiftLeft, Nat.testBit_shiftRight, ge_iff_le]
  by_cases h1 : s ≤ q
  · have e : s + (q - s) = q := by omega
    by_cases h2 : m.testBit (q - s) = true
    · simp only [h1, h2, hq, e, and_self, if_true, decide_True, Bool.and_true, Bool.true_and]
      cases a.testBit (q - s) <;> cases b.testBit q <;> rfl
    · simp [h1, h2]
  · simp [h1]

theorem SWAP_BYTES_lt (a b s m : Nat) (ha : a < 2 ^ 64) (hb : b < 2 ^ 64) (hm : m < 2 ^ 64) :
    (SWAP_BYTES a b s m).1 < 2 ^ 64 ∧ (SWAP_BYTES a b s m).2 < 2 ^ 64 := by
  have ht : (a ^^^ ((b <<< s) % 2 ^ 64)) &&& m < 2 ^ 64 := Nat.and_lt_two_pow _ hm
  refine ⟨Nat.xor_lt_two_pow ha ht, Nat.xor_lt_two_pow hb ?_⟩
  exact lt_of_le_of_lt (by rw [Nat.shiftRight_eq_div_pow]; exact Nat.div_le_self _ _) ht

theorem SWAP_WITHIN_BYTES_lt (a b s m : Nat) (ha : a < 2 ^ 64) (hb : b < 2 ^ 64)
    (hm : m < 2 ^ 64) :
    (SWAP_WITHIN_BYTES a b s m).1 < 2 ^ 64 ∧ (SWAP_WITHIN_BYTES a b s m).2 < 2 ^ 64 := by
  have ht : (a ^^^ (b >>> s)) &&& m < 2 ^ 64 := Nat.and_lt_two_pow _ hm
  exact ⟨Nat.xor_lt_two_pow ha ht, Nat.xor_lt_two_pow hb (Nat.mod_lt _ (by decide))⟩

/-! ## One stage of `transpose_64`, bit by bit -/

theorem stageWord_cross_testBit (s m : Nat) (hs : s = 32 ∨ s = 16 ∨ s = 8)
    (hm : m < 2 ^ 64) (hmb : ∀ p, p < 64 → m.testBit p = decide ((p / s) % 2 = 1))
    (img : List Nat) (x p : Nat) (hp : p < 64) :
    (stageWord SWAP_BYTES s m img x).testBit p =
      (img.getD (crossIdx s (x, p)).1 0).testBit (crossIdx s (x, p)).2 := by
  unfold stageWord
  by_cases hx : (x / s) % 2 = 0
  · rw [if_pos hx, SWAP_BYTES_snd_testBit _ _ _ _ _ hm]
    by_cases hpp : (p / s) % 2 = 0
    · have h64 : s + p < 64 := by rcases hs with h | h | h <;> subst h <;> omega
      have hb : m.testBit (s + p) = true := by
        rw [hmb _ h64]
        have : ((s + p) / s) % 2 = 1 := by rcases hs with h | h | h <;> subst h <;> omega
        simp [this]
      have hR : crossIdx s (x, p) = (x + s, p + s) := by simp [crossIdx, hx, hpp]
      rw [hb, if_pos rfl, hR, Nat.add_comm s p]
    · have hb : m.testBit (s + p) = false := by
        by_cases h64 : s + p < 64
        · rw [hmb _ h64]
          have : ¬ ((s + p) / s) % 2 = 1 := by
            rcases hs with h | h | h <;> subst h <;> omega
          simp [this]
        · exact testBit_false_of_ge m 64 _ hm (by omega)
      have hR : crossIdx s (x, p) = (x, p) := by
        have hne : ¬ ((x / s) % 2 = (p / s) % 2) := by omega
        simp [crossIdx, hne]
      rw [hb, if_neg (by simp), hR]
  · rw [if_neg hx, SWAP_BYTES_fst_testBit, hmb p hp]
    by_cases hpp : (p / s) % 2 = 1
    · have hle : s ≤ p := by rcases hs with h | h | h <;> subst h <;> omega
      have hR : crossIdx s (x, p) = (x - s, p - s) := by
        have heq : (x / s) % 2 = (p / s) % 2 := by omega
        simp [crossIdx, heq, hpp]
      rw [hR]
      simp [hpp, hp, hle]
    · have hR : crossIdx s (x, p) = (x, p) := by
        have hne : ¬ ((x / s) % 2 = (p / s) % 2) := by omega
        simp [crossIdx, hne]
      rw [hR]
      simp [hpp]

theorem stageWord_within_testBit (s m : Nat) (hs : s = 4 ∨ s = 2 ∨ s = 1)
    (hmb : ∀ p, p < 64 → m.testBit p = decide ((p / s) % 2 = 0))
    (img : List Nat) (x p : Nat) (hp : p < 64) :
    (stageWord SWAP_WITHIN_BYTES s m img x).testBit p =
      (img.getD (withinIdx s (x, p)).1 0).testBit (withinIdx s (x, p)).2 := by
  unfold stageWord
  by_cases hx : (x / s) % 2 = 0
  · rw [if_pos hx, SWAP_WITHIN_BYTES_snd_testBit _ _ _ _ _ hp]
    by_cases hpp : (p / s) % 2 = 0
    · have hc : ¬ (s ≤ p ∧ m.testBit (p - s) = true) := by
        rintro ⟨h1, h2⟩
        rw [hmb _ (by omega)] at h2
        have : ((p - s) / s) % 2 = 0 := by simpa using h2
        rcases hs with h | h | h <;> subst h <;> omega
      have hR : withinIdx s (x, p) = (x, p) := by simp [withinIdx, hx, hpp]
      rw [if_neg hc, hR]
    · have hle : s ≤ p := by rcases hs with h | h | h <;> subst h <;> omega
      have hb : m.testBit (p - s) = true := by
        rw [hmb _ (by omega)]
        have : ((p - s) / s) % 2 = 0 := by rcases hs with h | h | h <;> subst h <;> omega
        simp [this]
      have hR : withinIdx s (x, p) = (x + s, p - s) := by
        have hne : ¬ ((x / s) % 2 = (p / s) % 2) := by omega
        simp only [withinIdx, if_neg hne, if_pos hx]
      rw [if_pos ⟨hle, hb⟩, hR]
  · rw [if_neg hx, SWAP_WITHIN_BYTES_fst_testBit, hmb p hp]
    by_cases hpp : (p / s) % 2 = 0
    · have hR : withinIdx s (x, p) = (x - s, p + s) := by
        have hne : ¬ ((x / s) % 2 = (p / s) % 2) := by omega
        simp only [withinIdx, if_neg hne, if_neg hx]
      rw [hR, Nat.add_comm s p]
      simp [hpp]
    · have hR : withinIdx s (x, p) = (x, p) := by
        have heq : (x / s) % 2 = (p / s) % 2 := by omega
        simp only [withinIdx, if_pos heq]
      rw [hR]
      simp [hpp]

theorem stageWord_lt (swap : Nat → Nat → Nat → Nat → Nat × Nat) (s m : Nat)
    (hswap : ∀ a b, a < 2 ^ 64 → b < 2 ^ 64 →
      (swap a b s m).1 < 2 ^ 64 ∧ (swap a b s m).2 < 2 ^ 64)
    (img : List Nat) (himg : ∀ x, img.getD x 0 < 2 ^ 64) (x : Nat) :
    stageWord swap s m img x < 2 ^ 64 := by
  unfold stageWord
  split_ifs
  · exact (hswap _ _ (himg _) (himg _)).2
  · exact (hswap _ _ (himg _) (himg _)).1

/-! ## The six stages of `transpose_64` -/

theorem whileLoop_step {σ : Type} (n : Nat) (cond : σ → Bool) (body : σ → Option σ)
    (s s' : σ) (hc : cond s = true) (hb : body s = some s') :
    whileLoop (n + 1) cond body s = whileLoop n cond body s' := by
  simp [whileLoop, hc, hb]

theorem whileLoop_done {σ : Type} (fuel : Nat) (cond : σ → Bool) (body : σ → Option σ)
    (s : σ) (hc : cond s = false) : whileLoop fuel cond body s = some s := by
  cases fuel <;> simp [whileLoop, hc]

theorem crossIdx_lt (s : Nat) (hs : s = 32 ∨ s = 16 ∨ s = 8) (xp : Nat × Nat)
    (h1 : xp.1 < 64) (h2 : xp.2 < 64) :
    (crossIdx s xp).1 < 64 ∧ (crossIdx s xp).2 < 64 := by
  unfold crossIdx
  rcases hs with h | h | h <;> subst h <;> split_ifs <;> constructor <;> omega

theorem withinIdx_lt (s : Nat) (hs : s = 4 ∨ s = 2 ∨ s = 1) (xp : Nat × Nat)
    (h1 : xp.1 < 64) (h2 : xp.2 < 64) :
    (withinIdx s xp).1 < 64 ∧ (withinIdx s xp).2 < 64 := by
  unfold withinIdx
  rcases hs with h | h | h <;> subst h <;> split_ifs <;> constructor <;> omega

theorem getD_lt_of_stage (img' : List Nat) (hl : img'.length = 64) (f : Nat → Nat)
    (hv : ∀ x, x < 64 → img'.getD x 0 = f x) (hf : ∀ x, f x < 2 ^ 64) :
    ∀ x, img'.getD x 0 < 2 ^ 64 := by
  intro x
  by_cases hx : x < 64
  · rw [hv x hx]; exact hf x
  · rw [List.getD_eq_default _ _ (by omega)]; decide

theorem stage_cross (s m : Nat) (hs : s = 32 ∨ s = 16 ∨ s = 8)
    (hm : m < 2 ^ 64) (hmb : ∀ p, p < 64 → m.testBit p = decide ((p / s) % 2 = 1))
    (img : List Nat) (hlen : img.length = 64) :
    ∃ img', stage SWAP_BYTES s m img = some img' ∧ img'.length = 64 ∧
      (∀ xp : Nat × Nat, xp.1 < 64 → xp.2 < 64 →
        (img'.getD xp.1 0).testBit xp.2 =
          (img.getD (crossIdx s xp).1 0).testBit (crossIdx s xp).2) ∧
      ((∀ x, img.getD x 0 < 2 ^ 64) → ∀ x, img'.getD x 0 < 2 ^ 64) := by
  obtain ⟨img', h, hl, hv⟩ := stage_spec SWAP_BYTES s m (by omega) img hlen
  refine ⟨img', h, hl, ?_, ?_⟩
  · rintro ⟨x, p⟩ hx hp
    simp only at hx hp
    simp only [hv x hx]
    exact stageWord_cross_testBit s m hs hm hmb img x p hp
  · intro hb
    exact getD_lt_of_stage img' hl _ hv
      (stageWord_lt SWAP_BYTES s m (fun a b ha hb' => SWAP_BYTES_lt a b s m ha hb' hm) img hb)

theorem stage_within (s m : Nat) (hs : s = 4 ∨ s = 2 ∨ s = 1)
    (hm : m < 2 ^ 64) (hmb : ∀ p, p < 64 → m.testBit p = decide ((p / s) % 2 = 0))
    (img : List Nat) (hlen : img.length = 64) :
    ∃ img', stage SWAP_WITHIN_BYTES s m img = some img' ∧ img'.length = 64 ∧
      (∀ xp : Nat × Nat, xp.1 < 64 → xp.2 < 64 →
        (img'.getD xp.1 0).testBit xp.2 =
          (img.getD (withinIdx s xp).1 0).testBit (withinIdx s xp).2) ∧
      ((∀ x, img.getD x 0 < 2 ^ 64) → ∀ x, img'.getD x 0 < 2 ^ 64) := by
  obtain ⟨img', h, hl, hv⟩ := stage_spec SWAP_WITHIN_BYTES s m (by omega) img hlen
  refine ⟨img', h, hl, ?_, ?_⟩
  · rintro ⟨x, p⟩ hx hp
    simp only at hx hp
    simp only [hv x hx]
    exact stageWord_within_testBit s m hs hmb img x p hp
  · intro hb
    exact getD_lt_of_stage img' hl _ hv
      (stageWord_lt SWAP_WITHIN_BYTES s m
        (fun a b ha hb' => SWAP_WITHIN_BYTES_lt a b s m ha hb' hm) img hb)

theorem srcIdx_check :
    (List.range 64).all (fun x => (List.range 64).all (fun p => srcIdxOk x p)) = true := by
  decide!

theorem srcIdx_eq (x : Nat) (hx : x < 64) (p : Nat) (hp : p < 64) :
    srcIdx (x, p) = (8 * (7 - p / 8) + p % 8, 8 * (7 - x / 8) + x % 8) := by
  have h := srcIdx_check
  rw [List.all_eq_true] at h
  have h2 := h x (List.mem_range.mpr hx)
  rw [List.all_eq_true] at h2
  have h3 := h2 p (List.mem_range.mpr hp)
  simpa [srcIdxOk] using h3

theorem mask32_bits : ∀ p, p < 64 →
    (0xFFFFFFFF00000000 : Nat).testBit p = decide ((p / 32) % 2 = 1) := by decide!

theorem mask16_bits : ∀ p, p < 64 →
    (0xFFFF0000FFFF0000 : Nat).testBit p = decide ((p / 16) % 2 = 1) := by decide!

theorem mask8_bits : ∀ p, p < 64 →
    (0xFF00FF00FF00FF00 : Nat).testBit p = decide ((p / 8) % 2 = 1) := by decide!

theorem mask4_bits : ∀ p, p < 64 →
    (0x0F0F0F0F0F0F0F0F : Nat).testBit p = decide ((p / 4) % 2 = 0) := by decide!

theorem mask2_bits : ∀ p, p < 64 →
    (0x3333333333333333 : Nat).testBit p = decide ((p / 2) % 2 = 0) := by decide!

theorem mask1_bits : ∀ p, p < 64 →
    (0x5555555555555555 : Nat).testBit p = decide ((p / 1) % 2 = 0) := by decide!

theorem crossBody_eq (img : List Nat) (m s : Nat) (img' : List Nat)
    (h : stage SWAP_BYTES s m img = some img') :
    crossBody { img := img, mask := m, shift := s } =
      some { img := img', mask := m ^^^ (m >>> (s >>> 1)), shift := s >>> 1 } := by
  simp [crossBody, h]

theorem withinBody_eq (img : List Nat) (m s : Nat) (img' : List Nat)
    (h : stage SWAP_WITHIN_BYTES s m img = some img') :
    withinBody { img := img, mask := m, shift := s } =
      some { img := img', mask := m ^^^ ((m <<< (s >>> 1)) % 2 ^ 64), shift := s >>> 1 } := by
  simp [withinBody, h]

/-- What `transpose_64` computes on a block of 64 words: it returns, the
output has 64 words, bit `p` of output word `x` is bit `8*(7 - x/8) + x%8` of
input word `8*(7 - p/8) + p%8`, and 64-bit words stay 64-bit words. -/
theorem transpose_64_spec (B : List Nat) (hlen : B.length = 64) :
    ∃ out, transpose_64 B = some out ∧ out.length = 64 ∧
      (∀ x, x < 64 → ∀ p, p < 64 →
        (out.getD x 0).testBit p =
          (B.getD (8 * (7 - p / 8) + p % 8) 0).testBit (8 * (7 - x / 8) + x % 8)) ∧
      ((∀ x, B.getD x 0 < 2 ^ 64) → ∀ x, out.getD x 0 < 2 ^ 64) := by
  obtain ⟨i1, h1, l1, v1, b1⟩ := stage_cross 32 0xFFFFFFFF00000000 (by simp) (by decide)
    mask32_bits B hlen
  obtain ⟨i2, h2, l2, v2, b2⟩ := stage_cross 16 0xFFFF0000FFFF0000 (by simp) (by decide)
    mask16_bits i1 l1
  obtain ⟨i3, h3, l3, v3, b3⟩ := stage_cross 8 0xFF00FF00FF00FF00 (by simp) (by decide)
    mask8_bits i2 l2
  obtain ⟨i4, h4, l4, v4, b4⟩ := stage_within 4 0x0F0F0F0F0F0F0F0F (by simp) (by decide)
    mask4_bits i3 l3
  obtain ⟨i5, h5, l5, v5, b5⟩ := stage_within 2 0x3333333333333333 (by simp) (by decide)
    mask2_bits i4 l4
  obtain ⟨i6, h6, l6, v6, b6⟩ := stage_within 1 0x5555555555555555 (by simp) (by decide)
    mask1_bits i5 l5
  refine ⟨i6, ?_, l6, ?_, fun hb => b6 (b5 (b4 (b3 (b2 (b1 hb)))))⟩
  · have c1 : crossBody { img := B, mask := 0xFFFFFFFF00000000, shift := 32 } =
        some { img := i1, mask := 0xFFFF0000FFFF0000, shift := 16 } := by
      rw [crossBody_eq _ _ _ _ h1, show (32 : Nat) >>> 1 = 16 from by decide,
        show (0xFFFFFFFF00000000 : Nat) ^^^ (0xFFFFFFFF00000000 >>> 16) = 0xFFFF0000FFFF0000
          from by decide]
    have c2 : crossBody { img := i1, mask := 0xFFFF0000FFFF0000, shift := 16 } =
        some { img := i2, mask := 0xFF00FF00FF00FF00, shift := 8 } := by
      rw [crossBody_eq _ _ _ _ h2, show (16 : Nat) >>> 1 = 8 from by decide,
        show (0xFFFF0000FFFF0000 : Nat) ^^^ (0xFFFF0000FFFF0000 >>> 8) = 0xFF00FF00FF00FF00
          from by decide]
    have c3 : crossBody { img := i2, mask := 0xFF00FF00FF00FF00, shift := 8 } =
        some { img := i3, mask := 0xF0F0F0F0F0F0F0F0, shift := 4 } := by
      rw [crossBody_eq _ _ _ _ h3, show (8 : Nat) >>> 1 = 4 from by decide,
        show (0xFF00FF00FF00FF00 : Nat) ^^^ (0xFF00FF00FF00FF00 >>> 4) = 0xF0F0F0F0F0F0F0F0
          from by decide]
    have c4 : withinBody { img := i3, mask := 0x0F0F0F0F0F0F0F0F, shift := 4 } =
        some { img := i4, mask := 0x3333333333333333, shift := 2 } := by
      rw [withinBody_eq _ _ _ _ h4, show (4 : Nat) >>> 1 = 2 from by decide,
        show (0x0F0F0F0F0F0F0F0F : Nat) ^^^ ((0x0F0F0F0F0F0F0F0F <<< 2) % 2 ^ 64) =
          0x3333333333333333 from by decide]
    have c5 : withinBody { img := i4, mask := 0x3333333333333333, shift := 2 } =
        some { img := i5, mask := 0x5555555555555555, shift := 1 } := by
      rw [withinBody_eq _ _ _ _ h5, show (2 : Nat) >>> 1 = 1 from by decide,
        show (0x3333333333333333 : Nat) ^^^ ((0x3333333333333333 <<< 1) % 2 ^ 64) =
          0x5555555555555555 from by decide]
    have c6 : withinBody { img := i5, mask := 0x5555555555555555, shift := 1 } =
        some { img := i6, mask := 0, shift := 0 } := by
      rw [withinBody_eq _ _ _ _ h6, show (1 : Nat) >>> 1 = 0 from by decide,
        show (0x5555555555555555 : Nat) ^^^ ((0x5555555555555555 <<< 0) % 2 ^ 64) =
          0 from by decide]
    have w1 : whileLoop BASE (fun s : TState => s.shift != 4) crossBody
        { img := B, mask := 0xFFFFFFFF00000000, shift := BASE >>> 1 } =
        some { img := i3, mask := 0xF0F0F0F0F0F0F0F0, shift := 4 } := by
      rw [show BASE = 61 + 1 + 1 + 1 from rfl, show (61 + 1 + 1 + 1) >>> 1 = 32 from rfl,
        whileLoop_step _ _ _ _ _ rfl c1, whileLoop_step _ _ _ _ _ rfl c2,
        whileLoop_step _ _ _ _ _ rfl c3, whileLoop_done _ _ _ _ rfl]
    have w2 : whileLoop BASE (fun s : TState => s.shift != 0) withinBody
        { img := i3, mask := 0x0F0F0F0F0F0F0F0F, shift := 4 } =
        some { img := i6, mask := 0, shift := 0 } := by
      rw [show BASE = 61 + 1 + 1 + 1 from rfl,
        whileLoop_step _ _ _ _ _ rfl c4, whileLoop_step _ _ _ _ _ rfl c5,
        whileLoop_step _ _ _ _ _ rfl c6, whileLoop_done _ _ _ _ rfl]
    simp only [transpose_64, w1, Option.bind_eq_bind, Option.some_bind, bind, Option.bind]
    rw [show (0xF0F0F0F0F0F0F0F0 : Nat) >>> 4 = 0x0F0F0F0F0F0F0F0F from by decide, w2]
  · intro x hx p hp
    have r6 := withinIdx_lt 1 (by simp) (x, p) hx hp
    have r5 := withinIdx_lt 2 (by simp) _ r6.1 r6.2
    have r4 := withinIdx_lt 4 (by simp) _ r5.1 r5.2
    have r3 := crossIdx_lt 8 (by simp) _ r4.1 r4.2
    have r2 := crossIdx_lt 16 (by simp) _ r3.1 r3.2
    have e := srcIdx_eq x hx p hp
    have := v6 (x, p) hx hp
    rw [v5 _ r6.1 r6.2, v4 _ r5.1 r5.2, v3 _ r4.1 r4.2, v2 _ r3.1 r3.2, v1 _ r2.1 r2.2] at this
    rw [this]
    unfold srcIdx at e
    rw [e]

/-! ## Byte memory and its 64-bit word view -/

theorem isBytes_of_forall_mem (mem : List Nat) (h : ∀ b ∈ mem, b < 256) : isBytes mem := by
  intro x
  by_cases hx : x < mem.length
  · rw [List.getD_eq_getElem _ _ hx]
    exact h _ (List.getElem_mem hx)
  · rw [List.getD_eq_default _ _ (by omega)]; decide

theorem forall_mem_of_isBytes (mem : List Nat) (h : isBytes mem) : ∀ b ∈ mem, b < 256 := by
  intro b hb
  obtain ⟨i, hi, rfl⟩ := List.getElem_of_mem hb
  have := h i
  rwa [List.getD_eq_getElem _ _ hi] at this

theorem storeLE_length (n : Nat) : ∀ (mem : List Nat) (a v : Nat),
    (storeLE n mem a v).length = mem.length := by
  induction n with
  | zero => intro mem a v; rfl
  | succ n ih => intro mem a v; simp [storeLE, ih]

theorem storeLE_getD (n : Nat) : ∀ (mem : List Nat) (a v x : Nat),
    (storeLE n mem a v).getD x 0 =
      if a ≤ x ∧ x < a + n ∧ x < mem.length then (v / 256 ^ (x - a)) % 256
      else mem.getD x 0 := by
  induction n with
  | zero =>
    intro mem a v x
    rw [if_neg (by omega)]
    rfl
  | succ n ih =>
    intro mem a v x
    simp only [storeLE]
    rw [ih, List.length_set, getD_set_nat]
    by_cases h1 : a = x
    · subst h1
      by_cases h2 : a < mem.length
      · rw [if_neg (by omega), if_pos ⟨rfl, h2⟩, if_pos ⟨le_refl _, by omega, h2⟩]
        simp
      · rw [if_neg (by omega), if_neg (by omega), if_neg (by omega)]
    · by_cases h2 : a + 1 ≤ x ∧ x < a + 1 + n ∧ x < mem.length
      · rw [if_pos h2, if_pos ⟨by omega, by omega, h2.2.2⟩]
        have e : x - a = (x - (a + 1)) + 1 := by omega
        rw [e, pow_succ, Nat.mul_comm, Nat.div_div_eq_div_mul]
      · rw [if_neg h2, if_neg (by omega), if_neg (by omega)]

theorem loadLE_congr (n : Nat) : ∀ (m1 m2 : List Nat) (a : Nat),
    (∀ k, k < n → m1.getD (a + k) 0 = m2.getD (a + k) 0) → loadLE n m1 a = loadLE n m2 a := by
  induction n with
  | zero => intro m1 m2 a _; rfl
  | succ n ih =>
    intro m1 m2 a h
    simp only [loadLE]
    have h0 := h 0 (by omega)
    rw [Nat.add_zero] at h0
    rw [h0, ih m1 m2 (a + 1) (fun k hk => by
      have := h (k + 1) (by omega)
      rwa [show a + (k + 1) = a + 1 + k from by omega] at this)]

theorem loadLE_storeLE (n : Nat) : ∀ (mem : List Nat) (a v : Nat), a + n ≤ mem.length →
    loadLE n (storeLE n mem a v) a = v % 256 ^ n := by
  induction n with
  | zero => intro mem a v _; simp [loadLE, Nat.mod_one]
  | succ n ih =>
    intro mem a v h
    simp only [loadLE]
    have hg := storeLE_getD (n + 1) mem a v a
    rw [if_pos ⟨le_refl _, by omega, by omega⟩] at hg
    rw [hg]
    simp only [storeLE]
    rw [ih _ _ _ (by simp; omega)]
    simp only [Nat.sub_self, pow_zero, Nat.div_one]
    rw [pow_succ, Nat.mul_comm (256 ^ n) 256, Nat.mod_mul]

theorem loadLE_lt (n : Nat) : ∀ (mem : List Nat) (a : Nat), isBytes mem →
    loadLE n mem a < 256 ^ n := by
  induction n with
  | zero => intro mem a _; simp [loadLE]
  | succ n ih =>
    intro mem a h
    simp only [loadLE]
    have h1 := h a
    have h2 := ih mem (a + 1) h
    rw [pow_succ]
    omega

theorem loadLE_testBit (n : Nat) : ∀ (mem : List Nat) (a b : Nat), isBytes mem →
    (loadLE n mem a).testBit b =
      (decide (b < 8 * n) && (mem.getD (a + b / 8) 0).testBit (b % 8)) := by
  induction n with
  | zero => intro mem a b _; simp [loadLE]
  | succ n ih =>
    intro mem a b h
    simp only [loadLE]
    rw [Nat.add_comm, show (256 : Nat) = 2 ^ 8 from rfl,
      Nat.testBit_mul_pow_two_add _ (h a) b]
    by_cases hb : b < 8
    · rw [if_pos hb]
      have e1 : b / 8 = 0 := by omega
      have e2 : b % 8 = b := by omega
      have e3 : b < 8 * (n + 1) := by omega
      simp [e1, e2, e3]
    · rw [if_neg hb, ih mem (a + 1) (b - 8) h]
      have e1 : a + 1 + (b - 8) / 8 = a + b / 8 := by omega
      have e2 : (b - 8) % 8 = b % 8 := by omega
      rw [e1, e2]
      by_cases hc : b < 8 * (n + 1)
      · have : b - 8 < 8 * n := by omega
        simp [hc, this]
      · have : ¬ (b - 8 < 8 * n) := by omega
        simp [hc, this]

theorem isBytes_storeLE (n : Nat) (mem : List Nat) (a v : Nat) (h : isBytes mem) :
    isBytes (storeLE n mem a v) := by
  intro x
  rw [storeLE_getD]
  split_ifs
  · exact Nat.mod_lt _ (by decide)
  · exact h x

theorem word_lt (mem : List Nat) (q : Nat) (h : isBytes mem) : word mem q < 2 ^ 64 := by
  have := loadLE_lt 8 mem (8 * q) h
  exact lt_of_lt_of_le this (by decide)

theorem word_testBit (mem : List Nat) (q b : Nat) (h : isBytes mem) (hb : b < 64) :
    (word mem q).testBit b = (mem.getD (8 * q + b / 8) 0).testBit (b % 8) := by
  unfold word
  rw [loadLE_testBit 8 mem (8 * q) b h]
  simp [hb]

theorem load64_eq (mem : List Nat) (q : Nat) (h : 8 * q + 8 ≤ mem.length) :
    load64 mem (q : Int) = some (word mem q) := by
  simp [load64, word, h]

theorem store64_eq (mem : List Nat) (q v : Nat) (h : 8 * q + 8 ≤ mem.length) :
    store64 mem (q : Int) v = some (storeLE 8 mem (8 * q) v) := by
  simp [store64, h]

theorem word_storeLE (mem : List Nat) (q v r : Nat) (h : 8 * q + 8 ≤ mem.length) :
    word (storeLE 8 mem (8 * q) v) r = if r = q then v % 2 ^ 64 else word mem r := by
  unfold word
  by_cases hr : r = q
  · subst hr
    rw [if_pos rfl, loadLE_storeLE 8 mem (8 * r) v h, show (256 : Nat) ^ 8 = 2 ^ 64 from by decide]
  · rw [if_neg hr]
    apply loadLE_congr
    intro k hk
    rw [storeLE_getD, if_neg (by omega)]

/-! ## The inner loops of `rotate_bit_matrix` -/

theorem list_ext_getD (l1 l2 : List Nat) (n : Nat) (h1 : l1.length = n) (h2 : l2.length = n)
    (h : ∀ i, i < n → l1.getD i 0 = l2.getD i 0) : l1 = l2 := by
  apply List.ext_getElem (by omega)
  intro i hi1 hi2
  have := h i (by omega)
  rwa [List.getD_eq_getElem _ _ hi1, List.getD_eq_getElem _ _ hi2] at this

theorem fill_loop (mem : List Nat) (size : Nat) (bp : Ptrs) (b : Scratch)
    (f1 f2 f3 f4 : Nat → Nat)
    (l1 : b.block_1.length = 64) (l2 : b.block_2.length = 64)
    (l3 : b.block_3.length = 64) (l4 : b.block_4.length = 64)
    (h1 : ∀ k : Nat, k < 64 → load64 mem (bp.p1 + (size : Int) * (k : Int)) = some (f1 k))
    (h2 : ∀ k : Nat, k < 64 → load64 mem (bp.p2 + (size : Int) * (k : Int)) = some (f2 k))
    (h3 : ∀ k : Nat, k < 64 → load64 mem (bp.p3 + (size : Int) * (k : Int)) = some (f3 k))
    (h4 : ∀ k : Nat, k < 64 → load64 mem (bp.p4 + (size : Int) * (k : Int)) = some (f4 k)) :
    ∃ r, whileLoop BASE (fun st : Scratch × Nat => decide (st.2 < BASE))
        (fillStep mem size bp) (b, 0) = some r ∧
      r.1.block_1.length = 64 ∧ r.1.block_2.length = 64 ∧
      r.1.block_3.length = 64 ∧ r.1.block_4.length = 64 ∧
      (∀ m, m < 64 → r.1.block_1.getD m 0 = f1 m) ∧
      (∀ m, m < 64 → r.1.block_2.getD m 0 = f2 m) ∧
      (∀ m, m < 64 → r.1.block_3.getD m 0 = f3 m) ∧
      (∀ m, m < 64 → r.1.block_4.getD m 0 = f4 m) := by
  have hloop := whileLoop_inv (fun st : Scratch × Nat => decide (st.2 < BASE))
    (fillStep mem size bp)
    (fun t st => st.2 = t ∧
      st.1.block_1.length = 64 ∧ st.1.block_2.length = 64 ∧
      st.1.block_3.length = 64 ∧ st.1.block_4.length = 64 ∧
      (∀ m, m < t → st.1.block_1.getD m 0 = f1 m) ∧
      (∀ m, m < t → st.1.block_2.getD m 0 = f2 m) ∧
      (∀ m, m < t → st.1.block_3.getD m 0 = f3 m) ∧
      (∀ m, m < t → st.1.block_4.getD m 0 = f4 m)) 64
    (by
      rintro t ⟨sb, k⟩ ht ⟨hk, m1, m2, m3, m4, v1, v2, v3, v4⟩
      simp only at hk m1 m2 m3 m4 v1 v2 v3 v4
      subst hk
      refine ⟨by simp [BASE]; omega, ?_⟩
      simp only [fillStep, h1 k ht, h2 k ht, h3 k ht, h4 k ht, Option.bind_eq_bind,
        Option.some_bind, bind, Option.bind, wr_nat _ _ _ (show k < sb.block_1.length by omega),
        wr_nat _ _ _ (show k < sb.block_2.length by omega),
        wr_nat _ _ _ (show k < sb.block_3.length by omega),
        wr_nat _ _ _ (show k < sb.block_4.length by omega)]
      refine ⟨_, rfl, rfl, by simp [m1], by simp [m2], by simp [m3], by simp [m4],
        ?_, ?_, ?_, ?_⟩
      all_goals
        intro m hm
        simp only [getD_set_nat]
        by_cases hmk : k = m
        · subst hmk
          simp [m1, m2, m3, m4, ht]
        · rw [if_neg (by omega)]
          first
            | exact v1 m (by omega)
            | exact v2 m (by omega)
            | exact v3 m (by omega)
            | exact v4 m (by omega))
    (by
      rintro ⟨sb, k⟩ ⟨hk, _⟩
      simp only at hk
      simp [BASE, hk])
    BASE (by simp [BASE]) (b, 0)
    ⟨rfl, l1, l2, l3, l4, by intro m hm; omega, by intro m hm; omega,
      by intro m hm; omega, by intro m hm; omega⟩
  obtain ⟨r, hw, _, m1, m2, m3, m4, v1, v2, v3, v4⟩ := hloop
  exact ⟨r, hw, m1, m2, m3, m4, v1, v2, v3, v4⟩

theorem idx_inj (size ρ c ρ1 c1 : Nat) (hc : c < size) (hc1 : c1 < size) :
    ρ * size + c = ρ1 * size + c1 ↔ ρ = ρ1 ∧ c = c1 := by
  constructor
  · intro h
    have hs : 0 < size := by omega
    have e1 : (ρ * size + c) / size = ρ := by
      rw [Nat.mul_comm, Nat.mul_add_div hs, Nat.div_eq_of_lt hc]; rfl
    have e2 : (ρ1 * size + c1) / size = ρ1 := by
      rw [Nat.mul_comm, Nat.mul_add_div hs, Nat.div_eq_of_lt hc1]; rfl
    have e3 : ρ = ρ1 := by rw [← e1, ← e2, h]
    subst e3
    exact ⟨rfl, by omega⟩
  · rintro ⟨rfl, rfl⟩; rfl

theorem inb (size ρ c : Nat) (hρ : ρ < 64 * size) (hc : c < size) :
    8 * (ρ * size + c) + 8 ≤ 8 * (64 * size * size) := by
  have h1 : ρ + 1 ≤ 64 * size := hρ
  have h2 : (ρ + 1) * size ≤ 64 * size * size := Nat.mul_le_mul_right _ h1
  have h3 : (ρ + 1) * size = ρ * size + size := by ring
  omega

theorem put_length (mem : List Nat) (size ρ c v : Nat) :
    (put mem size ρ c v).length = mem.length := storeLE_length _ _ _ _

theorem isBytes_put (mem : List Nat) (size ρ c v : Nat) (h : isBytes mem) :
    isBytes (put mem size ρ c v) := isBytes_storeLE _ _ _ _ h

theorem W_put (mem : List Nat) (size ρ1 c1 v ρ c : Nat) (hc1 : c1 < size) (hc : c < size)
    (hb : 8 * (ρ1 * size + c1) + 8 ≤ mem.length) :
    W (put mem size ρ1 c1 v) size ρ c =
      if ρ = ρ1 ∧ c = c1 then v % 2 ^ 64 else W mem size ρ c := by
  unfold W put
  rw [word_storeLE _ _ _ _ hb]
  by_cases h : ρ = ρ1 ∧ c = c1
  · rw [if_pos ((idx_inj size ρ c ρ1 c1 hc hc1).mpr h), if_pos h]
  · rw [if_neg (fun h' => h ((idx_inj size ρ c ρ1 c1 hc hc1).mp h')), if_neg h]

theorem load64_W (mem : List Nat) (size ρ c : Nat) (p : Int)
    (hp : p = ((ρ * size + c : Nat) : Int)) (hb : 8 * (ρ * size + c) + 8 ≤ mem.length) :
    load64 mem p = some (W mem size ρ c) := by
  subst hp; exact load64_eq _ _ hb

theorem store64_put (mem : List Nat) (size ρ c v : Nat) (p : Int)
    (hp : p = ((ρ * size + c : Nat) : Int)) (hb : 8 * (ρ * size + c) + 8 ≤ mem.length) :
    store64 mem p v = some (put mem size ρ c v) := by
  subst hp; exact store64_eq _ _ _ hb

theorem rd_last (a : List Nat) (k : Nat) (hk : k < 64) (hl : a.length = 64) :
    rd a ((LAST_BASE_INDEX : Int) - (k : Int)) = some (a.getD (63 - k) 0) := by
  have e : ((LAST_BASE_INDEX : Int) - (k : Int)) = ((63 - k : Nat) : Int) := by
    simp only [LAST_BASE_INDEX, BASE]; omega
  rw [e]
  exact rd_nat _ _ (by omega)

theorem blk_ne (Ca Ra Cb Rb k ρ c t : Nat)
    (d : Ca ≠ Cb ∨ Ra + 64 ≤ Rb ∨ Rb + 64 ≤ Ra) (hk : k < 64) (h : ρ = Ra + k ∧ c = Ca)
    (ht : t ≤ 64) : ¬ (c = Cb ∧ Rb ≤ ρ ∧ ρ < Rb + t) := by omega

theorem blk_ne' (Ca Ra Cb Rb k ρ c t : Nat)
    (d : Cb ≠ Ca ∨ Rb + 64 ≤ Ra ∨ Ra + 64 ≤ Rb) (hk : k < 64) (h : ρ = Ra + k ∧ c = Ca)
    (ht : t ≤ 64) : ¬ (c = Cb ∧ Rb ≤ ρ ∧ ρ < Rb + t) := by omega

theorem blk_pos (C R k ρ c : Nat) (h : ρ = R + k ∧ c = C) :
    c = C ∧ R ≤ ρ ∧ ρ < R + (k + 1) := by omega

theorem blk_sub (C R k ρ c : Nat) (h : ρ = R + k ∧ c = C) : ρ - R = k := by omega

theorem blk_iff (C R k ρ c : Nat) (h : ¬ (ρ = R + k ∧ c = C)) :
    (c = C ∧ R ≤ ρ ∧ ρ < R + (k + 1)) ↔ (c = C ∧ R ≤ ρ ∧ ρ < R + k) := by
  constructor <;> intro h' <;> refine ⟨h'.1, h'.2.1, ?_⟩ <;> omega

/-- The store loop of the ring step: each of the four target blocks, given by
its first word-row `R` and its block column `C`, receives the words of its
source scratch block in reverse order; the rest of the buffer is unchanged. -/
theorem write_loop (mem : List Nat) (size : Nat) (bp : Ptrs) (b : Scratch)
    (R1 C1 R2 C2 R3 C3 R4 C4 : Nat)
    (hlen : mem.length = 8 * (64 * size * size)) (hbytes : isBytes mem)
    (l1 : b.block_1.length = 64) (l2 : b.block_2.length = 64)
    (l3 : b.block_3.length = 64) (l4 : b.block_4.length = 64)
    (a1 : ∀ k : Nat, k < 64 →
      bp.p1 + (size : Int) * (k : Int) = (((R1 + k) * size + C1 : Nat) : Int))
    (a2 : ∀ k : Nat, k < 64 →
      bp.p2 + (size : Int) * (k : Int) = (((R2 + k) * size + C2 : Nat) : Int))
    (a3 : ∀ k : Nat, k < 64 →
      bp.p3 + (size : Int) * (k : Int) = (((R3 + k) * size + C3 : Nat) : Int))
    (a4 : ∀ k : Nat, k < 64 →
      bp.p4 + (size : Int) * (k : Int) = (((R4 + k) * size + C4 : Nat) : Int))
    (c1 : C1 < size) (c2 : C2 < size) (c3 : C3 < size) (c4 : C4 < size)
    (r1 : R1 + 64 ≤ 64 * size) (r2 : R2 + 64 ≤ 64 * size)
    (r3 : R3 + 64 ≤ 64 * size) (r4 : R4 + 64 ≤ 64 * size)
    (d12 : C1 ≠ C2 ∨ R1 + 64 ≤ R2 ∨ R2 + 64 ≤ R1)
    (d13 : C1 ≠ C3 ∨ R1 + 64 ≤ R3 ∨ R3 + 64 ≤ R1)
    (d14 : C1 ≠ C4 ∨ R1 + 64 ≤ R4 ∨ R4 + 64 ≤ R1)
    (d23 : C2 ≠ C3 ∨ R2 + 64 ≤ R3 ∨ R3 + 64 ≤ R2)
    (d24 : C2 ≠ C4 ∨ R2 + 64 ≤ R4 ∨ R4 + 64 ≤ R2)
    (d34 : C3 ≠ C4 ∨ R3 + 64 ≤ R4 ∨ R4 + 64 ≤ R3) :
    ∃ r, whileLoop BASE (fun st : List Nat × Nat => decide (st.2 < BASE))
        (writeStep b size bp) (mem, 0) = some r ∧
      r.1.length = mem.length ∧ isBytes r.1 ∧
      ∀ ρ c, c < size → W r.1 size ρ c =
        if c = C2 ∧ R2 ≤ ρ ∧ ρ < R2 + 64 then b.block_1.getD (63 - (ρ - R2)) 0 % 2 ^ 64
        else if c = C3 ∧ R3 ≤ ρ ∧ ρ < R3 + 64 then b.block_2.getD (63 - (ρ - R3)) 0 % 2 ^ 64
        else if c = C4 ∧ R4 ≤ ρ ∧ ρ < R4 + 64 then b.block_3.getD (63 - (ρ - R4)) 0 % 2 ^ 64
        else if c = C1 ∧ R1 ≤ ρ ∧ ρ < R1 + 64 then b.block_4.getD (63 - (ρ - R1)) 0 % 2 ^ 64
        else W mem size ρ c := by
  have hloop := whileLoop_inv (fun st : List Nat × Nat => decide (st.2 < BASE))
    (writeStep b size bp)
    (fun t st => st.2 = t ∧ st.1.length = mem.length ∧ isBytes st.1 ∧
      ∀ ρ c, c < size → W st.1 size ρ c =
        if c = C2 ∧ R2 ≤ ρ ∧ ρ < R2 + t then b.block_1.getD (63 - (ρ - R2)) 0 % 2 ^ 64
        else if c = C3 ∧ R3 ≤ ρ ∧ ρ < R3 + t then b.block_2.getD (63 - (ρ - R3)) 0 % 2 ^ 64
        else if c = C4 ∧ R4 ≤ ρ ∧ ρ < R4 + t then b.block_3.getD (63 - (ρ - R4)) 0 % 2 ^ 64
        else if c = C1 ∧ R1 ≤ ρ ∧ ρ < R1 + t then b.block_4.getD (63 - (ρ - R1)) 0 % 2 ^ 64
        else W mem size ρ c) 64
    (by
      rintro t ⟨m, k⟩ ht ⟨hk, hl, hb, hv⟩
      simp only at hk hl hb hv
      subst hk
      refine ⟨by simp [BASE]; omega, ?_⟩
      have i1 := inb size (R1 + k) C1 (by omega) c1
      have i2 := inb size (R2 + k) C2 (by omega) c2
      have i3 := inb size (R3 + k) C3 (by omega) c3
      have i4 := inb size (R4 + k) C4 (by omega) c4
      have s2 := store64_put m size (R2 + k) C2 (b.block_1.getD (63 - k) 0) _ (a2 k ht)
        (by omega)
      have s3 := store64_put (put m size (R2 + k) C2 (b.block_1.getD (63 - k) 0)) size
        (R3 + k) C3 (b.block_2.getD (63 - k) 0) _ (a3 k ht) (by rw [put_length]; omega)
      have s4 := store64_put (put (put m size (R2 + k) C2 (b.block_1.getD (63 - k) 0)) size
        (R3 + k) C3 (b.block_2.getD (63 - k) 0)) size (R4 + k) C4
        (b.block_3.getD (63 - k) 0) _ (a4 k ht) (by rw [put_length, put_length]; omega)
      have s1 := store64_put (put (put (put m size (R2 + k) C2 (b.block_1.getD (63 - k) 0))
        size (R3 + k) C3 (b.block_2.getD (63 - k) 0)) size (R4 + k) C4
        (b.block_3.getD (63 - k) 0)) size (R1 + k) C1 (b.block_4.getD (63 - k) 0) _
        (a1 k ht) (by rw [put_length, put_length, put_length]; omega)
      simp only [writeStep, rd_last _ k ht l1, rd_last _ k ht l2, rd_last _ k ht l3,
        rd_last _ k ht l4, s1, s2, s3, s4, Option.bind_eq_bind, Option.some_bind, bind,
        Option.bind]
      refine ⟨_, rfl, ?_, ?_, ?_, ?_⟩
      · rfl
      · dsimp only
        rw [put_length, put_length, put_length, put_length]
        exact hl
      · dsimp only
        exact isBytes_put _ _ _ _ _ (isBytes_put _ _ _ _ _ (isBytes_put _ _ _ _ _
          (isBytes_put _ _ _ _ _ hb)))
      intro ρ c hc
      dsimp only
      rw [W_put _ _ _ _ _ _ _ c1 hc (by rw [put_length, put_length, put_length]; omega),
        W_put _ _ _ _ _ _ _ c4 hc (by rw [put_length, put_length]; omega),
        W_put _ _ _ _ _ _ _ c3 hc (by rw [put_length]; omega),
        W_put _ _ _ _ _ _ _ c2 hc (by omega), hv ρ c hc]
      by_cases h1 : ρ = R1 + k ∧ c = C1
      · rw [if_pos h1, if_neg (blk_ne _ _ _ _ _ _ _ (k + 1) d12 ht h1 (by omega)),
          if_neg (blk_ne _ _ _ _ _ _ _ (k + 1) d13 ht h1 (by omega)),
          if_neg (blk_ne _ _ _ _ _ _ _ (k + 1) d14 ht h1 (by omega)),
          if_pos (blk_pos _ _ _ _ _ h1)]
        rw [blk_sub _ _ _ _ _ h1]
      · by_cases h4 : ρ = R4 + k ∧ c = C4
        · rw [if_neg h1, if_pos h4,
            if_neg (blk_ne' _ _ _ _ _ _ _ (k + 1) d24 ht h4 (by omega)),
            if_neg (blk_ne' _ _ _ _ _ _ _ (k + 1) d34 ht h4 (by omega)),
            if_pos (blk_pos _ _ _ _ _ h4)]
          rw [blk_sub _ _ _ _ _ h4]
        · by_cases h3 : ρ = R3 + k ∧ c = C3
          · rw [if_neg h1, if_neg h4,
              if_pos h3,
              if_neg (blk_ne' _ _ _ _ _ _ _ (k + 1) d23 ht h3 (by omega)),
              if_pos (blk_pos _ _ _ _ _ h3)]
            rw [blk_sub _ _ _ _ _ h3]
          · by_cases h2 : ρ = R2 + k ∧ c = C2
            · rw [if_neg h1, if_neg h4,
                if_neg h3,
                if_pos h2,
                if_pos (blk_pos _ _ _ _ _ h2)]
              rw [blk_sub _ _ _ _ _ h2]
            · rw [if_neg h1, if_neg h4, if_neg h3, if_neg h2]
              simp only [blk_iff _ _ _ _ _ h1, blk_iff _ _ _ _ _ h2, blk_iff _ _ _ _ _ h3,
                blk_iff _ _ _ _ _ h4])
    (by
      rintro ⟨m, k⟩ ⟨hk, _⟩
      simp only at hk
      simp [BASE, hk])
    BASE (by simp [BASE]) (mem, 0)
    ⟨rfl, rfl, hbytes, by
      intro ρ c hc
      rw [if_neg (by omega), if_neg (by omega), if_neg (by omega), if_neg (by omega)]⟩
  obtain ⟨r, hw, _, hl, hb, hv⟩ := hloop
  exact ⟨r, hw, hl, hb, hv⟩

/-! ## Blocks of the buffer and the rotated buffer, word by word -/

theorem blk_length (mem : List Nat) (size r c : Nat) : (blk mem size r c).length = 64 := by
  simp [blk]

theorem blk_getD (mem : List Nat) (size r c m : Nat) (hm : m < 64) :
    (blk mem size r c).getD m 0 = W mem size (64 * r + m) c := by
  have hl : m < (blk mem size r c).length := by rw [blk_length]; exact hm
  rw [List.getD_eq_getElem _ _ hl]
  simp [blk]

theorem blk_lt (mem : List Nat) (size r c : Nat) (h : isBytes mem) :
    ∀ x, (blk mem size r c).getD x 0 < 2 ^ 64 := by
  intro x
  by_cases hx : x < 64
  · rw [blk_getD _ _ _ _ _ hx]; exact word_lt _ _ h
  · rw [List.getD_eq_default _ _ (by rw [blk_length]; omega)]; decide

theorem T_eq (B : List Nat) (hlen : B.length = 64) : transpose_64 B = some (T B) := by
  obtain ⟨out, h, _⟩ := transpose_64_spec B hlen
  simp [T, h]

theorem T_length (B : List Nat) (hlen : B.length = 64) : (T B).length = 64 := by
  obtain ⟨out, h, hl, _⟩ := transpose_64_spec B hlen
  simp [T, h, hl]

theorem T_testBit (B : List Nat) (hlen : B.length = 64) (x p : Nat) (hx : x < 64)
    (hp : p < 64) :
    ((T B).getD x 0).testBit p =
      (B.getD (8 * (7 - p / 8) + p % 8) 0).testBit (8 * (7 - x / 8) + x % 8) := by
  obtain ⟨out, h, _, hb, _⟩ := transpose_64_spec B hlen
  simp only [T, h, Option.getD_some]
  exact hb x hx p hp

theorem T_lt (B : List Nat) (hlen : B.length = 64) (hB : ∀ x, B.getD x 0 < 2 ^ 64) :
    ∀ x, (T B).getD x 0 < 2 ^ 64 := by
  obtain ⟨out, h, _, _, hb⟩ := transpose_64_spec B hlen
  simp only [T, h, Option.getD_some]
  exact hb hB

theorem blk_congr (m1 m2 : List Nat) (size r c : Nat)
    (h : ∀ k, k < 64 → W m1 size (64 * r + k) c = W m2 size (64 * r + k) c) :
    blk m1 size r c = blk m2 size r c := by
  apply list_ext_getD _ _ 64 (blk_length _ _ _ _) (blk_length _ _ _ _)
  intro i hi
  rw [blk_getD _ _ _ _ _ hi, blk_getD _ _ _ _ _ hi, h i hi]

/-! ## Addresses of the ring walk -/

theorem addr1 (size t u k : Nat) :
    ((t : Int) * ((64 * size : Nat) : Int) + u) + (size : Int) * (k : Int) =
      (((64 * t + k) * size + u : Nat) : Int) := by
  push_cast; ring

theorem addr2 (size t u k : Nat) (ht : t + 1 ≤ size) :
    ((size : Int) - 1 - t + (u : Int) * ((64 * size : Nat) : Int)) + (size : Int) * (k : Int) =
      (((64 * u + k) * size + (size - 1 - t) : Nat) : Int) := by
  obtain ⟨a, rfl⟩ : ∃ a, size = a + 1 + t := ⟨size - 1 - t, by omega⟩
  rw [show a + 1 + t - 1 - t = a from by omega]
  push_cast; ring

theorem addr3 (size t u k : Nat) (ht : t + 1 ≤ size) (hu : u + 1 ≤ size) :
    ((((64 * size : Nat) : Int) - (BASE : Int)) * size + size - 1 - (t : Int) * ((64 * size : Nat) : Int)
        - u) + (size : Int) * (k : Int) =
      (((64 * (size - 1 - t) + k) * size + (size - 1 - u) : Nat) : Int) := by
  obtain ⟨a, ha⟩ : ∃ a, size - 1 - t = a := ⟨_, rfl⟩
  obtain ⟨b, hb⟩ : ∃ b, size - 1 - u = b := ⟨_, rfl⟩
  rw [ha, hb]
  have ea : (size : Int) = a + 1 + t := by omega
  have eb : (u : Int) = size - 1 - b := by omega
  simp only [BASE]
  push_cast
  rw [eb, ea]; ring

theorem addr4 (size t u k : Nat) (hu : u + 1 ≤ size) :
    ((((64 * size : Nat) : Int) - (BASE : Int)) * size + t - (u : Int) * ((64 * size : Nat) : Int))
        + (size : Int) * (k : Int) =
      (((64 * (size - 1 - u) + k) * size + t : Nat) : Int) := by
  obtain ⟨b, hb⟩ : ∃ b, size - 1 - u = b := ⟨_, rfl⟩
  rw [hb]
  have eb : (u : Int) = size - 1 - b := by omega
  simp only [BASE]
  push_cast
  rw [eb]; ring

/-! ## Which blocks the ring walk has already rotated -/

theorem half_cases (size : Nat) :
    ∃ h, (size = 2 * h ∧ size / 2 = h ∧ (size + 1) / 2 = h) ∨
      (size = 2 * h + 1 ∧ size / 2 = h ∧ (size + 1) / 2 = h + 1) := by
  refine ⟨size / 2, ?_⟩
  omega

theorem not_done_zero (size r c : Nat) : ¬ done size 0 0 r c := by
  rintro ⟨i, j, hlt, _⟩
  omega

theorem done_ring_end (size t r c : Nat) :
    done size t (size / 2) r c ↔ done size (t + 1) 0 r c := by
  constructor
  · rintro ⟨i, j, hlt, hi, hj, hq⟩
    exact ⟨i, j, by omega, hi, hj, hq⟩
  · rintro ⟨i, j, hlt, hi, hj, hq⟩
    exact ⟨i, j, by omega, hi, hj, hq⟩

theorem done_step (size t u r c : Nat) (ht : t < (size + 1) / 2) (hu : u < size / 2) :
    done size t (u + 1) r c ↔ (done size t u r c ∨ inQuad size t u r c) := by
  constructor
  · rintro ⟨i, j, hlt, hi, hj, hq⟩
    by_cases h : i = t ∧ j = u
    · obtain ⟨rfl, rfl⟩ := h
      exact Or.inr hq
    · exact Or.inl ⟨i, j, by omega, hi, hj, hq⟩
  · rintro (⟨i, j, hlt, hi, hj, hq⟩ | hq)
    · exact ⟨i, j, by omega, hi, hj, hq⟩
    · exact ⟨t, u, by omega, ht, hu, hq⟩

/-- Two different ring steps share no block. -/
theorem inQuad_disjoint (size i j t u r c : Nat)
    (hi : i < (size + 1) / 2) (hj : j < size / 2)
    (ht : t < (size + 1) / 2) (hu : u < size / 2)
    (h1 : inQuad size i j r c) (h2 : inQuad size t u r c) : i = t ∧ j = u := by
  obtain ⟨h, ⟨e0, e1, e2⟩ | ⟨e0, e1, e2⟩⟩ := half_cases size <;>
  · rw [e1] at hj hu
    rw [e2] at hi ht
    subst e0
    unfold inQuad at h1 h2
    rcases h1 with h1 | h1 | h1 | h1 <;> rcases h2 with h2 | h2 | h2 | h2 <;> omega

theorem not_done_of_inQuad (size t u r c : Nat) (ht : t < (size + 1) / 2) (hu : u < size / 2)
    (hq : inQuad size t u r c) : ¬ done size t u r c := by
  rintro ⟨i, j, hlt, hi, hj, hq'⟩
  have := inQuad_disjoint size i j t u r c hi hj ht hu hq' hq
  omega

/-- Every block but the center of an odd grid belongs to a ring step. -/
theorem done_final (size r c : Nat) (hr : r < size) (hc : c < size)
    (hn : ¬ (size % 2 = 1 ∧ r = size / 2 ∧ c = size / 2)) :
    done size ((size + 1) / 2) 0 r c := by
  obtain ⟨h, ⟨e0, e1, e2⟩ | ⟨e0, e1, e2⟩⟩ := half_cases size <;>
  · unfold done inQuad
    rw [e1, e2]
    rw [e1] at hn
    by_cases c1 : r < h <;> by_cases c2 : c < h <;> by_cases c3 : r = h <;>
      by_cases c4 : c = h <;>
      first
        | exact ⟨r, c, by omega, by omega, by omega, by omega⟩
        | exact ⟨size - 1 - c, r, by omega, by omega, by omega, by omega⟩
        | exact ⟨c, size - 1 - r, by omega, by omega, by omega, by omega⟩
        | exact ⟨size - 1 - r, size - 1 - c, by omega, by omega, by omega, by omega⟩

/-- The center block of an odd grid belongs to no ring step. -/
theorem not_done_center (size t u : Nat) (hodd : size % 2 = 1) :
    ¬ done size t u (size / 2) (size / 2) := by
  rintro ⟨i, j, _, hi, hj, hq⟩
  unfold inQuad at hq
  omega

/-! ## One step of the ring walk -/

theorem quad_bounds (size t u : Nat) (ht : t < (size + 1) / 2) (hu : u < size / 2) :
    t + 1 ≤ size ∧ u + 1 ≤ size ∧ u + t + 1 ≤ size ∧ 2 * u + 2 ≤ size ∧ 2 * t + 1 ≤ size := by
  omega

set_option maxHeartbeats 2000000 in
theorem write_quad (mem : List Nat) (size t u : Nat) (b : Scratch)
    (ht : t < (size + 1) / 2) (hu : u < size / 2)
    (hlen : mem.length = 8 * (64 * size * size)) (hbytes : isBytes mem)
    (l1 : b.block_1.length = 64) (l2 : b.block_2.length = 64)
    (l3 : b.block_3.length = 64) (l4 : b.block_4.length = 64) :
    ∃ r, whileLoop BASE (fun st : List Nat × Nat => decide (st.2 < BASE))
        (writeStep b size (ringPtrs size t u)) (mem, 0) = some r ∧
      r.1.length = mem.length ∧ isBytes r.1 ∧
      ∀ ρ c, ρ < 64 * size → c < size →
        (ρ / 64 = u ∧ c = size - 1 - t →
          W r.1 size ρ c = b.block_1.getD (63 - ρ % 64) 0 % 2 ^ 64) ∧
        (ρ / 64 = size - 1 - t ∧ c = size - 1 - u →
          W r.1 size ρ c = b.block_2.getD (63 - ρ % 64) 0 % 2 ^ 64) ∧
        (ρ / 64 = size - 1 - u ∧ c = t →
          W r.1 size ρ c = b.block_3.getD (63 - ρ % 64) 0 % 2 ^ 64) ∧
        (ρ / 64 = t ∧ c = u →
          W r.1 size ρ c = b.block_4.getD (63 - ρ % 64) 0 % 2 ^ 64) ∧
        (¬ inQuad size t u (ρ / 64) c → W r.1 size ρ c = W mem size ρ c) := by
  obtain ⟨q1, q2, q3, q4, q5⟩ := quad_bounds size t u ht hu
  obtain ⟨r, hw, hl, hb, hv⟩ := write_loop mem size (ringPtrs size t u) b
    (64 * t) u (64 * u) (size - 1 - t) (64 * (size - 1 - t)) (size - 1 - u)
    (64 * (size - 1 - u)) t hlen hbytes l1 l2 l3 l4
    (fun k _ => addr1 size t u k) (fun k _ => addr2 size t u k q1)
    (fun k _ => addr3 size t u k q1 q2) (fun k _ => addr4 size t u k q2)
    (by omega) (by omega) (by omega) (by omega) (by omega) (by omega) (by omega) (by omega)
    (by omega) (by omega) (by omega) (by omega) (by omega) (by omega)
  refine ⟨r, hw, hl, hb, ?_⟩
  intro ρ c hρ hc
  have hv' := hv ρ c hc
  clear hv hw hl hb hlen hbytes l1 l2 l3 l4
  refine ⟨?_, ?_, ?_, ?_, ?_⟩
  · intro h
    rw [hv', if_pos (by omega)]
    congr 2; omega
  · intro h
    rw [hv', if_neg (by omega), if_pos (by omega)]
    congr 2; omega
  · intro h
    rw [hv', if_neg (by omega), if_neg (by omega), if_pos (by omega)]
    congr 2; omega
  · intro h
    rw [hv', if_neg (by omega), if_neg (by omega), if_neg (by omega), if_pos (by omega)]
    congr 2; omega
  · intro h
    unfold inQuad at h
    rw [hv', if_neg (by omega), if_neg (by omega), if_neg (by omega), if_neg (by omega)]

theorem ringPtrs_succ (size t u : Nat) :
    ({ p1 := (ringPtrs size t u).p1 + 1,
       p2 := (ringPtrs size t u).p2 + ((64 * size : Nat) : Int),
       p3 := (ringPtrs size t u).p3 - 1,
       p4 := (ringPtrs size t u).p4 - ((64 * size : Nat) : Int) } : Ptrs) =
      ringPtrs size t (u + 1) := by
  simp only [ringPtrs, Ptrs.mk.injEq]
  refine ⟨?_, ?_, ?_, ?_⟩ <;> push_cast <;> ring

theorem rotW_eq (orig : List Nat) (size ρ c r c' : Nat) (h1 : size - 1 - c = r)
    (h2 : ρ / 64 = c') (horig : isBytes orig) :
    (T (blk orig size r c')).getD (63 - ρ % 64) 0 % 2 ^ 64 = rotW orig size ρ c := by
  unfold rotW
  rw [h1, h2]
  exact Nat.mod_eq_of_lt (T_lt _ (blk_length _ _ _ _) (blk_lt _ _ _ _ horig) _)

set_option maxHeartbeats 400000 in
theorem ringStep_spec (orig : List Nat) (size t u : Nat) (s : JState)
    (horig : isBytes orig) (ht : t < (size + 1) / 2) (hu : u < size / 2)
    (hinv : JInv orig size t u s) :
    ∃ s', ringStep (64 * size) size s = some s' ∧ JInv orig size t (u + 1) s' := by
  obtain ⟨mem, blocks, bp, j⟩ := s
  obtain ⟨hj, hlen, hb, l1, l2, l3, l4, hp, hm⟩ := hinv
  simp only at hj hlen hb l1 l2 l3 l4 hp hm
  subst hj hp
  obtain ⟨q1, q2, q3, q4, q5⟩ := quad_bounds size t j ht hu
  have n1 : ¬ done size t j t j :=
    not_done_of_inQuad size t j _ _ ht hu (Or.inl ⟨rfl, rfl⟩)
  have n2 : ¬ done size t j j (size - 1 - t) :=
    not_done_of_inQuad size t j _ _ ht hu (Or.inr (Or.inl ⟨rfl, rfl⟩))
  have n3 : ¬ done size t j (size - 1 - t) (size - 1 - j) :=
    not_done_of_inQuad size t j _ _ ht hu (Or.inr (Or.inr (Or.inl ⟨rfl, rfl⟩)))
  have n4 : ¬ done size t j (size - 1 - j) t :=
    not_done_of_inQuad size t j _ _ ht hu (Or.inr (Or.inr (Or.inr ⟨rfl, rfl⟩)))
  obtain ⟨f, hf, m1, m2, m3, m4, v1, v2, v3, v4⟩ := fill_loop mem size (ringPtrs size t j)
    blocks (fun k => W mem size (64 * t + k) j) (fun k => W mem size (64 * j + k) (size - 1 - t))
    (fun k => W mem size (64 * (size - 1 - t) + k) (size - 1 - j))
    (fun k => W mem size (64 * (size - 1 - j) + k) t) l1 l2 l3 l4
    (fun k hk => load64_W mem size (64 * t + k) j _ (addr1 size t j k)
      (by rw [hlen]; exact inb _ _ _ (by omega) (by omega)))
    (fun k hk => load64_W mem size (64 * j + k) (size - 1 - t) _ (addr2 size t j k q1)
      (by rw [hlen]; exact inb _ _ _ (by omega) (by omega)))
    (fun k hk => load64_W mem size (64 * (size - 1 - t) + k) (size - 1 - j) _
      (addr3 size t j k q1 q2) (by rw [hlen]; exact inb _ _ _ (by omega) (by omega)))
    (fun k hk => load64_W mem size (64 * (size - 1 - j) + k) t _ (addr4 size t j k q2)
      (by rw [hlen]; exact inb _ _ _ (by omega) (by omega)))
  have e1 : f.1.block_1 = blk orig size t j := by
    apply list_ext_getD _ _ 64 m1 (blk_length _ _ _ _)
    intro i hi
    rw [v1 i hi, blk_getD _ _ _ _ _ hi]
    exact (hm (64 * t + i) j (by omega) (by omega)).2
      (by rw [show (64 * t + i) / 64 = t from by omega]; exact n1)
  have e2 : f.1.block_2 = blk orig size j (size - 1 - t) := by
    apply list_ext_getD _ _ 64 m2 (blk_length _ _ _ _)
    intro i hi
    rw [v2 i hi, blk_getD _ _ _ _ _ hi]
    exact (hm (64 * j + i) (size - 1 - t) (by omega) (by omega)).2
      (by rw [show (64 * j + i) / 64 = j from by omega]; exact n2)
  have e3 : f.1.block_3 = blk orig size (size - 1 - t) (size - 1 - j) := by
    apply list_ext_getD _ _ 64 m3 (blk_length _ _ _ _)
    intro i hi
    rw [v3 i hi, blk_getD _ _ _ _ _ hi]
    exact (hm (64 * (size - 1 - t) + i) (size - 1 - j) (by omega) (by omega)).2
      (by rw [show (64 * (size - 1 - t) + i) / 64 = size - 1 - t from by omega]; exact n3)
  have e4 : f.1.block_4 = blk orig size (size - 1 - j) t := by
    apply list_ext_getD _ _ 64 m4 (blk_length _ _ _ _)
    intro i hi
    rw [v4 i hi, blk_getD _ _ _ _ _ hi]
    exact (hm (64 * (size - 1 - j) + i) t (by omega) (by omega)).2
      (by rw [show (64 * (size - 1 - j) + i) / 64 = size - 1 - j from by omega]; exact n4)
  obtain ⟨b, b1, b2, b3, b4⟩ : ∃ b : Scratch, b.block_1 = T (blk orig size t j) ∧
      b.block_2 = T (blk orig size j (size - 1 - t)) ∧
      b.block_3 = T (blk orig size (size - 1 - t) (size - 1 - j)) ∧
      b.block_4 = T (blk orig size (size - 1 - j) t) :=
    ⟨{ block_1 := T (blk orig size t j), block_2 := T (blk orig size j (size - 1 - t)),
       block_3 := T (blk orig size (size - 1 - t) (size - 1 - j)),
       block_4 := T (blk orig size (size - 1 - j) t) }, rfl, rfl, rfl, rfl⟩
  have t1 : b.block_1.length = 64 := by rw [b1]; exact T_length _ (blk_length _ _ _ _)
  have t2 : b.block_2.length = 64 := by rw [b2]; exact T_length _ (blk_length _ _ _ _)
  have t3 : b.block_3.length = 64 := by rw [b3]; exact T_length _ (blk_length _ _ _ _)
  have t4 : b.block_4.length = 64 := by rw [b4]; exact T_length _ (blk_length _ _ _ _)
  obtain ⟨w, hw, wl, wb, wv⟩ := write_quad mem size t j b ht hu hlen hb t1 t2 t3 t4
  have hb' : b = { block_1 := T (blk orig size t j),
                   block_2 := T (blk orig size j (size - 1 - t)),
                   block_3 := T (blk orig size (size - 1 - t) (size - 1 - j)),
                   block_4 := T (blk orig size (size - 1 - j) t) } := by
    obtain ⟨x1, x2, x3, x4⟩ := b
    simp only at b1 b2 b3 b4
    rw [b1, b2, b3, b4]
  refine ⟨{ mem := w.1, blocks := b, bp := ringPtrs size t (j + 1), j := j + 1 }, ?_, ?_⟩
  · simp only [ringStep, hf, e1, e2, e3, e4, T_eq _ (blk_length _ _ _ _), ← hb', hw,
      Option.bind_eq_bind, Option.some_bind, bind, Option.bind, ringPtrs_succ]
  · refine ⟨rfl, by rw [wl]; exact hlen, wb, t1, t2, t3, t4, rfl, ?_⟩
    intro ρ c hρ hc
    obtain ⟨w1, w2, w3, w4, w5⟩ := wv ρ c hρ hc
    have hmρ := hm ρ c hρ hc
    rw [b1] at w1
    rw [b2] at w2
    rw [b3] at w3
    rw [b4] at w4
    dsimp only
    rw [done_step size t j (ρ / 64) c ht hu]
    by_cases hq : inQuad size t j (ρ / 64) c
    · refine ⟨fun _ => ?_, fun h => absurd (Or.inr hq) h⟩
      rcases hq with h | h | h | h
      · rw [w4 h]
        exact rotW_eq orig size ρ c _ _ (by omega) h.1 horig
      · rw [w1 h]
        exact rotW_eq orig size ρ c _ _ (by omega) h.1 horig
      · rw [w2 h]
        exact rotW_eq orig size ρ c _ _ (by omega) h.1 horig
      · rw [w3 h]
        exact rotW_eq orig size ρ c _ _ (by omega) h.1 horig
    · rw [w5 hq]
      refine ⟨fun h => ?_, fun h => ?_⟩
      · rcases h with h | h
        · exact hmρ.1 h
        · exact absurd h hq
      · exact hmρ.2 (fun h' => h (Or.inl h'))

/-! ## The center block of an odd grid -/

theorem center_fill_loop (mem : List Nat) (size : Nat) (p : Int) (b : List Nat)
    (f : Nat → Nat) (l : b.length = 64)
    (h : ∀ k : Nat, k < 64 → load64 mem (p + (size : Int) * (k : Int)) = some (f k)) :
    ∃ r, whileLoop BASE (fun st : List Nat × Nat => decide (st.2 < BASE))
        (centerFillStep mem size p) (b, 0) = some r ∧
      r.1.length = 64 ∧ ∀ m, m < 64 → r.1.getD m 0 = f m := by
  have hloop := whileLoop_inv (fun st : List Nat × Nat => decide (st.2 < BASE))
    (centerFillStep mem size p)
    (fun t st => st.2 = t ∧ st.1.length = 64 ∧ ∀ m, m < t → st.1.getD m 0 = f m) 64
    (by
      rintro t ⟨sb, k⟩ ht ⟨hk, m1, v1⟩
      simp only at hk m1 v1
      subst hk
      refine ⟨by simp [BASE]; omega, ?_⟩
      simp only [centerFillStep, h k ht, Option.bind_eq_bind, Option.some_bind, bind,
        Option.bind, wr_nat _ _ _ (show k < sb.length by omega)]
      refine ⟨_, rfl, rfl, by simp [m1], ?_⟩
      intro m hm
      simp only [getD_set_nat]
      by_cases hmk : k = m
      · subst hmk
        simp [m1, ht]
      · rw [if_neg (by omega)]
        exact v1 m (by omega))
    (by
      rintro ⟨sb, k⟩ ⟨hk, _⟩
      simp only at hk
      simp [BASE, hk])
    BASE (by simp [BASE]) (b, 0) ⟨rfl, l, by intro m hm; omega⟩
  obtain ⟨r, hw, _, m1, v1⟩ := hloop
  exact ⟨r, hw, m1, v1⟩

theorem center_write_loop (mem : List Nat) (size : Nat) (p : Int) (b : List Nat)
    (R C : Nat) (hlen : mem.length = 8 * (64 * size * size)) (hbytes : isBytes mem)
    (l : b.length = 64)
    (a : ∀ k : Nat, k < 64 → p + (size : Int) * (k : Int) = (((R + k) * size + C : Nat) : Int))
    (hC : C < size) (hR : R + 64 ≤ 64 * size) :
    ∃ r, whileLoop BASE (fun st : List Nat × Nat => decide (st.2 < BASE))
        (centerWriteStep b size p) (mem, 0) = some r ∧
      r.1.length = mem.length ∧ isBytes r.1 ∧
      ∀ ρ c, c < size → W r.1 size ρ c =
        if c = C ∧ R ≤ ρ ∧ ρ < R + 64 then b.getD (63 - (ρ - R)) 0 % 2 ^ 64
        else W mem size ρ c := by
  have hloop := whileLoop_inv (fun st : List Nat × Nat => decide (st.2 < BASE))
    (centerWriteStep b size p)
    (fun t st => st.2 = t ∧ st.1.length = mem.length ∧ isBytes st.1 ∧
      ∀ ρ c, c < size → W st.1 size ρ c =
        if c = C ∧ R ≤ ρ ∧ ρ < R + t then b.getD (63 - (ρ - R)) 0 % 2 ^ 64
        else W mem size ρ c) 64
    (by
      rintro t ⟨m, k⟩ ht ⟨hk, hl, hb, hv⟩
      simp only at hk hl hb hv
      subst hk
      refine ⟨by simp [BASE]; omega, ?_⟩
      have i1 := inb size (R + k) C (by omega) hC
      have s1 := store64_put m size (R + k) C (b.getD (63 - k) 0) _ (a k ht) (by omega)
      simp only [centerWriteStep, rd_last _ k ht l, s1, Option.bind_eq_bind, Option.some_bind,
        bind, Option.bind]
      refine ⟨_, rfl, rfl, ?_, ?_, ?_⟩
      · dsimp only
        rw [put_length]
        exact hl
      · exact isBytes_put _ _ _ _ _ hb
      intro ρ c hc
      dsimp only
      rw [W_put _ _ _ _ _ _ _ hC hc (by omega), hv ρ c hc]
      by_cases h1 : ρ = R + k ∧ c = C
      · rw [if_pos h1, if_pos (blk_pos _ _ _ _ _ h1), blk_sub _ _ _ _ _ h1]
      · rw [if_neg h1]
        simp only [blk_iff _ _ _ _ _ h1])
    (by
      rintro ⟨m, k⟩ ⟨hk, _⟩
      simp only at hk
      simp [BASE, hk])
    BASE (by simp [BASE]) (mem, 0)
    ⟨rfl, rfl, hbytes, by intro ρ c hc; rw [if_neg (by omega)]⟩
  obtain ⟨r, hw, _, hl, hb, hv⟩ := hloop
  exact ⟨r, hw, hl, hb, hv⟩

theorem addr_center (size h k : Nat) :
    ((((h <<< LOG_BASE) * size + h : Nat) : Int)) + (size : Int) * (k : Int) =
      (((64 * h + k) * size + h : Nat) : Int) := by
  simp only [LOG_BASE, Nat.shiftLeft_eq]
  push_cast; ring

theorem centerStep_spec (orig mem : List Nat) (size : Nat) (block_1 : List Nat)
    (horig : isBytes orig) (hodd : size % 2 = 1)
    (hlen : mem.length = 8 * (64 * size * size)) (hb : isBytes mem)
    (l1 : block_1.length = 64) (hm : MemInv orig mem size ((size + 1) / 2) 0) :
    ∃ out, centerStep mem block_1 size = some out ∧ out.length = mem.length ∧ isBytes out ∧
      ∀ ρ c, ρ < 64 * size → c < size → W out size ρ c = rotW orig size ρ c := by
  have hsh : size >>> 1 = size / 2 := by simp [Nat.shiftRight_eq_div_pow]
  have hh : size / 2 < size := by omega
  obtain ⟨f, hf, m1, v1⟩ := center_fill_loop mem size
    ((((size / 2) <<< LOG_BASE) * size + size / 2 : Nat) : Int) block_1
    (fun k => W mem size (64 * (size / 2) + k) (size / 2)) l1
    (fun k hk => load64_W mem size (64 * (size / 2) + k) (size / 2) _
      (addr_center size (size / 2) k) (by rw [hlen]; exact inb _ _ _ (by omega) hh))
  have e1 : f.1 = blk orig size (size / 2) (size / 2) := by
    apply list_ext_getD _ _ 64 m1 (blk_length _ _ _ _)
    intro i hi
    rw [v1 i hi, blk_getD _ _ _ _ _ hi]
    exact (hm (64 * (size / 2) + i) (size / 2) (by omega) hh).2
      (by rw [show (64 * (size / 2) + i) / 64 = size / 2 from by omega]
          exact not_done_center size _ _ hodd)
  obtain ⟨w, hw, wl, wb, wv⟩ := center_write_loop mem size
    ((((size / 2) <<< LOG_BASE) * size + size / 2 : Nat) : Int)
    (T (blk orig size (size / 2) (size / 2))) (64 * (size / 2)) (size / 2) hlen hb
    (T_length _ (blk_length _ _ _ _)) (fun k _ => addr_center size (size / 2) k) hh
    (by omega)
  refine ⟨w.1, ?_, wl, wb, ?_⟩
  · simp only [centerStep, hsh, hf, e1, T_eq _ (blk_length _ _ _ _), hw,
      Option.bind_eq_bind, Option.some_bind, bind, Option.bind]
  · intro ρ c hρ hc
    rw [wv ρ c hc]
    by_cases hq : c = size / 2 ∧ 64 * (size / 2) ≤ ρ ∧ ρ < 64 * (size / 2) + 64
    · rw [if_pos hq, show ρ - 64 * (size / 2) = ρ % 64 from by omega]
      exact rotW_eq orig size ρ c _ _ (by omega) (by omega) horig
    · rw [if_neg hq]
      exact (hm ρ c hρ hc).1
        (done_final size (ρ / 64) c (by omega) hc (by omega))

/-! ## The ring walk -/

theorem jloop_spec (orig : List Nat) (size t : Nat) (s : JState)
    (horig : isBytes orig) (ht : t < (size + 1) / 2) (hinv : JInv orig size t 0 s) :
    ∃ s', whileLoop (64 * size) (fun st : JState => decide (st.j < size / 2))
        (ringStep (64 * size) size) s = some s' ∧ JInv orig size t (size / 2) s' := by
  apply whileLoop_inv (fun st : JState => decide (st.j < size / 2))
    (ringStep (64 * size) size) (fun u st => JInv orig size t u st) (size / 2)
  · intro u st hu hI
    refine ⟨by simp [hI.1, hu], ringStep_spec orig size t u st horig ht hu hI⟩
  · intro st hI
    simp [hI.1]
  · omega
  · exact hinv

theorem ringPtrs_next (size t : Nat) :
    ({ p1 := (ringPtrs size t 0).p1 + ((64 * size : Nat) : Int),
       p2 := (ringPtrs size t 0).p2 - 1,
       p3 := (ringPtrs size t 0).p3 - ((64 * size : Nat) : Int),
       p4 := (ringPtrs size t 0).p4 + 1 } : Ptrs) = ringPtrs size (t + 1) 0 := by
  simp only [ringPtrs, Ptrs.mk.injEq]
  refine ⟨?_, ?_, ?_, ?_⟩ <;> push_cast <;> ring

theorem ringPtrs_init (size : Nat) :
    ({ p1 := 0, p2 := (size : Int) - 1,
       p3 := (((64 * size : Nat) : Int) - (BASE : Int)) * size + size - 1,
       p4 := (((64 * size : Nat) : Int) - (BASE : Int)) * size } : Ptrs) = ringPtrs size 0 0 := by
  simp only [ringPtrs, Ptrs.mk.injEq]
  refine ⟨?_, ?_, ?_, ?_⟩ <;> push_cast <;> ring

theorem ringBody_spec (orig : List Nat) (size t : Nat) (s : IState)
    (horig : isBytes orig) (ht : t < (size + 1) / 2) (hinv : IInv orig size t s) :
    ∃ s', ringBody (64 * size) size s = some s' ∧ IInv orig size (t + 1) s' := by
  obtain ⟨mem, blocks, np, i⟩ := s
  obtain ⟨hi, hlen, hb, l1, l2, l3, l4, hp, hm⟩ := hinv
  simp only at hi hlen hb l1 l2 l3 l4 hp hm
  subst hi hp
  obtain ⟨s', hw, hj, hlen', hb', k1, k2, k3, k4, _, hm'⟩ :=
    jloop_spec orig size i { mem := mem, blocks := blocks, bp := ringPtrs size i 0, j := 0 }
      horig ht ⟨rfl, hlen, hb, l1, l2, l3, l4, rfl, hm⟩
  refine ⟨{ mem := s'.mem, blocks := s'.blocks, np := ringPtrs size (i + 1) 0, i := i + 1 },
    ?_, rfl, hlen', hb', k1, k2, k3, k4, rfl, ?_⟩
  · simp only [ringBody, hw, Option.bind_eq_bind, Option.some_bind, bind, Option.bind,
      ringPtrs_next]
  · intro ρ c hρ hc
    have := hm' ρ c hρ hc
    rw [done_ring_end] at this
    exact this

theorem iloop_spec (orig : List Nat) (size : Nat) (s : IState)
    (horig : isBytes orig) (hs : 0 < size) (hinv : IInv orig size 0 s) :
    ∃ s', whileLoop (64 * size) (fun st : IState => decide (st.i < (size + 1) / 2))
        (ringBody (64 * size) size) s = some s' ∧ IInv orig size ((size + 1) / 2) s' := by
  apply whileLoop_inv (fun st : IState => decide (st.i < (size + 1) / 2))
    (ringBody (64 * size) size) (fun t st => IInv orig size t st) ((size + 1) / 2)
  · intro t st ht hI
    refine ⟨by simp [hI.1, ht], ringBody_spec orig size t st horig ht hI⟩
  · intro st hI
    simp [hI.1]
  · omega
  · exact hinv

/-- What `rotate_bit_matrix` computes, word by word: on a buffer of
`N * (N / 8)` bytes with `N = 64 * size`, `size > 0`, it returns, the buffer
keeps its length, and the word in word-row `ρ`, block column `c` is `rotW`. -/
theorem rotate_words (orig : List Nat) (size : Nat) (hs : 0 < size)
    (hlen : orig.length = 8 * (64 * size * size)) (hb : isBytes orig) :
    ∃ out, rotate_bit_matrix orig (64 * size) = some out ∧ out.length = orig.length ∧
      isBytes out ∧ ∀ ρ c, ρ < 64 * size → c < size → W out size ρ c = rotW orig size ρ c := by
  have hsz : (64 * size) >>> LOG_BASE = size := by
    simp only [LOG_BASE, Nat.shiftRight_eq_div_pow]; omega
  have hz : (List.replicate BASE 0).length = 64 := by simp [BASE]
  obtain ⟨s1, hw, hi, hlen1, hb1, l1, _, _, _, _, hm⟩ := iloop_spec orig size
    { mem := orig,
      blocks := { block_1 := List.replicate BASE 0, block_2 := List.replicate BASE 0,
                  block_3 := List.replicate BASE 0, block_4 := List.replicate BASE 0 },
      np := ringPtrs size 0 0, i := 0 } hb hs
    ⟨rfl, hlen, hb, hz, hz, hz, hz, rfl, fun ρ c _ _ =>
      ⟨fun h => absurd h (not_done_zero _ _ _), fun _ => rfl⟩⟩
  have hrun : rotate_bit_matrix orig (64 * size) =
      if size &&& 1 ≠ 0 then centerStep s1.mem s1.blocks.block_1 size else some s1.mem := by
    simp only [rotate_bit_matrix, hsz, ringPtrs_init, hw, Option.bind_eq_bind,
      Option.some_bind, bind, Option.bind]
  rw [hrun, Nat.and_one_is_mod]
  by_cases hodd : size % 2 = 1
  · rw [if_pos (by omega)]
    obtain ⟨out, ho, hol, hob, hov⟩ :=
      centerStep_spec orig s1.mem size s1.blocks.block_1 hb hodd hlen1 hb1 l1 hm
    exact ⟨out, ho, by rw [hol, hlen1, hlen], hob, hov⟩
  · rw [if_neg (by omega)]
    refine ⟨s1.mem, rfl, by rw [hlen1, hlen], hb1, ?_⟩
    intro ρ c hρ hc
    exact (hm ρ c hρ hc).1 (done_final size (ρ / 64) c (by omega) hc (by omega))

/-! ## Cells of the bit matrix -/

theorem cell_eq_W (mem : List Nat) (size i j : Nat) (h : isBytes mem) :
    cell mem (64 * size) i j =
      (W mem size i (j / 64)).testBit (8 * ((j / 8) % 8) + (7 - j % 8)) := by
  unfold cell W
  rw [word_testBit mem _ _ h (by omega)]
  have e1 : 64 * size / 8 = 8 * size := by omega
  have e2 : i * (8 * size) = 8 * (i * size) := by ring
  have e3 : 8 * (i * size + j / 64) + (8 * ((j / 8) % 8) + (7 - j % 8)) / 8 =
      i * (64 * size / 8) + j / 8 := by
    rw [e1, e2]; omega
  have e4 : (8 * ((j / 8) % 8) + (7 - j % 8)) % 8 = 7 - j % 8 := by omega
  rw [e3, e4]

/-- The rotation, cell by cell: on a well-formed buffer `rotate_bit_matrix`
returns a buffer of the same length whose cell (`i`, `j`) is the cell
(`N - 1 - j`, `i`) of the input. -/
theorem rotate_cells (mem : List Nat) (size : Nat) (hs : 0 < size)
    (hlen : mem.length = 8 * (64 * size * size)) (hb : isBytes mem) :
    ∃ out, rotate_bit_matrix mem (64 * size) = some out ∧ out.length = mem.length ∧
      isBytes out ∧
      ∀ i j, i < 64 * size → j < 64 * size →
        cell out (64 * size) i j = cell mem (64 * size) (64 * size - 1 - j) i := by
  obtain ⟨out, hr, hl, hob, hv⟩ := rotate_words mem size hs hlen hb
  refine ⟨out, hr, hl, hob, ?_⟩
  intro i j hi hj
  rw [cell_eq_W out size i j hob, cell_eq_W mem size _ i hb, hv i (j / 64) hi (by omega)]
  unfold rotW
  rw [T_testBit _ (blk_length _ _ _ _) _ _ (by omega) (by omega),
    blk_getD _ _ _ _ _ (by omega)]
  have e1 : 64 * (size - 1 - j / 64) +
      (8 * (7 - (8 * ((j / 8) % 8) + (7 - j % 8)) / 8) + (8 * ((j / 8) % 8) + (7 - j % 8)) % 8) =
      64 * size - 1 - j := by omega
  have e2 : 8 * (7 - (63 - i % 64) / 8) + (63 - i % 64) % 8 =
      8 * ((i / 8) % 8) + (7 - i % 8) := by omega
  rw [e1, e2]

/-- Two well-formed buffers of an `N × N` matrix with the same cells are equal. -/
theorem buf_ext (m1 m2 : List Nat) (size : Nat)
    (h1 : m1.length = 8 * (64 * size * size)) (h2 : m2.length = 8 * (64 * size * size))
    (b1 : isBytes m1) (b2 : isBytes m2)
    (h : ∀ i j, i < 64 * size → j < 64 * size →
      cell m1 (64 * size) i j = cell m2 (64 * size) i j) : m1 = m2 := by
  apply list_ext_getD m1 m2 _ h1 h2
  intro a ha
  have hs : 0 < size := by
    rcases Nat.eq_zero_or_pos size with h0 | h0
    · subst h0; simp at ha
    · exact h0
  have e1 : 64 * size / 8 = 8 * size := by omega
  have hq : a % (8 * size) < 8 * size := Nat.mod_lt _ (by omega)
  have hi : a / (8 * size) < 64 * size := by
    rw [Nat.div_lt_iff_lt_mul (by omega)]
    have : 64 * size * (8 * size) = 8 * (64 * size * size) := by ring
    omega
  have hsplit : a / (8 * size) * (8 * size) + a % (8 * size) = a := Nat.div_add_mod' a (8 * size)
  apply Nat.eq_of_testBit_eq
  intro k
  by_cases hk : k < 8
  · have := h (a / (8 * size)) (8 * (a % (8 * size)) + (7 - k)) hi (by omega)
    unfold cell at this
    rw [e1] at this
    have e2 : (8 * (a % (8 * size)) + (7 - k)) / 8 = a % (8 * size) := by omega
    have e3 : 7 - (8 * (a % (8 * size)) + (7 - k)) % 8 = k := by omega
    rw [e2, e3, hsplit] at this
    exact this
  · rw [testBit_false_of_ge _ 8 k (b1 a) (by omega), testBit_false_of_ge _ 8 k (b2 a) (by omega)]

/-! ## The single-bit accessors of the reference rotator -/

theorem get_bit_eq_cell (mem : List Nat) (N x y : Nat) :
    get_bit mem (N / 8) x y = if cell mem N y x then 1 else 0 := by
  unfold get_bit cell
  rw [Nat.testBit_to_div_mod, Nat.shiftRight_eq_div_pow]
  simp only [decide_eq_true_eq]
  split_ifs with h
  · exact h
  · omega

theorem byte_bits : ∀ k, k < 8 → (255 : Nat).testBit k = true := by decide

theorem testBit_setclear (byte k m v : Nat) (hk : k < 8) (hm : m < 8) :
    (if v ≠ 0 then byte ||| (1 <<< k) else byte &&& (255 ^^^ (1 <<< k))).testBit m =
      if m = k then decide (v ≠ 0) else byte.testBit m := by
  have e : (1 <<< k).testBit m = decide (k = m) := by
    rw [Nat.one_shiftLeft, Nat.testBit_two_pow]
  by_cases hv : v ≠ 0
  · rw [if_pos hv, Nat.testBit_or, e]
    by_cases hmk : m = k
    · subst hmk; simp [hv]
    · have : ¬ k = m := fun h => hmk h.symm
      simp [hmk, this]
  · rw [if_neg hv, Nat.testBit_and, Nat.testBit_xor, e, byte_bits m hm]
    by_cases hmk : m = k
    · subst hmk; simp [hv]
    · have : ¬ k = m := fun h => hmk h.symm
      simp [hmk, this]

theorem setclear_lt (byte k v : Nat) (hb : byte < 256) (hk : k < 8) :
    (if v ≠ 0 then byte ||| (1 <<< k) else byte &&& (255 ^^^ (1 <<< k))) < 256 := by
  have h1 : (1 : Nat) <<< k < 2 ^ 8 := by
    rw [Nat.one_shiftLeft]; exact Nat.pow_lt_pow_right (by decide) hk
  split_ifs
  · exact Nat.or_lt_two_pow (by simpa using hb) h1
  · exact lt_of_le_of_lt Nat.and_le_left hb

theorem set_bit_length (mem : List Nat) (rs x y v : Nat) :
    (set_bit mem rs x y v).length = mem.length := by
  simp [set_bit]

theorem isBytes_set_bit (mem : List Nat) (rs x y v : Nat) (h : isBytes mem) :
    isBytes (set_bit mem rs x y v) := by
  intro a
  unfold set_bit
  simp only
  rw [getD_set_nat]
  by_cases h1 : y * rs + x / 8 = a ∧ y * rs + x / 8 < mem.length
  · rw [if_pos h1]
    exact setclear_lt _ (7 - x % 8) _ (h _) (by omega)
  · rw [if_neg h1]
    exact h a

theorem byte_idx_lt (N x y : Nat) (h8 : N % 8 = 0) (hx : x < N) (hy : y < N) :
    y * (N / 8) + x / 8 < N * (N / 8) := by
  have h1 : x / 8 < N / 8 := by omega
  have h2 : (y + 1) * (N / 8) ≤ N * (N / 8) := Nat.mul_le_mul_right _ hy
  have h3 : (y + 1) * (N / 8) = y * (N / 8) + N / 8 := by ring
  omega

theorem cell_set_bit (mem : List Nat) (N x y v i j : Nat) (h8 : N % 8 = 0)
    (hlen : mem.length = N * (N / 8)) (hx : x < N) (hy : y < N) (hj : j < N) :
    cell (set_bit mem (N / 8) x y v) N i j =
      if i = y ∧ j = x then decide (v ≠ 0) else cell mem N i j := by
  have hin := byte_idx_lt N x y h8 hx hy
  unfold cell set_bit
  simp only
  rw [getD_set_nat]
  have hx8 : x / 8 < N / 8 := by omega
  have hj8 : j / 8 < N / 8 := by omega
  by_cases hidx : y * (N / 8) + x / 8 = i * (N / 8) + j / 8
  · obtain ⟨e1, e2⟩ := (idx_inj (N / 8) y (x / 8) i (j / 8) hx8 hj8).mp hidx
    subst e1
    rw [if_pos ⟨hidx, by omega⟩]
    have hsc := testBit_setclear (mem.getD (y * (N / 8) + x / 8) 0) (7 - x % 8) (7 - j % 8) v
      (by omega) (by omega)
    simp only [ne_eq, ite_not] at hsc ⊢
    rw [hsc, hidx]
    by_cases hjx : j = x
    · subst hjx; simp
    · rw [if_neg (by omega), if_neg (by simp [hjx])]
  · rw [if_neg (by intro h; exact hidx h.1)]
    have : ¬ (i = y ∧ j = x) := by
      rintro ⟨rfl, rfl⟩; exact hidx rfl
    rw [if_neg this]

/-! ## The reference rotator -/

theorem quadrantStep_eq (N rs : Nat) (mem : List Nat) (i j tmp q : Nat) (hj : j < N) :
    quadrantStep N rs { mem := mem, i := i, j := j, tmp_bit := tmp, quadrant := q } =
      some { mem := set_bit mem rs (N - 1 - j) i tmp, i := N - 1 - j, j := i,
             tmp_bit := get_bit mem rs (N - 1 - j) i, quadrant := q + 1 } := by
  have e : ((N : Int) - (j : Int) - 1).toNat = N - 1 - j := by omega
  simp only [quadrantStep, e]

theorem bit_ne_zero (b : Bool) : decide ((if b then 1 else 0 : Nat) ≠ 0) = b := by
  cases b <;> rfl

/-- The four-way cycle of one bit: the four cells of the orbit of
(`h`, `w`) take the value of the cell they come from under the rotation, the
other cells are unchanged. -/
theorem colStep_spec (mem : List Nat) (N h w : Nat) (h8 : N % 8 = 0)
    (hh : h < N / 2) (hw : w < N / 2)
    (hlen : mem.length = N * (N / 8)) (hb : isBytes mem) :
    ∃ mem', colStep N (N / 8) h (mem, w) = some (mem', w + 1) ∧
      mem'.length = N * (N / 8) ∧ isBytes mem' ∧
      ∀ i j, i < N → j < N →
        (inQuad N h w i j → cell mem' N i j = cell mem N (N - 1 - j) i) ∧
        (¬ inQuad N h w i j → cell mem' N i j = cell mem N i j) := by
  have a1 : N - 1 - (N - 1 - h) = h := by omega
  have a2 : N - 1 - (N - 1 - w) = w := by omega
  obtain ⟨m1, hm1⟩ : ∃ m1, m1 = set_bit mem (N / 8) (N - 1 - h) w (get_bit mem (N / 8) w h) :=
    ⟨_, rfl⟩
  obtain ⟨m2, hm2⟩ : ∃ m2, m2 = set_bit m1 (N / 8) (N - 1 - w) (N - 1 - h)
    (get_bit mem (N / 8) (N - 1 - h) w) := ⟨_, rfl⟩
  obtain ⟨m3, hm3⟩ : ∃ m3, m3 = set_bit m2 (N / 8) h (N - 1 - w)
    (get_bit m1 (N / 8) (N - 1 - w) (N - 1 - h)) := ⟨_, rfl⟩
  obtain ⟨m4, hm4⟩ : ∃ m4, m4 = set_bit m3 (N / 8) w h
    (get_bit m2 (N / 8) h (N - 1 - w)) := ⟨_, rfl⟩
  have l1 : m1.length = N * (N / 8) := by rw [hm1, set_bit_length, hlen]
  have l2 : m2.length = N * (N / 8) := by rw [hm2, set_bit_length, l1]
  have l3 : m3.length = N * (N / 8) := by rw [hm3, set_bit_length, l2]
  have l4 : m4.length = N * (N / 8) := by rw [hm4, set_bit_length, l3]
  have hrun : colStep N (N / 8) h (mem, w) = some (m4, w + 1) := by
    simp only [colStep]
    rw [show (4 : Nat) = 0 + 1 + 1 + 1 + 1 from rfl,
      whileLoop_step _ _ _ _ _ (by rfl) (quadrantStep_eq N (N / 8) mem w h _ 0 (by omega)),
      whileLoop_step _ _ _ _ _ (by rfl)
        (quadrantStep_eq N (N / 8) _ (N - 1 - h) w _ 1 (by omega)),
      whileLoop_step _ _ _ _ _ (by rfl)
        (quadrantStep_eq N (N / 8) _ (N - 1 - w) (N - 1 - h) _ 2 (by omega)),
      whileLoop_step _ _ _ _ _ (by rfl)
        (quadrantStep_eq N (N / 8) _ (N - 1 - (N - 1 - h)) (N - 1 - w) _ 3 (by omega)),
      whileLoop_done _ _ _ _ (by rfl)]
    simp only [a1, a2, ← hm1, ← hm2, ← hm3, ← hm4, Option.bind_eq_bind, Option.some_bind,
      bind, Option.bind]
  refine ⟨m4, hrun, l4, ?_, ?_⟩
  · rw [hm4, hm3, hm2, hm1]
    exact isBytes_set_bit _ _ _ _ _ (isBytes_set_bit _ _ _ _ _ (isBytes_set_bit _ _ _ _ _
      (isBytes_set_bit _ _ _ _ _ hb)))
  · intro i j hi hj
    have c1 : ∀ i j, j < N → cell m1 N i j =
        if i = w ∧ j = N - 1 - h then cell mem N h w else cell mem N i j := by
      intro i j hj
      rw [hm1, cell_set_bit mem N _ _ _ i j h8 hlen (by omega) (by omega) hj,
        get_bit_eq_cell, bit_ne_zero]
    have c2 : ∀ i j, j < N → cell m2 N i j =
        if i = N - 1 - h ∧ j = N - 1 - w then cell mem N w (N - 1 - h) else cell m1 N i j := by
      intro i j hj
      rw [hm2, cell_set_bit m1 N _ _ _ i j h8 l1 (by omega) (by omega) hj,
        get_bit_eq_cell, bit_ne_zero]
    have c3 : ∀ i j, j < N → cell m3 N i j =
        if i = N - 1 - w ∧ j = h then cell m1 N (N - 1 - h) (N - 1 - w) else cell m2 N i j := by
      intro i j hj
      rw [hm3, cell_set_bit m2 N _ _ _ i j h8 l2 (by omega) (by omega) hj,
        get_bit_eq_cell, bit_ne_zero]
    have c4 : ∀ i j, j < N → cell m4 N i j =
        if i = h ∧ j = w then cell m2 N (N - 1 - w) h else cell m3 N i j := by
      intro i j hj
      rw [hm4, cell_set_bit m3 N _ _ _ i j h8 l3 (by omega) (by omega) hj,
        get_bit_eq_cell, bit_ne_zero]
    have d1 : cell m1 N (N - 1 - h) (N - 1 - w) = cell mem N (N - 1 - h) (N - 1 - w) := by
      rw [c1 _ _ (by omega), if_neg (by omega)]
    have d2 : cell m2 N (N - 1 - w) h = cell mem N (N - 1 - w) h := by
      rw [c2 _ _ (by omega), if_neg (by omega), c1 _ _ (by omega), if_neg (by omega)]
    rw [d1] at c3
    rw [d2] at c4
    clear d1 d2 hm1 hm2 hm3 hm4 hrun l1 l2 l3 l4 hlen hb
    unfold inQuad
    rw [c4 i j hj, c3 i j hj, c2 i j hj, c1 i j hj]
    constructor
    · rintro (⟨e1, e2⟩ | ⟨e1, e2⟩ | ⟨e1, e2⟩ | ⟨e1, e2⟩)
      · subst e1 e2
        rw [if_pos ⟨rfl, rfl⟩]
      · subst e1 e2
        rw [if_neg (by omega), if_neg (by omega), if_neg (by omega), if_pos ⟨rfl, rfl⟩, a1]
      · subst e1 e2
        rw [if_neg (by omega), if_neg (by omega), if_pos ⟨rfl, rfl⟩, a2]
      · subst e1 e2
        rw [if_neg (by omega), if_pos ⟨rfl, rfl⟩]
    · intro hn
      rw [if_neg (by omega), if_neg (by omega), if_neg (by omega), if_neg (by omega)]

theorem inQuad_source (N h w i j : Nat) (hh : h < N / 2) (hw : w < N / 2)
    (hq : inQuad N h w i j) : inQuad N h w (N - 1 - j) i := by
  unfold inQuad at hq ⊢
  omega

theorem colStep_inv (orig mem : List Nat) (N h w : Nat) (h64 : N % 64 = 0)
    (hh : h < N / 2) (hw : w < N / 2) (hinv : CellInv orig mem N h w) :
    ∃ mem', colStep N (N / 8) h (mem, w) = some (mem', w + 1) ∧
      CellInv orig mem' N h (w + 1) := by
  obtain ⟨hlen, hb, hm⟩ := hinv
  obtain ⟨mem', hr, hl', hb', hv⟩ := colStep_spec mem N h w (by omega) hh hw hlen hb
  refine ⟨mem', hr, hl', hb', ?_⟩
  intro i j hi hj
  obtain ⟨v1, v2⟩ := hv i j hi hj
  rw [done_step N h w i j (by omega) hw]
  by_cases hq : inQuad N h w i j
  · refine ⟨fun _ => ?_, fun hn => absurd (Or.inr hq) hn⟩
    rw [v1 hq]
    have hsrc := inQuad_source N h w i j hh hw hq
    exact (hm (N - 1 - j) i (by omega) hi).2
      (not_done_of_inQuad N h w _ _ (by omega) hw hsrc)
  · rw [v2 hq]
    refine ⟨fun hd => ?_, fun hn => ?_⟩
    · rcases hd with hd | hd
      · exact (hm i j hi hj).1 hd
      · exact absurd hd hq
    · exact (hm i j hi hj).2 (fun hd => hn (Or.inl hd))

theorem rowStep_inv (orig mem : List Nat) (N h : Nat) (h64 : N % 64 = 0)
    (hh : h < N / 2) (hinv : CellInv orig mem N h 0) :
    ∃ mem', rowStep N (N / 8) (mem, h) = some (mem', h + 1) ∧
      CellInv orig mem' N (h + 1) 0 := by
  obtain ⟨⟨m, w⟩, hw, hwe, hI⟩ := whileLoop_inv
    (fun s : List Nat × Nat => decide (s.2 < N / 2)) (colStep N (N / 8) h)
    (fun w st => st.2 = w ∧ CellInv orig st.1 N h w) (N / 2)
    (by
      rintro w ⟨m, w'⟩ hw ⟨e, hI⟩
      simp only at e hI
      subst e
      refine ⟨by simp [hw], ?_⟩
      obtain ⟨m', hr, hI'⟩ := colStep_inv orig m N h w' h64 hh hw hI
      exact ⟨(m', w' + 1), hr, rfl, hI'⟩)
    (by
      rintro ⟨m, w'⟩ ⟨e, _⟩
      simp only at e
      simp [e])
    N (by omega) (mem, 0) ⟨rfl, hinv⟩
  refine ⟨m, ?_, hI.1, hI.2.1, ?_⟩
  · simp only [rowStep, hw, Option.bind_eq_bind, Option.some_bind, bind, Option.bind]
  · intro i j hi hj
    have := hI.2.2 i j hi hj
    simp only at this
    rw [done_ring_end] at this
    exact this

/-- What the reference rotator computes, cell by cell. -/
theorem reference_cells (mem : List Nat) (N : Nat) (h64 : N % 64 = 0)
    (hlen : mem.length = N * (N / 8)) (hb : isBytes mem) :
    ∃ out, _rotate_bit_matrix mem N = some out ∧ out.length = mem.length ∧ isBytes out ∧
      ∀ i j, i < N → j < N → cell out N i j = cell mem N (N - 1 - j) i := by
  obtain ⟨⟨m, h⟩, hw, he, hI⟩ := whileLoop_inv
    (fun s : List Nat × Nat => decide (s.2 < N / 2)) (rowStep N (N / 8))
    (fun h st => st.2 = h ∧ CellInv mem st.1 N h 0) (N / 2)
    (by
      rintro h ⟨m, h'⟩ hh ⟨e, hI⟩
      simp only at e hI
      subst e
      refine ⟨by simp [hh], ?_⟩
      obtain ⟨m', hr, hI'⟩ := rowStep_inv mem m N h' h64 hh hI
      exact ⟨(m', h' + 1), hr, rfl, hI'⟩)
    (by
      rintro ⟨m, h'⟩ ⟨e, _⟩
      simp only at e
      simp [e])
    N (by omega) (mem, 0)
    ⟨rfl, hlen, hb, fun i j _ _ => ⟨fun hd => absurd hd (not_done_zero _ _ _), fun _ => rfl⟩⟩
  refine ⟨m, ?_, by rw [hI.1, hlen], hI.2.1, ?_⟩
  · simp only [_rotate_bit_matrix, bits_to_bytes, hw, Option.bind_eq_bind, Option.some_bind,
      bind, Option.bind]
  · intro i j hi hj
    have h2 : (N + 1) / 2 = N / 2 := by omega
    have hd : done N (N / 2) 0 i j := by
      have := done_final N i j hi hj (by omega)
      rwa [h2] at this
    exact ((hI.2.2 i j hi hj).1 hd)

/-! ## The rotation on well-formed buffers -/

theorem size_facts (N : Nat) (hN : 0 < N) (h64 : N % 64 = 0) :
    N = 64 * (N / 64) ∧ 0 < N / 64 ∧ N * (N / 8) = 8 * (64 * (N / 64) * (N / 64)) := by
  obtain ⟨s, hs⟩ : ∃ s, N = 64 * s := ⟨N / 64, by omega⟩
  subst hs
  have e1 : 64 * s / 64 = s := by omega
  have e2 : 64 * s / 8 = 8 * s := by omega
  rw [e1, e2]
  refine ⟨rfl, by omega, by ring⟩

theorem rotate_ok (N : Nat) (mem : List Nat) (hN : 0 < N) (h64 : N % 64 = 0)
    (hlen : mem.length = N * (N / 8)) (hb : ∀ b ∈ mem, b < 256) :
    ∃ out, rotate_bit_matrix mem N = some out ∧ out.length = N * (N / 8) ∧
      (∀ b ∈ out, b < 256) ∧
      ∀ i j, i < N → j < N → cell out N i j = cell mem N (N - 1 - j) i := by
  obtain ⟨e1, e2, e3⟩ := size_facts N hN h64
  obtain ⟨out, hr, hl, hob, hv⟩ := rotate_cells mem (N / 64) e2 (by rw [hlen, e3])
    (isBytes_of_forall_mem mem hb)
  rw [← e1] at hr hv
  exact ⟨out, hr, by rw [hl, hlen], forall_mem_of_isBytes out hob, hv⟩

theorem reference_ok (N : Nat) (mem : List Nat) (h64 : N % 64 = 0)
    (hlen : mem.length = N * (N / 8)) (hb : ∀ b ∈ mem, b < 256) :
    ∃ out, _rotate_bit_matrix mem N = some out ∧ out.length = N * (N / 8) ∧
      (∀ b ∈ out, b < 256) ∧
      ∀ i j, i < N → j < N → cell out N i j = cell mem N (N - 1 - j) i := by
  obtain ⟨out, hr, hl, hob, hv⟩ := reference_cells mem N h64 hlen
    (isBytes_of_forall_mem mem hb)
  exact ⟨out, hr, by rw [hl, hlen], forall_mem_of_isBytes out hob, hv⟩

theorem buf_ext_N (N : Nat) (m1 m2 : List Nat) (hN : 0 < N) (h64 : N % 64 = 0)
    (h1 : m1.length = N * (N / 8)) (h2 : m2.length = N * (N / 8))
    (b1 : ∀ b ∈ m1, b < 256) (b2 : ∀ b ∈ m2, b < 256)
    (h : ∀ i j, i < N → j < N → cell m1 N i j = cell m2 N i j) : m1 = m2 := by
  obtain ⟨e1, _, e3⟩ := size_facts N hN h64
  rw [e1] at h
  exact buf_ext m1 m2 (N / 64) (by rw [h1, e3]) (by rw [h2, e3])
    (isBytes_of_forall_mem m1 b1) (isBytes_of_forall_mem m2 b2) h

/-- Both rotators send a well-formed buffer to the same buffer. -/
theorem rotate_eq_reference (N : Nat) (mem : List Nat) (hN : 0 < N) (h64 : N % 64 = 0)
    (hlen : mem.length = N * (N / 8)) (hb : ∀ b ∈ mem, b < 256) :
    ∃ out, rotate_bit_matrix mem N = some out ∧ _rotate_bit_matrix mem N = some out ∧
      out.length = N * (N / 8) ∧ (∀ b ∈ out, b < 256) := by
  obtain ⟨o1, r1, l1, b1, v1⟩ := rotate_ok N mem hN h64 hlen hb
  obtain ⟨o2, r2, l2, b2, v2⟩ := reference_ok N mem h64 hlen hb
  have : o2 = o1 := buf_ext_N N o2 o1 hN h64 l2 l1 b2 b1
    (fun i j hi hj => by rw [v1 i j hi hj, v2 i j hi hj])
  subst this
  exact ⟨o2, r1, r2, l1, b1⟩

theorem getD_replicate_nat (n v k : Nat) (hk : k < n) : (List.replicate n v).getD k 0 = v := by
  rw [List.getD_eq_getElem _ _ (by simpa using hk)]
  simp

theorem cell_replicate (N v i j : Nat) (h8 : N % 8 = 0) (hi : i < N) (hj : j < N) :
    cell (List.replicate (N * (N / 8)) v) N i j = v.testBit (7 - j % 8) := by
  unfold cell
  rw [getD_replicate_nat _ _ _ (byte_idx_lt N j i h8 hj hi)]

theorem low_bits_255 : ∀ k, k < 8 → (255 : Nat).testBit (7 - k) = true := by decide

theorem bits_128 : ∀ k, k < 8 → (128 : Nat).testBit (7 - k) = decide (k = 0) := by decide

theorem bits_1 : ∀ k, k < 8 → (1 : Nat).testBit (7 - k) = decide (k = 7) := by decide

theorem cell_corner_in (N i j : Nat) (hN : 0 < N) (h64 : N % 64 = 0) (hj : j < N) :
    cell (0x80 :: List.replicate (N * (N / 8) - 1) 0) N i j = decide (i = 0 ∧ j = 0) := by
  unfold cell
  have hr : 0 < N / 8 := by omega
  by_cases h0 : i * (N / 8) + j / 8 = 0
  · have hi : i = 0 := by
      rcases Nat.eq_zero_or_pos i with h | h
      · exact h
      · have : 1 * (N / 8) ≤ i * (N / 8) := Nat.mul_le_mul_right _ h
        omega
    rw [h0, List.getD_cons_zero, bits_128 _ (Nat.mod_lt _ (by decide))]
    have : (j % 8 = 0) ↔ (i = 0 ∧ j = 0) := by omega
    simp only [this]
  · obtain ⟨n, hn⟩ : ∃ n, i * (N / 8) + j / 8 = n + 1 := ⟨_, (Nat.succ_pred_eq_of_pos
      (Nat.pos_of_ne_zero h0)).symm⟩
    rw [hn, List.getD_cons_succ]
    have hz : (List.replicate (N * (N / 8) - 1) 0).getD n 0 = 0 := by
      by_cases hlt : n < N * (N / 8) - 1
      · exact getD_replicate_nat _ _ _ hlt
      · exact List.getD_eq_default _ _ (by simpa using hlt)
    rw [hz, Nat.zero_testBit]
    have : ¬ (i = 0 ∧ j = 0) := by
      rintro ⟨rfl, rfl⟩; simp at h0
    simp [this]

theorem cell_corner_out (N i j : Nat) (hN : 0 < N) (h64 : N % 64 = 0) (hi : i < N)
    (hj : j < N) :
    cell ((List.replicate (N * (N / 8)) 0).set (N / 8 - 1) 1) N i j =
      decide (i = 0 ∧ j = N - 1) := by
  unfold cell
  have hr : 0 < N / 8 := by omega
  rw [getD_set_nat, List.length_replicate]
  have hin := byte_idx_lt N j i (by omega) hj hi
  by_cases h0 : N / 8 - 1 = i * (N / 8) + j / 8
  · have hidx := (idx_inj (N / 8) 0 (N / 8 - 1) i (j / 8) (by omega) (by omega)).mp
      (by rw [Nat.zero_mul, Nat.zero_add]; exact h0)
    rw [if_pos ⟨h0, by omega⟩, bits_1 _ (Nat.mod_lt _ (by decide))]
    have : (j % 8 = 7) ↔ (i = 0 ∧ j = N - 1) := by omega
    simp only [this]
  · rw [if_neg (fun h => h0 h.1), getD_replicate_nat _ _ _ hin, Nat.zero_testBit]
    have : ¬ (i = 0 ∧ j = N - 1) := by
      rintro ⟨rfl, rfl⟩
      apply h0
      rw [Nat.zero_mul, Nat.zero_add]
      omega
    simp [this]

theorem replicate_bytes (n v : Nat) (hv : v < 256) : ∀ b ∈ List.replicate n v, b < 256 := by
  intro b hb
  rw [List.mem_replicate] at hb
  omega

theorem cons_replicate_bytes (a n v : Nat) (ha : a < 256) (hv : v < 256) :
    ∀ b ∈ a :: List.replicate n v, b < 256 := by
  intro b hb
  rw [List.mem_cons, List.mem_replicate] at hb
  omega

theorem replicate_words (n v : Nat) (hv : v < 2 ^ 64) :
    ∀ b ∈ List.replicate n v, b < 2 ^ 64 := by
  intro b hb
  rw [List.mem_replicate] at hb
  omega

theorem cons_replicate_length (a n v m : Nat) (h : n + 1 = m) :
    (a :: List.replicate n v).length = m := by
  rw [List.length_cons, List.length_replicate, h]

theorem replicate_length_eq (n v m : Nat) (h : n = m) : (List.replicate n v).length = m := by
  rw [List.length_replicate, h]

/-! ## The claims -/

/-- C1: for every `N` that is a positive multiple of 64 and every buffer of
`N * (N / 8)` bytes, `rotate_bit_matrix` returns a buffer of the same length
whose cell (`i`, `j`) equals the cell (`N - 1 - j`, `i`) of the original, for
all `i, j < N`, where cell (`i`, `j`) is bit `7 - j % 8` of byte
`i * (N / 8) + j / 8`: the buffer is rotated 90 degrees clockwise. -/
theorem rotate_bit_matrix_clockwise (N : Nat) (mem : List Nat) (hN : 0 < N)
    (h64 : N % 64 = 0) (hlen : mem.length = N * (N / 8)) (hb : ∀ b ∈ mem, b < 256) :
    ∃ out, rotate_bit_matrix mem N = some out ∧ out.length = mem.length ∧
      ∀ i j, i < N → j < N → cell out N i j = cell mem N (N - 1 - j) i := by
  obtain ⟨out, hr, hl, _, hv⟩ := rotate_ok N mem hN h64 hlen hb
  exact ⟨out, hr, by rw [hl, hlen], hv⟩

theorem rotate_bit_matrix_clockwise_witness :
    ∃ out, rotate_bit_matrix (0x80 :: List.replicate 511 0) 64 = some out ∧
      out.length = (0x80 :: List.replicate 511 0).length ∧
      ∀ i j, i < 64 → j < 64 →
        cell out 64 i j = cell (0x80 :: List.replicate 511 0) 64 (64 - 1 - j) i :=
  rotate_bit_matrix_clockwise 64 (0x80 :: List.replicate 511 0) (by decide) (by decide)
    (cons_replicate_length _ _ _ _ (by decide))
    (cons_replicate_bytes _ _ _ (by decide) (by decide))

/-- C2: for every `N >= 64` that is a multiple of 64 and every buffer of
`N * (N / 8)` bytes, `rotate_bit_matrix` and the reference `_rotate_bit_matrix`
return the same buffer, and they still do when each is applied a second and
a third time in succession. -/
theorem rotate_matches_reference (N : Nat) (mem : List Nat) (hN : 64 ≤ N)
    (h64 : N % 64 = 0) (hlen : mem.length = N * (N / 8)) (hb : ∀ b ∈ mem, b < 256) :
    ∃ o1 o2 o3,
      rotate_bit_matrix mem N = some o1 ∧ _rotate_bit_matrix mem N = some o1 ∧
      rotate_bit_matrix o1 N = some o2 ∧ _rotate_bit_matrix o1 N = some o2 ∧
      rotate_bit_matrix o2 N = some o3 ∧ _rotate_bit_matrix o2 N = some o3 := by
  obtain ⟨o1, r1, s1, l1, b1⟩ := rotate_eq_reference N mem (by omega) h64 hlen hb
  obtain ⟨o2, r2, s2, l2, b2⟩ := rotate_eq_reference N o1 (by omega) h64 l1 b1
  obtain ⟨o3, r3, s3, _, _⟩ := rotate_eq_reference N o2 (by omega) h64 l2 b2
  exact ⟨o1, o2, o3, r1, s1, r2, s2, r3, s3⟩

theorem rotate_matches_reference_witness :
    ∃ o1 o2 o3,
      rotate_bit_matrix (List.replicate 2048 0xA5) 128 = some o1 ∧
      _rotate_bit_matrix (List.replicate 2048 0xA5) 128 = some o1 ∧
      rotate_bit_matrix o1 128 = some o2 ∧ _rotate_bit_matrix o1 128 = some o2 ∧
      rotate_bit_matrix o2 128 = some o3 ∧ _rotate_bit_matrix o2 128 = some o3 :=
  rotate_matches_reference 128 (List.replicate 2048 0xA5) (by decide) (by decide)
    (replicate_length_eq _ _ _ (by decide)) (replicate_bytes _ _ (by decide))

/-- C3: for every `N` that is a positive multiple of 64 and every buffer `M`
of `N * (N / 8)` bytes, four successive applications of `rotate_bit_matrix`
return exactly `M`. -/
theorem rotate_four_times (N : Nat) (mem : List Nat) (hN : 0 < N)
    (h64 : N % 64 = 0) (hlen : mem.length = N * (N / 8)) (hb : ∀ b ∈ mem, b < 256) :
    ∃ m1 m2 m3,
      rotate_bit_matrix mem N = some m1 ∧ rotate_bit_matrix m1 N = some m2 ∧
      rotate_bit_matrix m2 N = some m3 ∧ rotate_bit_matrix m3 N = some mem := by
  obtain ⟨m1, r1, l1, b1, v1⟩ := rotate_ok N mem hN h64 hlen hb
  obtain ⟨m2, r2, l2, b2, v2⟩ := rotate_ok N m1 hN h64 l1 b1
  obtain ⟨m3, r3, l3, b3, v3⟩ := rotate_ok N m2 hN h64 l2 b2
  obtain ⟨m4, r4, l4, b4, v4⟩ := rotate_ok N m3 hN h64 l3 b3
  have : m4 = mem := buf_ext_N N m4 mem hN h64 l4 hlen b4 hb (fun i j hi hj => by
    rw [v4 i j hi hj, v3 _ _ (by omega) hi, v2 _ _ (by omega) (by omega),
      v1 _ _ (by omega) (by omega)]
    congr 1 <;> omega)
  subst this
  exact ⟨m1, m2, m3, r1, r2, r3, r4⟩

theorem rotate_four_times_witness :
    ∃ m1 m2 m3,
      rotate_bit_matrix (0x80 :: List.replicate 511 0) 64 = some m1 ∧
      rotate_bit_matrix m1 64 = some m2 ∧ rotate_bit_matrix m2 64 = some m3 ∧
      rotate_bit_matrix m3 64 = some (0x80 :: List.replicate 511 0) :=
  rotate_four_times 64 (0x80 :: List.replicate 511 0) (by decide) (by decide)
    (cons_replicate_length _ _ _ _ (by decide))
    (cons_replicate_bytes _ _ _ (by decide) (by decide))

/-- C4: for every `N` that is a positive multiple of 64 and every buffer of
`N * (N / 8)` bytes, two successive applications of `rotate_bit_matrix`
reverse the row order and the column order: cell (`N - 1 - i`, `N - 1 - j`)
of the result equals cell (`i`, `j`) of the original, for all `i, j < N`. -/
theorem rotate_twice_half_turn (N : Nat) (mem : List Nat) (hN : 0 < N)
    (h64 : N % 64 = 0) (hlen : mem.length = N * (N / 8)) (hb : ∀ b ∈ mem, b < 256) :
    ∃ m1 m2,
      rotate_bit_matrix mem N = some m1 ∧ rotate_bit_matrix m1 N = some m2 ∧
      ∀ i j, i < N → j < N → cell m2 N (N - 1 - i) (N - 1 - j) = cell mem N i j := by
  obtain ⟨m1, r1, l1, b1, v1⟩ := rotate_ok N mem hN h64 hlen hb
  obtain ⟨m2, r2, _, _, v2⟩ := rotate_ok N m1 hN h64 l1 b1
  refine ⟨m1, m2, r1, r2, ?_⟩
  intro i j hi hj
  rw [v2 _ _ (by omega) (by omega), v1 _ _ (by omega) (by omega)]
  congr 1 <;> omega

theorem rotate_twice_half_turn_witness :
    ∃ m1 m2,
      rotate_bit_matrix (List.replicate 512 0x3C) 64 = some m1 ∧
      rotate_bit_matrix m1 64 = some m2 ∧
      ∀ i j, i < 64 → j < 64 →
        cell m2 64 (64 - 1 - i) (64 - 1 - j) = cell (List.replicate 512 0x3C) 64 i j :=
  rotate_twice_half_turn 64 (List.replicate 512 0x3C) (by decide) (by decide)
    (replicate_length_eq _ _ _ (by decide)) (replicate_bytes _ _ (by decide))

/-- C5, as the spec states it, fails: on the block whose only set bit is bit
0 of word 0, `transpose_64` leaves bit 0 of word 0 clear (the set bit is bit
56 of word 56), although bit 0 of word 0 of the input is set. -/
theorem transpose_64_not_main_diagonal :
    transpose_64 (1 :: List.replicate 63 0) =
        some (List.replicate 56 0 ++ 72057594037927936 :: List.replicate 7 0) ∧
      ((List.replicate 56 0 ++ 72057594037927936 :: List.replicate 7 0).getD 0 0).testBit 0
        = false ∧
      ((1 :: List.replicate 63 0).getD 0 0).testBit 0 = true := by
  decide!

/-- C5, amended: for every block `B` of 64 words, `transpose_64` returns a
block of 64 words in which bit `j` of word `i` equals bit
`8 * (7 - i / 8) + i % 8` of word `8 * (7 - j / 8) + j % 8` of `B`, for all
`i, j < 64`. -/
theorem transpose_64_bits (B : List Nat) (hlen : B.length = 64) :
    ∃ out, transpose_64 B = some out ∧ out.length = 64 ∧
      ∀ i j, i < 64 → j < 64 →
        (out.getD i 0).testBit j =
          (B.getD (8 * (7 - j / 8) + j % 8) 0).testBit (8 * (7 - i / 8) + i % 8) := by
  obtain ⟨out, h, hl, hv, _⟩ := transpose_64_spec B hlen
  exact ⟨out, h, hl, fun i j hi hj => hv i hi j hj⟩

theorem transpose_64_bits_witness :
    ∃ out, transpose_64 (1 :: List.replicate 63 0) = some out ∧ out.length = 64 ∧
      ∀ i j, i < 64 → j < 64 →
        (out.getD i 0).testBit j =
          ((1 :: List.replicate 63 0).getD (8 * (7 - j / 8) + j % 8) 0).testBit
            (8 * (7 - i / 8) + i % 8) :=
  transpose_64_bits (1 :: List.replicate 63 0) (cons_replicate_length _ _ _ _ (by decide))

/-- C6: for every block `B` of 64 64-bit words, `transpose_64` applied twice
returns `B`. -/
theorem transpose_64_involution (B : List Nat) (hlen : B.length = 64)
    (hw : ∀ w ∈ B, w < 2 ^ 64) :
    ∃ B1, transpose_64 B = some B1 ∧ transpose_64 B1 = some B := by
  have hB : ∀ x, B.getD x 0 < 2 ^ 64 := by
    intro x
    by_cases hx : x < B.length
    · rw [List.getD_eq_getElem _ _ hx]; exact hw _ (List.getElem_mem hx)
    · rw [List.getD_eq_default _ _ (by omega)]; decide
  obtain ⟨B1, h1, l1, v1, b1⟩ := transpose_64_spec B hlen
  obtain ⟨B2, h2, l2, v2, b2⟩ := transpose_64_spec B1 l1
  have : B2 = B := by
    apply list_ext_getD B2 B 64 l2 hlen
    intro x hx
    apply Nat.eq_of_testBit_eq
    intro p
    by_cases hp : p < 64
    · rw [v2 x hx p hp, v1 _ (by omega) _ (by omega)]
      congr 2 <;> omega
    · rw [testBit_false_of_ge _ 64 p (b2 (b1 hB) x) (by omega),
        testBit_false_of_ge _ 64 p (hB x) (by omega)]
  subst this
  exact ⟨B1, h1, h2⟩

theorem transpose_64_involution_witness :
    ∃ B1, transpose_64 (List.replicate 64 (2 ^ 64 - 1)) = some B1 ∧
      transpose_64 B1 = some (List.replicate 64 (2 ^ 64 - 1)) :=
  transpose_64_involution (List.replicate 64 (2 ^ 64 - 1))
    (replicate_length_eq _ _ _ (by decide)) (replicate_words _ _ (by decide))

/-- C7: for every `N` that is a positive multiple of 64, the buffer whose
only non-zero byte is byte 0 = 0x80 (the single set cell is (0, 0)) is rotated
to the buffer whose only non-zero byte is byte `N / 8 - 1` = 0x01 (the single
set cell is (0, `N - 1`)). -/
theorem rotate_corner_bit (N : Nat) (hN : 0 < N) (h64 : N % 64 = 0) :
    rotate_bit_matrix (0x80 :: List.replicate (N * (N / 8) - 1) 0) N =
        some ((List.replicate (N * (N / 8)) 0).set (N / 8 - 1) 1) ∧
      (∀ i j, i < N → j < N →
        cell (0x80 :: List.replicate (N * (N / 8) - 1) 0) N i j = decide (i = 0 ∧ j = 0)) ∧
      (∀ i j, i < N → j < N →
        cell ((List.replicate (N * (N / 8)) 0).set (N / 8 - 1) 1) N i j =
          decide (i = 0 ∧ j = N - 1)) := by
  have hpos : 0 < N * (N / 8) := Nat.mul_pos hN (by omega)
  have hlen : (0x80 :: List.replicate (N * (N / 8) - 1) 0).length = N * (N / 8) := by
    simp; omega
  have hb : ∀ b ∈ (0x80 :: List.replicate (N * (N / 8) - 1) 0), b < 256 := by
    intro b hb
    simp only [List.mem_cons, List.mem_replicate] at hb
    omega
  have hb' : ∀ b ∈ (List.replicate (N * (N / 8)) 0).set (N / 8 - 1) 1, b < 256 := by
    intro b hb
    rcases List.mem_or_eq_of_mem_set hb with h | h
    · simp only [List.mem_replicate] at h; omega
    · omega
  obtain ⟨out, hr, hl, hob, hv⟩ := rotate_ok N _ hN h64 hlen hb
  have : out = (List.replicate (N * (N / 8)) 0).set (N / 8 - 1) 1 :=
    buf_ext_N N _ _ hN h64 hl (by simp) hob hb' (fun i j hi hj => by
      rw [hv i j hi hj, cell_corner_in N _ _ hN h64 hi, cell_corner_out N _ _ hN h64 hi hj]
      have : (N - 1 - j = 0 ∧ i = 0) ↔ (i = 0 ∧ j = N - 1) := by omega
      simp only [this])
  subst this
  exact ⟨hr, fun i j _ hj => cell_corner_in N i j hN h64 hj,
    fun i j hi hj => cell_corner_out N i j hN h64 hi hj⟩

theorem rotate_corner_bit_witness :
    rotate_bit_matrix (0x80 :: List.replicate (128 * (128 / 8) - 1) 0) 128 =
        some ((List.replicate (128 * (128 / 8)) 0).set (128 / 8 - 1) 1) ∧
      (∀ i j, i < 128 → j < 128 →
        cell (0x80 :: List.replicate (128 * (128 / 8) - 1) 0) 128 i j =
          decide (i = 0 ∧ j = 0)) ∧
      (∀ i j, i < 128 → j < 128 →
        cell ((List.replicate (128 * (128 / 8)) 0).set (128 / 8 - 1) 1) 128 i j =
          decide (i = 0 ∧ j = 128 - 1)) :=
  rotate_corner_bit 128 (by decide) (by decide)

/-- C8: for every `N` that is a positive multiple of 64, the all-ones buffer
(every byte 0xFF) and the all-zero buffer are fixed points of
`rotate_bit_matrix`. -/
theorem rotate_uniform (N : Nat) (hN : 0 < N) (h64 : N % 64 = 0) :
    rotate_bit_matrix (List.replicate (N * (N / 8)) 0xFF) N =
        some (List.replicate (N * (N / 8)) 0xFF) ∧
      rotate_bit_matrix (List.replicate (N * (N / 8)) 0) N =
        some (List.replicate (N * (N / 8)) 0) := by
  have key : ∀ v, v < 256 → (∀ a b, a < 8 → b < 8 → v.testBit (7 - a) = v.testBit (7 - b)) →
      rotate_bit_matrix (List.replicate (N * (N / 8)) v) N =
        some (List.replicate (N * (N / 8)) v) := by
    intro v hv hbits
    have hb : ∀ b ∈ List.replicate (N * (N / 8)) v, b < 256 := by
      intro b hb
      simp only [List.mem_replicate] at hb
      omega
    obtain ⟨out, hr, hl, hob, hc⟩ := rotate_ok N _ hN h64 (by simp) hb
    have : out = List.replicate (N * (N / 8)) v :=
      buf_ext_N N _ _ hN h64 hl (by simp) hob hb (fun i j hi hj => by
        rw [hc i j hi hj, cell_replicate N v _ _ (by omega) (by omega) hi,
          cell_replicate N v _ _ (by omega) hi hj]
        exact hbits _ _ (Nat.mod_lt _ (by decide)) (Nat.mod_lt _ (by decide)))
    subst this
    exact hr
  refine ⟨key 0xFF (by decide) ?_, key 0 (by decide) ?_⟩
  · intro a b ha hb
    rw [low_bits_255 a ha, low_bits_255 b hb]
  · intro a b _ _
    rw [Nat.zero_testBit, Nat.zero_testBit]

theorem rotate_uniform_witness :
    rotate_bit_matrix (List.replicate (192 * (192 / 8)) 0xFF) 192 =
        some (List.replicate (192 * (192 / 8)) 0xFF) ∧
      rotate_bit_matrix (List.replicate (192 * (192 / 8)) 0) 192 =
        some (List.replicate (192 * (192 / 8)) 0) :=
  rotate_uniform 192 (by decide) (by decide)

/-- C9: for every `N` that is a positive multiple of 64 and every buffer of
exactly `N * N / 64` 64-bit words, `rotate_bit_matrix` returns: no loop runs
out of fuel and no word access falls outside the buffer. On a buffer of that
length a word read or write at offset `p` succeeds exactly when
`0 <= p < N * N / 64`, and a write keeps the length. -/
theorem rotate_bit_matrix_total (N : Nat) (mem : List Nat) (hN : 0 < N)
    (h64 : N % 64 = 0) (hlen : mem.length = 8 * (N * N / 64)) (hb : ∀ b ∈ mem, b < 256) :
    (∃ out, rotate_bit_matrix mem N = some out ∧ out.length = mem.length) ∧
      ∀ (m : List Nat) (p : Int) (v : Nat), m.length = mem.length →
        ((load64 m p).isSome ↔ (0 ≤ p ∧ p < ((N * N / 64 : Nat) : Int))) ∧
        ((store64 m p v).isSome ↔ (0 ≤ p ∧ p < ((N * N / 64 : Nat) : Int))) ∧
        (∀ m', store64 m p v = some m' → m'.length = m.length) := by
  obtain ⟨e1, _, e3⟩ := size_facts N hN h64
  have hw : N * N / 64 = 64 * (N / 64) * (N / 64) := by
    have : N * N = 64 * (N / 64) * (N / 64) * 64 := by
      conv_lhs => rw [e1]
      ring
    rw [this, Nat.mul_div_cancel _ (by decide)]
  have hlen' : mem.length = N * (N / 8) := by rw [hlen, hw, e3]
  obtain ⟨out, hr, hl, _, _⟩ := rotate_ok N mem hN h64 hlen' hb
  refine ⟨⟨out, hr, by rw [hl, hlen']⟩, ?_⟩
  intro m p v hm
  rw [hlen] at hm
  refine ⟨?_, ?_, ?_⟩
  · unfold load64
    split_ifs with h
    · simp only [Option.isSome_some, true_iff]; omega
    · simp only [Option.isSome_none, Bool.false_eq_true, false_iff]; omega
  · unfold store64
    split_ifs with h
    · simp only [Option.isSome_some, true_iff]; omega
    · simp only [Option.isSome_none, Bool.false_eq_true, false_iff]; omega
  · intro m' hs
    unfold store64 at hs
    split_ifs at hs with h
    simp only [Option.some.injEq] at hs
    rw [← hs, storeLE_length]

theorem rotate_bit_matrix_total_witness :
    (∃ out, rotate_bit_matrix (List.replicate 4608 0x5A) 192 = some out ∧
        out.length = (List.replicate 4608 0x5A).length) ∧
      ∀ (m : List Nat) (p : Int) (v : Nat), m.length = (List.replicate 4608 0x5A).length →
        ((load64 m p).isSome ↔ (0 ≤ p ∧ p < ((192 * 192 / 64 : Nat) : Int))) ∧
        ((store64 m p v).isSome ↔ (0 ≤ p ∧ p < ((192 * 192 / 64 : Nat) : Int))) ∧
        (∀ m', store64 m p v = some m' → m'.length = m.length) :=
  rotate_bit_matrix_total 192 (List.replicate 4608 0x5A) (by decide) (by decide)
    (replicate_length_eq _ _ _ (by decide)) (replicate_bytes _ _ (by decide))

/-! ## Execution traces of loops -/

theorem whileTrace_step {σ : Type} (n : Nat) (cond : σ → Bool) (body : σ → Option σ)
    (s s' : σ) (hc : cond s = true) (hb : body s = some s') :
    whileTrace (n + 1) cond body s = s :: whileTrace n cond body s' := by
  simp [whileTrace, hc, hb]

theorem whileTrace_done {σ : Type} (fuel : Nat) (cond : σ → Bool) (body : σ → Option σ)
    (s : σ) (hc : cond s = false) : whileTrace fuel cond body s = [] := by
  cases fuel <;> simp [whileTrace, hc]

/-- Invariant rule for `whileTrace`, under the hypotheses of `whileLoop_inv`:
the body is entered exactly `n` times, the `t`-th time in a state that
satisfies `I t`. -/
theorem whileTrace_inv {σ : Type} (cond : σ → Bool) (body : σ → Option σ)
    (I : Nat → σ → Prop) (n : Nat)
    (hstep : ∀ t s, t < n → I t s → cond s = true ∧ ∃ s', body s = some s' ∧ I (t + 1) s')
    (hexit : ∀ s, I n s → cond s = false)
    (fuel : Nat) (hf : n ≤ fuel) (s0 : σ) (h0 : I 0 s0) :
    (whileTrace fuel cond body s0).length = n ∧
      ∀ t, t < n → ∃ s, (whileTrace fuel cond body s0)[t]? = some s ∧ I t s := by
  have key : ∀ (d fuel t : Nat) (s : σ), t + d = n → d ≤ fuel → I t s →
      (whileTrace fuel cond body s).length = d ∧
        ∀ k, k < d → ∃ s', (whileTrace fuel cond body s)[k]? = some s' ∧ I (t + k) s' := by
    intro d
    induction d with
    | zero =>
      intro fuel t s ht _ hI
      have htn : t = n := by omega
      subst htn
      rw [whileTrace_done _ _ _ _ (hexit s hI)]
      exact ⟨rfl, fun k hk => absurd hk (Nat.not_lt_zero k)⟩
    | succ d ih =>
      intro fuel t s ht hfu hI
      obtain ⟨hc, s', hb, hI'⟩ := hstep t s (by omega) hI
      cases fuel with
      | zero => omega
      | succ fuel =>
        obtain ⟨hl, hv⟩ := ih fuel (t + 1) s' (by omega) (by omega) hI'
        rw [whileTrace_step _ _ _ _ _ hc hb]
        refine ⟨by rw [List.length_cons, hl], ?_⟩
        intro k hk
        cases k with
        | zero => exact ⟨s, List.getElem?_cons_zero, hI⟩
        | succ k =>
          obtain ⟨s'', h1, h2⟩ := hv k (by omega)
          refine ⟨s'', by rw [List.getElem?_cons_succ]; exact h1, ?_⟩
          rw [show t + (k + 1) = t + 1 + k from by omega]
          exact h2
  obtain ⟨hl, hv⟩ := key n fuel 0 s0 (by omega) hf h0
  refine ⟨hl, fun t ht => ?_⟩
  obtain ⟨s, h1, h2⟩ := hv t ht
  rw [Nat.zero_add] at h2
  exact ⟨s, h1, h2⟩

/-- Invariant rule for the members of a trace: every state in which the body
is entered satisfies the invariant at some step below the bound. -/
theorem whileTrace_mem_inv {σ : Type} (cond : σ → Bool) (body : σ → Option σ)
    (I : Nat → σ → Prop) (n : Nat)
    (hstep : ∀ t s, t < n → I t s → cond s = true ∧ ∃ s', body s = some s' ∧ I (t + 1) s')
    (hexit : ∀ s, I n s → cond s = false)
    (fuel : Nat) (hf : n ≤ fuel) (s0 : σ) (h0 : I 0 s0) (s : σ)
    (hs : s ∈ whileTrace fuel cond body s0) : ∃ t, t < n ∧ I t s := by
  obtain ⟨hl, hv⟩ := whileTrace_inv cond body I n hstep hexit fuel hf s0 h0
  obtain ⟨t, ht⟩ := List.mem_iff_getElem?.mp hs
  have htl : t < (whileTrace fuel cond body s0).length := by
    by_contra hc
    rw [List.getElem?_eq_none (by omega)] at ht
    exact Option.noConfusion ht
  rw [hl] at htl
  obtain ⟨s', h1, h2⟩ := hv t htl
  rw [ht] at h1
  rw [Option.some.injEq] at h1
  subst h1
  exact ⟨t, htl, h2⟩

/-- A list whose entries are known through a function of the index is the
image of a range. -/
theorem map_eq_range_map {α β : Type} (l : List α) (f : α → β) (g : Nat → β) (n : Nat)
    (hl : l.length = n) (h : ∀ t, t < n → ∃ s, l[t]? = some s ∧ f s = g t) :
    l.map f = (List.range n).map g := by
  apply List.ext_getElem?
  intro t
  by_cases ht : t < n
  · obtain ⟨s, h1, h2⟩ := h t ht
    rw [List.getElem?_map, h1, List.getElem?_map, List.getElem?_range ht]
    simp [h2]
  · rw [List.getElem?_eq_none (by rw [List.length_map]; omega),
      List.getElem?_eq_none (by rw [List.length_map, List.length_range]; omega)]

/-! ## The swap macros and the stages of `transpose_64`, as the spec describes them -/

theorem not64_testBit (x i : Nat) : (not64 x).testBit i = (x.testBit i ^^ decide (i < 64)) := by
  unfold not64
  rw [Nat.testBit_xor, Nat.testBit_two_pow_sub_one]

theorem SWAP_BYTES_fst_eq (a b s m : Nat) (ha : a < 2 ^ 64) (hm : m < 2 ^ 64) :
    (SWAP_BYTES a b s m).1 = (a &&& not64 m) ||| (((b <<< s) % 2 ^ 64) &&& m) := by
  apply Nat.eq_of_testBit_eq
  intro p
  rw [SWAP_BYTES_fst_testBit, Nat.testBit_or, Nat.testBit_and, Nat.testBit_and,
    not64_testBit, Nat.testBit_mod_two_pow, Nat.testBit_shiftLeft]
  by_cases hp : p < 64
  · cases m.testBit p <;> cases a.testBit p <;> simp [hp]
  · rw [testBit_false_of_ge a 64 p ha (by omega), testBit_false_of_ge m 64 p hm (by omega)]
    simp [hp]

theorem SWAP_BYTES_snd_eq (a b s m : Nat) (hb : b < 2 ^ 64) (hm : m < 2 ^ 64) :
    (SWAP_BYTES a b s m).2 = (b &&& not64 (m >>> s)) ||| ((a &&& m) >>> s) := by
  apply Nat.eq_of_testBit_eq
  intro q
  rw [SWAP_BYTES_snd_testBit _ _ _ _ _ hm, Nat.testBit_or, Nat.testBit_and,
    Nat.testBit_shiftRight, Nat.testBit_and, not64_testBit, Nat.testBit_shiftRight]
  by_cases hq : q < 64
  · cases m.testBit (s + q) <;> cases b.testBit q <;> simp [hq]
  · rw [testBit_false_of_ge b 64 q hb (by omega),
      testBit_false_of_ge m 64 (s + q) hm (by omega)]
    simp [hq]

theorem SWAP_WITHIN_BYTES_fst_eq (a b s m : Nat) (ha : a < 2 ^ 64) (hm : m < 2 ^ 64) :
    (SWAP_WITHIN_BYTES a b s m).1 = (a &&& not64 m) ||| ((b >>> s) &&& m) := by
  apply Nat.eq_of_testBit_eq
  intro p
  rw [SWAP_WITHIN_BYTES_fst_testBit, Nat.testBit_or, Nat.testBit_and, Nat.testBit_and,
    not64_testBit, Nat.testBit_shiftRight]
  by_cases hp : p < 64
  · cases m.testBit p <;> cases a.testBit p <;> simp [hp]
  · rw [testBit_false_of_ge a 64 p ha (by omega), testBit_false_of_ge m 64 p hm (by omega)]
    simp [hp]

theorem SWAP_WITHIN_BYTES_snd_eq (a b s m : Nat) (hb : b < 2 ^ 64) :
    (SWAP_WITHIN_BYTES a b s m).2 =
      (b &&& not64 ((m <<< s) % 2 ^ 64)) ||| (((a &&& m) <<< s) % 2 ^ 64) := by
  apply Nat.eq_of_testBit_eq
  intro q
  by_cases hq : q < 64
  · rw [SWAP_WITHIN_BYTES_snd_testBit _ _ _ _ _ hq, Nat.testBit_or, Nat.testBit_and,
      not64_testBit, Nat.testBit_mod_two_pow, Nat.testBit_mod_two_pow, Nat.testBit_shiftLeft,
      Nat.testBit_shiftLeft, Nat.testBit_and]
    by_cases h1 : s ≤ q
    · cases m.testBit (q - s) <;> cases b.testBit q <;> simp [hq, h1]
    · simp [hq, h1]
  · have h1 : (SWAP_WITHIN_BYTES a b s m).2 < 2 ^ 64 := by
      unfold SWAP_WITHIN_BYTES
      exact Nat.xor_lt_two_pow hb (Nat.mod_lt _ (by decide))
    rw [testBit_false_of_ge _ 64 q h1 (by omega), Nat.testBit_or, Nat.testBit_and,
      testBit_false_of_ge b 64 q hb (by omega), Nat.testBit_mod_two_pow]
    simp [hq]

/-- The six stages of `transpose_64` on a block of 64 words: the result of
each stage, in order. -/
theorem transpose_64_stages (B : List Nat) (hlen : B.length = 64) :
    ∃ i1 i2 i3 i4 i5 i6,
      stage SWAP_BYTES 32 0xFFFFFFFF00000000 B = some i1 ∧
      stage SWAP_BYTES 16 0xFFFF0000FFFF0000 i1 = some i2 ∧
      stage SWAP_BYTES 8 0xFF00FF00FF00FF00 i2 = some i3 ∧
      stage SWAP_WITHIN_BYTES 4 0x0F0F0F0F0F0F0F0F i3 = some i4 ∧
      stage SWAP_WITHIN_BYTES 2 0x3333333333333333 i4 = some i5 ∧
      stage SWAP_WITHIN_BYTES 1 0x5555555555555555 i5 = some i6 := by
  obtain ⟨i1, h1, l1, _⟩ := stage_spec SWAP_BYTES 32 0xFFFFFFFF00000000 (by simp) B hlen
  obtain ⟨i2, h2, l2, _⟩ := stage_spec SWAP_BYTES 16 0xFFFF0000FFFF0000 (by simp) i1 l1
  obtain ⟨i3, h3, l3, _⟩ := stage_spec SWAP_BYTES 8 0xFF00FF00FF00FF00 (by simp) i2 l2
  obtain ⟨i4, h4, l4, _⟩ := stage_spec SWAP_WITHIN_BYTES 4 0x0F0F0F0F0F0F0F0F (by simp) i3 l3
  obtain ⟨i5, h5, l5, _⟩ := stage_spec SWAP_WITHIN_BYTES 2 0x3333333333333333 (by simp) i4 l4
  obtain ⟨i6, h6, _, _⟩ := stage_spec SWAP_WITHIN_BYTES 1 0x5555555555555555 (by simp) i5 l5
  exact ⟨i1, i2, i3, i4, i5, i6, h1, h2, h3, h4, h5, h6⟩

theorem blockCell_reversed (t : List Nat) (i j : Nat) (hi : i < 64) :
    blockCell ((List.range 64).map (fun k => t.getD (63 - k) 0)) i j =
      (t.getD (63 - i) 0).testBit (8 * (j / 8) + (7 - j % 8)) := by
  unfold blockCell
  have hl : i < ((List.range 64).map (fun k => t.getD (63 - k) 0)).length := by simpa using hi
  rw [List.getD_eq_getElem _ _ hl]
  simp

/-- C12: for every block `B` of 64 words, the block whose word `k` is word
`63 - k` of `transpose_64 B` is the 90-degree clockwise rotation of `B`: with
cell (`i`, `j`) read as bit `8 * (j / 8) + 7 - j % 8` of word `i`, its cell
(`i`, `j`) is the cell (`63 - j`, `i`) of `B`, for all `i, j < 64`. -/
theorem block_local_rotation (B : List Nat) (hlen : B.length = 64) :
    ∃ t, transpose_64 B = some t ∧
      ∀ i j, i < 64 → j < 64 →
        blockCell ((List.range 64).map (fun k => t.getD (63 - k) 0)) i j =
          blockCell B (63 - j) i := by
  obtain ⟨t, ht, _, hv, _⟩ := transpose_64_spec B hlen
  refine ⟨t, ht, ?_⟩
  intro i j hi hj
  rw [blockCell_reversed t i j hi, hv _ (by omega) _ (by omega)]
  unfold blockCell
  congr 2 <;> omega

theorem block_local_rotation_witness :
    ∃ t, transpose_64 (1 :: List.replicate 63 0) = some t ∧
      ∀ i j, i < 64 → j < 64 →
        blockCell ((List.range 64).map (fun k => t.getD (63 - k) 0)) i j =
          blockCell (1 :: List.replicate 63 0) (63 - j) i :=
  block_local_rotation (1 :: List.replicate 63 0) (cons_replicate_length _ _ _ _ (by decide))

/-- C16: on a block of 64 words `transpose_64` runs exactly six stages: the
loop `while (shift != 4)` enters its body, which swaps with `SWAP_BYTES`,
with (shift, mask) = (32, 0xFFFFFFFF00000000), (16, 0xFFFF0000FFFF0000),
(8, 0xFF00FF00FF00FF00), and after `mask >>= shift` the loop
`while (shift != 0)` enters its body, which swaps with `SWAP_WITHIN_BYTES`,
with (4, 0x0F0F0F0F0F0F0F0F), (2, 0x3333333333333333), (1, 0x5555555555555555).
Bit `p` of the mask at shift `s` is set iff `p / s` is odd for the first
three stages and iff `p / s` is even for the last three. -/
theorem transpose_64_schedule (B : List Nat) (hlen : B.length = 64) :
    ∃ s1 s3,
      whileLoop BASE (fun s : TState => s.shift != 4) crossBody
          { img := B, mask := 0xFFFFFFFF00000000, shift := BASE >>> 1 } = some s1 ∧
      (whileTrace BASE (fun s : TState => s.shift != 4) crossBody
          { img := B, mask := 0xFFFFFFFF00000000, shift := BASE >>> 1 }).map
          (fun s => (s.shift, s.mask)) =
        [(32, 0xFFFFFFFF00000000), (16, 0xFFFF0000FFFF0000), (8, 0xFF00FF00FF00FF00)] ∧
      whileLoop BASE (fun s : TState => s.shift != 0) withinBody
          { s1 with mask := s1.mask >>> s1.shift } = some s3 ∧
      (whileTrace BASE (fun s : TState => s.shift != 0) withinBody
          { s1 with mask := s1.mask >>> s1.shift }).map (fun s => (s.shift, s.mask)) =
        [(4, 0x0F0F0F0F0F0F0F0F), (2, 0x3333333333333333), (1, 0x5555555555555555)] ∧
      transpose_64 B = some s3.img ∧
      (∀ s : TState, ∀ img, crossBody s = some img →
        stage SWAP_BYTES s.shift s.mask s.img = some img.img) ∧
      (∀ s : TState, ∀ img, withinBody s = some img →
        stage SWAP_WITHIN_BYTES s.shift s.mask s.img = some img.img) ∧
      (∀ p, p < 64 →
        (0xFFFFFFFF00000000 : Nat).testBit p = decide ((p / 32) % 2 = 1) ∧
        (0xFFFF0000FFFF0000 : Nat).testBit p = decide ((p / 16) % 2 = 1) ∧
        (0xFF00FF00FF00FF00 : Nat).testBit p = decide ((p / 8) % 2 = 1) ∧
        (0x0F0F0F0F0F0F0F0F : Nat).testBit p = decide ((p / 4) % 2 = 0) ∧
        (0x3333333333333333 : Nat).testBit p = decide ((p / 2) % 2 = 0) ∧
        (0x5555555555555555 : Nat).testBit p = decide ((p / 1) % 2 = 0)) := by
  obtain ⟨i1, i2, i3, i4, i5, i6, h1, h2, h3, h4, h5, h6⟩ := transpose_64_stages B hlen
  have c1 : crossBody { img := B, mask := 0xFFFFFFFF00000000, shift := 32 } =
      some { img := i1, mask := 0xFFFF0000FFFF0000, shift := 16 } := by
    rw [crossBody_eq _ _ _ _ h1, show (32 : Nat) >>> 1 = 16 from by decide,
      show (0xFFFFFFFF00000000 : Nat) ^^^ (0xFFFFFFFF00000000 >>> 16) = 0xFFFF0000FFFF0000
        from by decide]
  have c2 : crossBody { img := i1, mask := 0xFFFF0000FFFF0000, shift := 16 } =
      some { img := i2, mask := 0xFF00FF00FF00FF00, shift := 8 } := by
    rw [crossBody_eq _ _ _ _ h2, show (16 : Nat) >>> 1 = 8 from by decide,
      show (0xFFFF0000FFFF0000 : Nat) ^^^ (0xFFFF0000FFFF0000 >>> 8) = 0xFF00FF00FF00FF00
        from by decide]
  have c3 : crossBody { img := i2, mask := 0xFF00FF00FF00FF00, shift := 8 } =
      some { img := i3, mask := 0xF0F0F0F0F0F0F0F0, shift := 4 } := by
    rw [crossBody_eq _ _ _ _ h3, show (8 : Nat) >>> 1 = 4 from by decide,
      show (0xFF00FF00FF00FF00 : Nat) ^^^ (0xFF00FF00FF00FF00 >>> 4) = 0xF0F0F0F0F0F0F0F0
        from by decide]
  have c4 : withinBody { img := i3, mask := 0x0F0F0F0F0F0F0F0F, shift := 4 } =
      some { img := i4, mask := 0x3333333333333333, shift := 2 } := by
    rw [withinBody_eq _ _ _ _ h4, show (4 : Nat) >>> 1 = 2 from by decide,
      show (0x0F0F0F0F0F0F0F0F : Nat) ^^^ ((0x0F0F0F0F0F0F0F0F <<< 2) % 2 ^ 64) =
        0x3333333333333333 from by decide]
  have c5 : withinBody { img := i4, mask := 0x3333333333333333, shift := 2 } =
      some { img := i5, mask := 0x5555555555555555, shift := 1 } := by
    rw [withinBody_eq _ _ _ _ h5, show (2 : Nat) >>> 1 = 1 from by decide,
      show (0x3333333333333333 : Nat) ^^^ ((0x3333333333333333 <<< 1) % 2 ^ 64) =
        0x5555555555555555 from by decide]
  have c6 : withinBody { img := i5, mask := 0x5555555555555555, shift := 1 } =
      some { img := i6, mask := 0, shift := 0 } := by
    rw [withinBody_eq _ _ _ _ h6, show (1 : Nat) >>> 1 = 0 from by decide,
      show (0x5555555555555555 : Nat) ^^^ ((0x5555555555555555 <<< 0) % 2 ^ 64) =
        0 from by decide]
  have e64 : BASE = 61 + 1 + 1 + 1 := rfl
  have e32 : (61 + 1 + 1 + 1) >>> 1 = 32 := rfl
  have w1 : whileLoop BASE (fun s : TState => s.shift != 4) crossBody
      { img := B, mask := 0xFFFFFFFF00000000, shift := BASE >>> 1 } =
      some { img := i3, mask := 0xF0F0F0F0F0F0F0F0, shift := 4 } := by
    rw [e64, e32, whileLoop_step _ _ _ _ _ rfl c1, whileLoop_step _ _ _ _ _ rfl c2,
      whileLoop_step _ _ _ _ _ rfl c3, whileLoop_done _ _ _ _ rfl]
  have t1 : whileTrace BASE (fun s : TState => s.shift != 4) crossBody
      { img := B, mask := 0xFFFFFFFF00000000, shift := BASE >>> 1 } =
      [{ img := B, mask := 0xFFFFFFFF00000000, shift := 32 },
       { img := i1, mask := 0xFFFF0000FFFF0000, shift := 16 },
       { img := i2, mask := 0xFF00FF00FF00FF00, shift := 8 }] := by
    rw [e64, e32, whileTrace_step _ _ _ _ _ rfl c1, whileTrace_step _ _ _ _ _ rfl c2,
      whileTrace_step _ _ _ _ _ rfl c3, whileTrace_done _ _ _ _ rfl]
  have e4 : (0xF0F0F0F0F0F0F0F0 : Nat) >>> 4 = 0x0F0F0F0F0F0F0F0F := by decide
  have w2 : whileLoop BASE (fun s : TState => s.shift != 0) withinBody
      { img := i3, mask := 0x0F0F0F0F0F0F0F0F, shift := 4 } =
      some { img := i6, mask := 0, shift := 0 } := by
    rw [e64, whileLoop_step _ _ _ _ _ rfl c4, whileLoop_step _ _ _ _ _ rfl c5,
      whileLoop_step _ _ _ _ _ rfl c6, whileLoop_done _ _ _ _ rfl]
  have t2 : whileTrace BASE (fun s : TState => s.shift != 0) withinBody
      { img := i3, mask := 0x0F0F0F0F0F0F0F0F, shift := 4 } =
      [{ img := i3, mask := 0x0F0F0F0F0F0F0F0F, shift := 4 },
       { img := i4, mask := 0x3333333333333333, shift := 2 },
       { img := i5, mask := 0x5555555555555555, shift := 1 }] := by
    rw [e64, whileTrace_step _ _ _ _ _ rfl c4, whileTrace_step _ _ _ _ _ rfl c5,
      whileTrace_step _ _ _ _ _ rfl c6, whileTrace_done _ _ _ _ rfl]
  refine ⟨{ img := i3, mask := 0xF0F0F0F0F0F0F0F0, shift := 4 },
    { img := i6, mask := 0, shift := 0 }, w1, ?_, ?_, ?_, ?_, ?_, ?_, ?_⟩
  · rw [t1]; rfl
  · simp only [e4]; exact w2
  · simp only [e4]; rw [t2]; rfl
  · simp only [transpose_64, w1, Option.bind_eq_bind, Option.some_bind, bind, Option.bind]
    rw [e4, w2]
  · intro s r hr
    unfold crossBody at hr
    cases hst : stage SWAP_BYTES s.shift s.mask s.img with
    | none => rw [hst] at hr; simp [bind, Option.bind] at hr
    | some im =>
      rw [hst] at hr
      simp only [Option.bind_eq_bind, Option.some_bind, bind, Option.bind,
        Option.some.injEq] at hr
      rw [← hr]
  · intro s r hr
    unfold withinBody at hr
    cases hst : stage SWAP_WITHIN_BYTES s.shift s.mask s.img with
    | none => rw [hst] at hr; simp [bind, Option.bind] at hr
    | some im =>
      rw [hst] at hr
      simp only [Option.bind_eq_bind, Option.some_bind, bind, Option.bind,
        Option.some.injEq] at hr
      rw [← hr]
  · intro p hp
    exact ⟨mask32_bits p hp, mask16_bits p hp, mask8_bits p hp, mask4_bits p hp,
      mask2_bits p hp, mask1_bits p hp⟩

theorem transpose_64_schedule_witness :
    ∃ s1 s3,
      whileLoop BASE (fun s : TState => s.shift != 4) crossBody
          { img := List.replicate 64 1, mask := 0xFFFFFFFF00000000, shift := BASE >>> 1 } =
        some s1 ∧
      (whileTrace BASE (fun s : TState => s.shift != 4) crossBody
          { img := List.replicate 64 1, mask := 0xFFFFFFFF00000000,
            shift := BASE >>> 1 }).map (fun s => (s.shift, s.mask)) =
        [(32, 0xFFFFFFFF00000000), (16, 0xFFFF0000FFFF0000), (8, 0xFF00FF00FF00FF00)] ∧
      whileLoop BASE (fun s : TState => s.shift != 0) withinBody
          { s1 with mask := s1.mask >>> s1.shift } = some s3 ∧
      (whileTrace BASE (fun s : TState => s.shift != 0) withinBody
          { s1 with mask := s1.mask >>> s1.shift }).map (fun s => (s.shift, s.mask)) =
        [(4, 0x0F0F0F0F0F0F0F0F), (2, 0x3333333333333333), (1, 0x5555555555555555)] ∧
      transpose_64 (List.replicate 64 1) = some s3.img ∧
      (∀ s : TState, ∀ img, crossBody s = some img →
        stage SWAP_BYTES s.shift s.mask s.img = some img.img) ∧
      (∀ s : TState, ∀ img, withinBody s = some img →
        stage SWAP_WITHIN_BYTES s.shift s.mask s.img = some img.img) ∧
      (∀ p, p < 64 →
        (0xFFFFFFFF00000000 : Nat).testBit p = decide ((p / 32) % 2 = 1) ∧
        (0xFFFF0000FFFF0000 : Nat).testBit p = decide ((p / 16) % 2 = 1) ∧
        (0xFF00FF00FF00FF00 : Nat).testBit p = decide ((p / 8) % 2 = 1) ∧
        (0x0F0F0F0F0F0F0F0F : Nat).testBit p = decide ((p / 4) % 2 = 0) ∧
        (0x3333333333333333 : Nat).testBit p = decide ((p / 2) % 2 = 0) ∧
        (0x5555555555555555 : Nat).testBit p = decide ((p / 1) % 2 = 0)) :=
  transpose_64_schedule (List.replicate 64 1) (replicate_length_eq _ _ _ (by decide))

/-- C17, as stated for every mask, fails when the mask has a set bit below the
shift: with `a = 1`, `b = 0`, shift 1 and mask 1 the masked bit 0 of `a` is
set and `b` has no bit one position lower, and `SWAP_BYTES` leaves `a' = 0`
and `b' = 0`, the values of `(a & ~m) | ((b << s) & m)` and
`(b & ~(m >> s)) | ((a & m) >> s)`: the bit is neither exchanged with a bit of
`b` nor left unchanged. -/
theorem SWAP_BYTES_low_mask_bit :
    SWAP_BYTES 1 0 1 1 = (0, 0) ∧
      (1 : Nat).testBit 0 = true ∧
      (SWAP_BYTES 1 0 1 1).1.testBit 0 = false ∧
      (∀ q, q < 64 → (SWAP_BYTES 1 0 1 1).2.testBit q = false) ∧
      (1 &&& not64 1) ||| (((0 <<< 1) % 2 ^ 64) &&& 1) = 0 ∧
      (0 &&& not64 (1 >>> 1)) ||| ((1 &&& 1) >>> 1) = 0 := by
  refine ⟨by decide, by decide, by decide, ?_, by decide, by decide⟩
  intro q _
  rw [show (SWAP_BYTES 1 0 1 1).2 = 0 from by decide]
  exact Nat.zero_testBit q

/-- C17, amended: for all 64-bit words `a`, `b`, every 64-bit mask `m` and
every shift `s < 64`, `SWAP_BYTES` computes `t = (a ^ (b << s)) & m` and leaves
`a' = (a & ~m) | ((b << s) & m)` and `b' = (b & ~(m >> s)) | ((a & m) >> s)`
(`<<` and `~` on 64 bits). A masked bit `p >= s` of `a` is exchanged with bit
`p - s` of `b`; a masked bit `p < s` of `a` is cleared; every bit of `a` outside
the mask, and every bit `q` of `b` with the mask clear at `q + s`, is
unchanged. The three masks that `transpose_64` passes have no set bit below
their shift. In `transpose_64` the macro is applied with `a = img[idx + shift]`
and `b = img[idx]`. -/
theorem SWAP_BYTES_exchange (a b s m : Nat) (ha : a < 2 ^ 64) (hb : b < 2 ^ 64)
    (hm : m < 2 ^ 64) (_hs : s < 64) :
    SWAP_BYTES a b s m =
        (a ^^^ ((a ^^^ ((b <<< s) % 2 ^ 64)) &&& m),
         b ^^^ (((a ^^^ ((b <<< s) % 2 ^ 64)) &&& m) >>> s)) ∧
      (SWAP_BYTES a b s m).1 = (a &&& not64 m) ||| (((b <<< s) % 2 ^ 64) &&& m) ∧
      (SWAP_BYTES a b s m).2 = (b &&& not64 (m >>> s)) ||| ((a &&& m) >>> s) ∧
      (∀ p, p < 64 → m.testBit p = true → s ≤ p →
        (SWAP_BYTES a b s m).1.testBit p = b.testBit (p - s) ∧
        (SWAP_BYTES a b s m).2.testBit (p - s) = a.testBit p) ∧
      (∀ p, p < 64 → m.testBit p = true → p < s →
        (SWAP_BYTES a b s m).1.testBit p = false) ∧
      (∀ p, p < 64 → m.testBit p = false →
        (SWAP_BYTES a b s m).1.testBit p = a.testBit p) ∧
      (∀ q, q < 64 → m.testBit (q + s) = false →
        (SWAP_BYTES a b s m).2.testBit q = b.testBit q) ∧
      ((∀ p, p < 32 → (0xFFFFFFFF00000000 : Nat).testBit p = false) ∧
        (∀ p, p < 16 → (0xFFFF0000FFFF0000 : Nat).testBit p = false) ∧
        (∀ p, p < 8 → (0xFF00FF00FF00FF00 : Nat).testBit p = false)) ∧
      ∀ img idx, img.length = 64 → idx + s < 64 →
        swapStep SWAP_BYTES s m (img, idx) =
          some ((img.set (idx + s)
                  (SWAP_BYTES (img.getD (idx + s) 0) (img.getD idx 0) s m).1).set idx
                  (SWAP_BYTES (img.getD (idx + s) 0) (img.getD idx 0) s m).2, idx + 1) := by
  refine ⟨rfl, SWAP_BYTES_fst_eq a b s m ha hm, SWAP_BYTES_snd_eq a b s m hb hm, ?_, ?_, ?_, ?_,
    ⟨?_, ?_, ?_⟩, ?_⟩
  · intro p hp hmp hsp
    constructor
    · rw [SWAP_BYTES_fst_testBit, if_pos hmp]
      simp [hp, hsp]
    · rw [SWAP_BYTES_snd_testBit _ _ _ _ _ hm, show s + (p - s) = p from by omega, if_pos hmp]
  · intro p hp hmp hps
    rw [SWAP_BYTES_fst_testBit, if_pos hmp]
    simp [show ¬ s ≤ p from by omega]
  · intro p _ hmp
    rw [SWAP_BYTES_fst_testBit, if_neg (by simp [hmp])]
  · intro q _ hmq
    rw [SWAP_BYTES_snd_testBit _ _ _ _ _ hm, Nat.add_comm s q, if_neg (by simp [hmq])]
  · intro p hp
    rw [mask32_bits p (by omega)]
    exact decide_eq_false (by omega)
  · intro p hp
    rw [mask16_bits p (by omega)]
    exact decide_eq_false (by omega)
  · intro p hp
    rw [mask8_bits p (by omega)]
    exact decide_eq_false (by omega)
  · intro img idx hl hi
    exact swapStep_spec SWAP_BYTES s m img idx hl hi

theorem SWAP_BYTES_exchange_witness :
    SWAP_BYTES 6 9 16 0xFFFF0000FFFF0000 =
        (6 ^^^ ((6 ^^^ ((9 <<< 16) % 2 ^ 64)) &&& 0xFFFF0000FFFF0000),
         9 ^^^ (((6 ^^^ ((9 <<< 16) % 2 ^ 64)) &&& 0xFFFF0000FFFF0000) >>> 16)) ∧
      (SWAP_BYTES 6 9 16 0xFFFF0000FFFF0000).1 = (6 &&& not64 0xFFFF0000FFFF0000) ||| (((9 <<< 16)
          % 2 ^ 64) &&& 0xFFFF0000FFFF0000) ∧
      (SWAP_BYTES 6 9 16 0xFFFF0000FFFF0000).2 = (9 &&& not64 (0xFFFF0000FFFF0000 >>> 16)) ||| ((6
          &&& 0xFFFF0000FFFF0000) >>> 16) ∧
      (∀ p, p < 64 → (0xFFFF0000FFFF0000 : Nat).testBit p = true → 16 ≤ p →
        (SWAP_BYTES 6 9 16 0xFFFF0000FFFF0000).1.testBit p = (9 : Nat).testBit (p - 16) ∧
        (SWAP_BYTES 6 9 16 0xFFFF0000FFFF0000).2.testBit (p - 16) = (6 : Nat).testBit p) ∧
      (∀ p, p < 64 → (0xFFFF0000FFFF0000 : Nat).testBit p = true → p < 16 →
        (SWAP_BYTES 6 9 16 0xFFFF0000FFFF0000).1.testBit p = false) ∧
      (∀ p, p < 64 → (0xFFFF0000FFFF0000 : Nat).testBit p = false →
        (SWAP_BYTES 6 9 16 0xFFFF0000FFFF0000).1.testBit p = (6 : Nat).testBit p) ∧
      (∀ q, q < 64 → (0xFFFF0000FFFF0000 : Nat).testBit (q + 16) = false →
        (SWAP_BYTES 6 9 16 0xFFFF0000FFFF0000).2.testBit q = (9 : Nat).testBit q) ∧
      ((∀ p, p < 32 → (0xFFFFFFFF00000000 : Nat).testBit p = false) ∧
        (∀ p, p < 16 → (0xFFFF0000FFFF0000 : Nat).testBit p = false) ∧
        (∀ p, p < 8 → (0xFF00FF00FF00FF00 : Nat).testBit p = false)) ∧
      ∀ img idx, img.length = 64 → idx + 16 < 64 →
        swapStep SWAP_BYTES 16 0xFFFF0000FFFF0000 (img, idx) =
          some ((img.set (idx + 16)
                  (SWAP_BYTES (img.getD (idx + 16) 0) (img.getD idx 0) 16
                      0xFFFF0000FFFF0000).1).set idx
                  (SWAP_BYTES (img.getD (idx + 16) 0) (img.getD idx 0) 16 0xFFFF0000FFFF0000).2,
                      idx + 1) :=
  SWAP_BYTES_exchange 6 9 16 0xFFFF0000FFFF0000 (by decide) (by decide) (by decide)
    (by decide)

/-- C18, as stated for every mask, fails when the mask has a set bit less than
the shift below the top of the word: with `a = 2 ^ 63`, `b = 0`, shift 1 and
mask `2 ^ 63` the masked bit 63 of `a` is set and `b` has no bit one position
higher, and `SWAP_WITHIN_BYTES` leaves `a' = 0` and `b' = 0`, the values of
`(a & ~m) | ((b >> s) & m)` and `(b & ~(m << s)) | ((a & m) << s)`: the bit is
neither exchanged with a bit of `b` nor left unchanged. -/
theorem SWAP_WITHIN_BYTES_high_mask_bit :
    SWAP_WITHIN_BYTES 0x8000000000000000 0 1 0x8000000000000000 = (0, 0) ∧
      (0x8000000000000000 : Nat).testBit 63 = true ∧
      (SWAP_WITHIN_BYTES 0x8000000000000000 0 1 0x8000000000000000).1.testBit 63 = false ∧
      (∀ q, q < 64 →
        (SWAP_WITHIN_BYTES 0x8000000000000000 0 1 0x8000000000000000).2.testBit q = false) ∧
      (0x8000000000000000 &&& not64 0x8000000000000000) |||
        ((0 >>> 1) &&& 0x8000000000000000) = 0 ∧
      (0 &&& not64 ((0x8000000000000000 <<< 1) % 2 ^ 64)) |||
        (((0x8000000000000000 &&& 0x8000000000000000) <<< 1) % 2 ^ 64) = 0 := by
  refine ⟨by decide, by decide, by decide, ?_, by decide, by decide⟩
  intro q _
  rw [show (SWAP_WITHIN_BYTES 0x8000000000000000 0 1 0x8000000000000000).2 = 0 from by decide]
  exact Nat.zero_testBit q

/-- C18, amended: for all 64-bit words `a`, `b`, every 64-bit mask `m` and
every shift `s < 64`, `SWAP_WITHIN_BYTES` computes `t = (a ^ (b >> s)) & m` and
leaves `a' = (a & ~m) | ((b >> s) & m)` and
`b' = (b & ~(m << s)) | ((a & m) << s)` (`<<` and `~` on 64 bits). A masked bit
`p` of `a` with `p + s < 64` is exchanged with bit `p + s` of `b`; a masked bit
`p` of `a` with `p + s >= 64` is cleared; every bit of `a` outside the mask, and
every bit `q` of `b` except those with `q >= s` and the mask set at `q - s`, is
unchanged. The three masks that `transpose_64` passes have no set bit `p` with
`p + shift >= 64`. In `transpose_64` the macro is applied with
`a = img[idx + shift]` and `b = img[idx]`. -/
theorem SWAP_WITHIN_BYTES_exchange (a b s m : Nat) (ha : a < 2 ^ 64) (hb : b < 2 ^ 64)
    (hm : m < 2 ^ 64) (_hs : s < 64) :
    SWAP_WITHIN_BYTES a b s m =
        (a ^^^ ((a ^^^ (b >>> s)) &&& m),
         b ^^^ ((((a ^^^ (b >>> s)) &&& m) <<< s) % 2 ^ 64)) ∧
      (SWAP_WITHIN_BYTES a b s m).1 = (a &&& not64 m) ||| ((b >>> s) &&& m) ∧
      (SWAP_WITHIN_BYTES a b s m).2 =
        (b &&& not64 ((m <<< s) % 2 ^ 64)) ||| (((a &&& m) <<< s) % 2 ^ 64) ∧
      (∀ p, p < 64 → m.testBit p = true → p + s < 64 →
        (SWAP_WITHIN_BYTES a b s m).1.testBit p = b.testBit (p + s) ∧
        (SWAP_WITHIN_BYTES a b s m).2.testBit (p + s) = a.testBit p) ∧
      (∀ p, p < 64 → m.testBit p = true → 64 ≤ p + s →
        (SWAP_WITHIN_BYTES a b s m).1.testBit p = false) ∧
      (∀ p, p < 64 → m.testBit p = false →
        (SWAP_WITHIN_BYTES a b s m).1.testBit p = a.testBit p) ∧
      (∀ q, q < 64 → ¬ (s ≤ q ∧ m.testBit (q - s) = true) →
        (SWAP_WITHIN_BYTES a b s m).2.testBit q = b.testBit q) ∧
      ((∀ p, p < 64 → 64 ≤ p + 4 → (0x0F0F0F0F0F0F0F0F : Nat).testBit p = false) ∧
        (∀ p, p < 64 → 64 ≤ p + 2 → (0x3333333333333333 : Nat).testBit p = false) ∧
        (∀ p, p < 64 → 64 ≤ p + 1 → (0x5555555555555555 : Nat).testBit p = false)) ∧
      ∀ img idx, img.length = 64 → idx + s < 64 →
        swapStep SWAP_WITHIN_BYTES s m (img, idx) =
          some ((img.set (idx + s)
                  (SWAP_WITHIN_BYTES (img.getD (idx + s) 0) (img.getD idx 0) s m).1).set idx
                  (SWAP_WITHIN_BYTES (img.getD (idx + s) 0) (img.getD idx 0) s m).2,
                idx + 1) := by
  refine ⟨rfl, SWAP_WITHIN_BYTES_fst_eq a b s m ha hm, SWAP_WITHIN_BYTES_snd_eq a b s m hb,
    ?_, ?_, ?_, ?_, ⟨?_, ?_, ?_⟩, ?_⟩
  · intro p hp hmp hps
    constructor
    · rw [SWAP_WITHIN_BYTES_fst_testBit, if_pos hmp, Nat.add_comm s p]
    · rw [SWAP_WITHIN_BYTES_snd_testBit _ _ _ _ _ hps, show p + s - s = p from by omega,
        if_pos ⟨by omega, hmp⟩]
  · intro p hp hmp hps
    rw [SWAP_WITHIN_BYTES_fst_testBit, if_pos hmp]
    exact testBit_false_of_ge b 64 (s + p) hb (by omega)
  · intro p _ hmp
    rw [SWAP_WITHIN_BYTES_fst_testBit, if_neg (by simp [hmp])]
  · intro q hq hn
    rw [SWAP_WITHIN_BYTES_snd_testBit _ _ _ _ _ hq, if_neg hn]
  · intro p hp hps
    rw [mask4_bits p hp]
    exact decide_eq_false (by omega)
  · intro p hp hps
    rw [mask2_bits p hp]
    exact decide_eq_false (by omega)
  · intro p hp hps
    rw [mask1_bits p hp]
    exact decide_eq_false (by omega)
  · intro img idx hl hi
    exact swapStep_spec SWAP_WITHIN_BYTES s m img idx hl hi

theorem SWAP_WITHIN_BYTES_exchange_witness :
    SWAP_WITHIN_BYTES 6 9 2 0x3333333333333333 =
        (6 ^^^ ((6 ^^^ (9 >>> 2)) &&& 0x3333333333333333),
         9 ^^^ ((((6 ^^^ (9 >>> 2)) &&& 0x3333333333333333) <<< 2) % 2 ^ 64)) ∧
      (SWAP_WITHIN_BYTES 6 9 2 0x3333333333333333).1 = (6 &&& not64 0x3333333333333333) ||| ((9 >>>
          2) &&& 0x3333333333333333) ∧
      (SWAP_WITHIN_BYTES 6 9 2 0x3333333333333333).2 =
        (9 &&& not64 ((0x3333333333333333 <<< 2) % 2 ^ 64)) ||| (((6 &&& 0x3333333333333333) <<< 2)
            % 2 ^ 64) ∧
      (∀ p, p < 64 → (0x3333333333333333 : Nat).testBit p = true → p + 2 < 64 →
        (SWAP_WITHIN_BYTES 6 9 2 0x3333333333333333).1.testBit p = (9 : Nat).testBit (p + 2) ∧
        (SWAP_WITHIN_BYTES 6 9 2 0x3333333333333333).2.testBit (p + 2) = (6 : Nat).testBit p) ∧
      (∀ p, p < 64 → (0x3333333333333333 : Nat).testBit p = true → 64 ≤ p + 2 →
        (SWAP_WITHIN_BYTES 6 9 2 0x3333333333333333).1.testBit p = false) ∧
      (∀ p, p < 64 → (0x3333333333333333 : Nat).testBit p = false →
        (SWAP_WITHIN_BYTES 6 9 2 0x3333333333333333).1.testBit p = (6 : Nat).testBit p) ∧
      (∀ q, q < 64 → ¬ (2 ≤ q ∧ (0x3333333333333333 : Nat).testBit (q - 2) = true) →
        (SWAP_WITHIN_BYTES 6 9 2 0x3333333333333333).2.testBit q = (9 : Nat).testBit q) ∧
      ((∀ p, p < 64 → 64 ≤ p + 4 → (0x0F0F0F0F0F0F0F0F : Nat).testBit p = false) ∧
        (∀ p, p < 64 → 64 ≤ p + 2 → (0x3333333333333333 : Nat).testBit p = false) ∧
        (∀ p, p < 64 → 64 ≤ p + 1 → (0x5555555555555555 : Nat).testBit p = false)) ∧
      ∀ img idx, img.length = 64 → idx + 2 < 64 →
        swapStep SWAP_WITHIN_BYTES 2 0x3333333333333333 (img, idx) =
          some ((img.set (idx + 2)
                  (SWAP_WITHIN_BYTES (img.getD (idx + 2) 0) (img.getD idx 0) 2
                      0x3333333333333333).1).set idx
                  (SWAP_WITHIN_BYTES (img.getD (idx + 2) 0) (img.getD idx 0) 2
                      0x3333333333333333).2,
                idx + 1) :=
  SWAP_WITHIN_BYTES_exchange 6 9 2 0x3333333333333333 (by decide) (by decide) (by decide)
    (by decide)

/-- C20: what `transpose_64` computes. For every block `B` of 64 words it
returns a block of 64 words in which bit `p` of word `i` is bit
`8 * (7 - i / 8) + i % 8` of word `8 * (7 - p / 8) + p % 8` of `B`, for all
`i, p < 64`; with cell (`i`, `j`) read as bit `8 * (j / 8) + 7 - j % 8` of
word `i`, cell (`i`, `j`) of the output is cell (`63 - j`, `63 - i`) of the
input: the block is reflected about its anti-diagonal. -/
theorem transpose_64_antidiagonal (B : List Nat) (hlen : B.length = 64) :
    ∃ out, transpose_64 B = some out ∧ out.length = 64 ∧
      (∀ i p, i < 64 → p < 64 →
        (out.getD i 0).testBit p =
          (B.getD (8 * (7 - p / 8) + p % 8) 0).testBit (8 * (7 - i / 8) + i % 8)) ∧
      (∀ i j, i < 64 → j < 64 → blockCell out i j = blockCell B (63 - j) (63 - i)) := by
  obtain ⟨out, h, hl, hv, _⟩ := transpose_64_spec B hlen
  refine ⟨out, h, hl, fun i p hi hp => hv i hi p hp, ?_⟩
  intro i j hi hj
  unfold blockCell
  rw [hv i hi _ (by omega)]
  congr 2 <;> omega

theorem transpose_64_antidiagonal_witness :
    ∃ out, transpose_64 (List.replicate 64 0x8000000000000001) = some out ∧
      out.length = 64 ∧
      (∀ i p, i < 64 → p < 64 →
        (out.getD i 0).testBit p =
          ((List.replicate 64 0x8000000000000001).getD (8 * (7 - p / 8) + p % 8) 0).testBit
            (8 * (7 - i / 8) + i % 8)) ∧
      (∀ i j, i < 64 → j < 64 →
        blockCell out i j = blockCell (List.replicate 64 0x8000000000000001) (63 - j) (63 - i)) :=
  transpose_64_antidiagonal (List.replicate 64 0x8000000000000001)
    (replicate_length_eq _ _ _ (by decide))

/-! ## Word pairing of one stage -/

theorem flatMap_eq_range_flatMap {α β : Type} (l : List α) (f : α → List β)
    (g : Nat → List β) (n : Nat) (hl : l.length = n)
    (h : ∀ t, t < n → ∃ s, l[t]? = some s ∧ f s = g t) :
    l.flatMap f = (List.range n).flatMap g := by
  rw [List.flatMap_def, List.flatMap_def, map_eq_range_map l f g n hl h]

theorem groupTrace_spec (swap : Nat → Nat → Nat → Nat → Nat × Nat) (shift mask : Nat)
    (img : List Nat) (k : Nat) (hlen : img.length = 64)
    (hk : k + 2 * shift ≤ 64) :
    (whileTrace BASE (fun s => decide (s.2 < shift + k)) (swapStep swap shift mask)
        (img, k)).map (fun x => x.2) = (List.range shift).map (fun t => k + t) := by
  have htr := whileTrace_inv (fun s : List Nat × Nat => decide (s.2 < shift + k))
    (swapStep swap shift mask)
    (fun t s => s.2 = k + t ∧ s.1.length = 64) shift
    (by
      rintro t ⟨im, idx⟩ ht ⟨hidx, hl⟩
      simp only at hidx hl
      subst hidx
      refine ⟨by simp; omega, ?_⟩
      rw [swapStep_spec swap shift mask im (k + t) hl (by omega)]
      exact ⟨_, rfl, by simp only; omega, by simp [hl]⟩)
    (by
      rintro ⟨im, idx⟩ ⟨hidx, _⟩
      simp only at hidx
      simp; omega)
    BASE (by simp [BASE]; omega) (img, k) ⟨by simp, hlen⟩
  exact map_eq_range_map _ _ _ shift htr.1
    (fun t ht => by
      obtain ⟨s, hs1, hs2, _⟩ := htr.2 t ht
      exact ⟨s, hs1, hs2⟩)

theorem stageSwaps_eq (swap : Nat → Nat → Nat → Nat → Nat × Nat) (shift mask : Nat)
    (hs : shift = 32 ∨ shift = 16 ∨ shift = 8 ∨ shift = 4 ∨ shift = 2 ∨ shift = 1)
    (img : List Nat) (hlen : img.length = 64) :
    stageSwaps swap shift mask img =
      (List.range (32 / shift)).flatMap
        (fun t => (List.range shift).map (fun u => 2 * shift * t + u)) := by
  have hpos : 0 < shift := by omega
  have hdiv : 2 * shift * (32 / shift) = 64 := by
    rcases hs with h | h | h | h | h | h <;> subst h <;> rfl
  have htr := whileTrace_inv (fun s : List Nat × Nat => decide (s.2 < BASE))
    (groupStep swap shift mask)
    (fun t s => s.2 = 2 * shift * t ∧ s.1.length = 64) (32 / shift)
    (by
      rintro t ⟨im, k⟩ ht ⟨hk, hl⟩
      simp only at hk hl
      subst hk
      have hle : 2 * shift * (t + 1) ≤ 64 := by
        rw [← hdiv]; exact Nat.mul_le_mul_left _ (by omega)
      have hexp : 2 * shift * (t + 1) = 2 * shift * t + 2 * shift := by ring
      refine ⟨by simp [BASE]; omega, ?_⟩
      obtain ⟨im', hg, hl', _⟩ :=
        groupStep_spec swap shift mask im (2 * shift * t) hl hpos (by omega)
      exact ⟨_, hg, by simp only; omega, hl'⟩)
    (by
      rintro ⟨im, k⟩ ⟨hk, _⟩
      simp only at hk
      simp [BASE]; omega)
    BASE (by
      rcases hs with h | h | h | h | h | h <;> subst h <;> decide) (img, 0) ⟨by simp, hlen⟩
  unfold stageSwaps
  refine flatMap_eq_range_flatMap _ _ _ (32 / shift) htr.1 ?_
  intro t ht
  obtain ⟨⟨im, k⟩, hs1, hk, hl⟩ := htr.2 t ht
  simp only at hk hl
  subst hk
  have hle : 2 * shift * (t + 1) ≤ 64 := by
    rw [← hdiv]; exact Nat.mul_le_mul_left _ (by omega)
  have hexp : 2 * shift * (t + 1) = 2 * shift * t + 2 * shift := by ring
  exact ⟨_, hs1, groupTrace_spec swap shift mask im (2 * shift * t) hl (by omega)⟩

/-- The states in which the swap of a stage is executed: the index is
`2 * shift * t + u` with `u < shift`, the block has 64 words, and the two words
the swap is about to access still hold what the input of the stage holds. -/
theorem stage_trace_states (swap : Nat → Nat → Nat → Nat → Nat × Nat) (shift mask : Nat)
    (hs : shift = 32 ∨ shift = 16 ∨ shift = 8 ∨ shift = 4 ∨ shift = 2 ∨ shift = 1)
    (img : List Nat) (hlen : img.length = 64) (g : List Nat × Nat)
    (hg : g ∈ whileTrace BASE (fun st => decide (st.2 < BASE)) (groupStep swap shift mask)
      (img, 0))
    (st : List Nat × Nat)
    (hst : st ∈ whileTrace BASE (fun x => decide (x.2 < shift + g.2))
      (swapStep swap shift mask) (g.1, g.2)) :
    ∃ t u, t < 32 / shift ∧ u < shift ∧ st.2 = 2 * shift * t + u ∧ st.1.length = 64 ∧
      st.1.getD st.2 0 = img.getD st.2 0 ∧
      st.1.getD (st.2 + shift) 0 = img.getD (st.2 + shift) 0 := by
  have hpos : 0 < shift := by omega
  have hdiv : 2 * shift * (32 / shift) = 64 := by
    rcases hs with h | h | h | h | h | h <;> subst h <;> rfl
  obtain ⟨t, ht, hk, hl, hv⟩ := whileTrace_mem_inv
    (fun s : List Nat × Nat => decide (s.2 < BASE)) (groupStep swap shift mask)
    (fun t s => s.2 = 2 * shift * t ∧ s.1.length = 64 ∧
      ∀ x, 2 * shift * t ≤ x → s.1.getD x 0 = img.getD x 0) (32 / shift)
    (by
      rintro t ⟨im, k⟩ ht ⟨hk, hl, hv⟩
      simp only at hk hl hv
      subst hk
      have hle : 2 * shift * (t + 1) ≤ 64 := by
        rw [← hdiv]; exact Nat.mul_le_mul_left _ (by omega)
      have hexp : 2 * shift * (t + 1) = 2 * shift * t + 2 * shift := by ring
      refine ⟨by simp [BASE]; omega, ?_⟩
      obtain ⟨im', hgs, hl', hv'⟩ :=
        groupStep_spec swap shift mask im (2 * shift * t) hl hpos (by omega)
      refine ⟨_, hgs, by simp only; omega, hl', ?_⟩
      intro x hx
      simp only
      rw [hv' x, if_neg (by omega), if_neg (by omega)]
      exact hv x (by omega))
    (by
      rintro ⟨im, k⟩ ⟨hk, _⟩
      simp only at hk
      simp [BASE]; omega)
    BASE (by
      rcases hs with h | h | h | h | h | h <;> subst h <;> decide) (img, 0)
    ⟨by simp, hlen, fun _ _ => rfl⟩ g hg
  have hle : 2 * shift * (t + 1) ≤ 64 := by
    rw [← hdiv]; exact Nat.mul_le_mul_left _ (by omega)
  have hexp : 2 * shift * (t + 1) = 2 * shift * t + 2 * shift := by ring
  obtain ⟨u, hu, hidx, hl2, hv2⟩ := whileTrace_mem_inv
    (fun x : List Nat × Nat => decide (x.2 < shift + g.2)) (swapStep swap shift mask)
    (fun u x => x.2 = g.2 + u ∧ x.1.length = 64 ∧
      ∀ y, ¬ (g.2 ≤ y ∧ y < g.2 + u) → ¬ (g.2 + shift ≤ y ∧ y < g.2 + shift + u) →
        x.1.getD y 0 = g.1.getD y 0) shift
    (by
      rintro u ⟨im, idx⟩ hu ⟨hidx, hl2, hv2⟩
      simp only at hidx hl2 hv2
      subst hidx
      refine ⟨by simp; omega, ?_⟩
      rw [swapStep_spec swap shift mask im (g.2 + u) hl2 (by omega)]
      refine ⟨_, rfl, by simp only; omega, by simp [hl2], ?_⟩
      intro y h1 h2
      simp only
      rw [getD_set_nat, if_neg (by omega), getD_set_nat, if_neg (by omega)]
      exact hv2 y (by omega) (by omega))
    (by
      rintro ⟨im, idx⟩ ⟨hidx, _⟩
      simp only at hidx
      simp; omega)
    BASE (by simp [BASE]; omega) (g.1, g.2) ⟨by simp, hl, fun _ _ _ => rfl⟩ st hst
  refine ⟨t, u, ht, hu, by rw [hidx, hk], hl2, ?_, ?_⟩
  · rw [hv2 st.2 (by omega) (by omega)]
    exact hv st.2 (by omega)
  · rw [hv2 (st.2 + shift) (by omega) (by omega)]
    exact hv (st.2 + shift) (by omega)

/-- C19: word pairing in every stage of `transpose_64`. For every shift
`s` in {32, 16, 8, 4, 2, 1}, every swap macro, every mask and every block of
64 words the stage returns a block of 64 words in which, for every `idx < 64`
with `idx % (2 * s) < s`, words `idx + s` and `idx` are the two results of the
swap applied to words `idx + s` and `idx` of the input. Every execution of the
swap step has `index_for_swap = idx` with `idx % (2 * s) < s` and
`idx + s < 64`, it finds words `idx` and `idx + s` as they are in the input of
the stage, and it replaces exactly these two words by the results of the swap.
The swap is executed exactly at the indices `idx < 64` with
`idx % (2 * s) < s`, in increasing order, 32 times; every word index `x < 64`
occurs exactly once among the accessed indices `idx`, `idx + s`, and no
accessed index is 64 or more. -/
theorem stage_word_pairing (swap : Nat → Nat → Nat → Nat → Nat × Nat) (s mask : Nat)
    (hs : s = 32 ∨ s = 16 ∨ s = 8 ∨ s = 4 ∨ s = 2 ∨ s = 1)
    (img : List Nat) (hlen : img.length = 64) :
    (∃ img', stage swap s mask img = some img' ∧ img'.length = 64 ∧
        ∀ idx, idx < 64 → idx % (2 * s) < s →
          img'.getD (idx + s) 0 =
            (swap (img.getD (idx + s) 0) (img.getD idx 0) s mask).1 ∧
          img'.getD idx 0 =
            (swap (img.getD (idx + s) 0) (img.getD idx 0) s mask).2) ∧
      (∀ g, g ∈ whileTrace BASE (fun st => decide (st.2 < BASE)) (groupStep swap s mask)
          (img, 0) →
        ∀ st, st ∈ whileTrace BASE (fun x => decide (x.2 < s + g.2)) (swapStep swap s mask)
            (g.1, g.2) →
          st.2 % (2 * s) < s ∧ st.2 + s < 64 ∧
          st.1.getD st.2 0 = img.getD st.2 0 ∧
          st.1.getD (st.2 + s) 0 = img.getD (st.2 + s) 0 ∧
          swapStep swap s mask st =
            some ((st.1.set (st.2 + s)
                    (swap (img.getD (st.2 + s) 0) (img.getD st.2 0) s mask).1).set st.2
                    (swap (img.getD (st.2 + s) 0) (img.getD st.2 0) s mask).2, st.2 + 1)) ∧
      stageSwaps swap s mask img = (List.range 64).filter (fun idx => idx % (2 * s) < s) ∧
      (stageSwaps swap s mask img).length = 32 ∧
      (∀ idx, idx ∈ stageSwaps swap s mask img → idx % (2 * s) < s ∧ idx + s < 64) ∧
      (∀ idx, idx < 64 → idx % (2 * s) < s → idx ∈ stageSwaps swap s mask img) ∧
      (∀ x, x < 64 →
        ((stageSwaps swap s mask img).flatMap (fun idx => [idx, idx + s])).count x = 1) ∧
      (∀ x, x ∈ (stageSwaps swap s mask img).flatMap (fun idx => [idx, idx + s]) → x < 64) := by
  obtain ⟨img', hst, hl', hw⟩ := stage_spec swap s mask hs img hlen
  have heq : stageSwaps swap s mask img =
      (List.range 64).filter (fun idx => idx % (2 * s) < s) := by
    rw [stageSwaps_eq swap s mask hs img hlen]
    rcases hs with h | h | h | h | h | h <;> subst h <;> decide
  refine ⟨⟨img', hst, hl', ?_⟩, ?_, heq, ?_, ?_, ?_, ?_, ?_⟩
  · intro idx hidx hm
    have hup : idx + s < 64 := by
      rcases hs with h | h | h | h | h | h <;> subst h <;> omega
    have e1 : (idx / s) % 2 = 0 := by
      rcases hs with h | h | h | h | h | h <;> subst h <;> omega
    have e2 : ¬ ((idx + s) / s) % 2 = 0 := by
      rcases hs with h | h | h | h | h | h <;> subst h <;> omega
    constructor
    · rw [hw (idx + s) hup]
      unfold stageWord
      rw [if_neg e2, Nat.add_sub_cancel]
    · rw [hw idx hidx]
      unfold stageWord
      rw [if_pos e1]
  · intro g hg st hstm
    obtain ⟨t, u, ht, hu, hidx, hl2, v1, v2⟩ :=
      stage_trace_states swap s mask hs img hlen g hg st hstm
    have hdiv : 2 * s * (32 / s) = 64 := by
      rcases hs with h | h | h | h | h | h <;> subst h <;> rfl
    have hle : 2 * s * (t + 1) ≤ 64 := by
      rw [← hdiv]; exact Nat.mul_le_mul_left _ (by omega)
    have hexp : 2 * s * (t + 1) = 2 * s * t + 2 * s := by ring
    have hmod : st.2 % (2 * s) < s := by
      rw [hidx, Nat.add_comm, Nat.add_mul_mod_self_left, Nat.mod_eq_of_lt (by omega)]
      exact hu
    have hup : st.2 + s < 64 := by omega
    refine ⟨hmod, hup, v1, v2, ?_⟩
    obtain ⟨im, idx⟩ := st
    simp only at hl2 v1 v2 hup
    rw [swapStep_spec swap s mask im idx hl2 hup, v1, v2]
  · rw [heq]
    rcases hs with h | h | h | h | h | h <;> subst h <;> decide
  · intro idx hidx
    rw [heq, List.mem_filter, List.mem_range] at hidx
    have h1 : idx % (2 * s) < s := by simpa using hidx.2
    refine ⟨h1, ?_⟩
    have h2 := hidx.1
    rcases hs with h | h | h | h | h | h <;> subst h <;> omega
  · intro idx hidx hm
    rw [heq, List.mem_filter, List.mem_range]
    exact ⟨hidx, by simpa using hm⟩
  · rw [heq]
    have hall : (List.range 64).all (fun x =>
        decide ((((List.range 64).filter (fun idx => idx % (2 * s) < s)).flatMap
          (fun idx => [idx, idx + s])).count x = 1)) = true := by
      rcases hs with h | h | h | h | h | h <;> subst h <;> decide
    intro x hx
    have := List.all_eq_true.mp hall x (List.mem_range.mpr hx)
    simpa using this
  · intro x hx
    rw [heq, List.mem_flatMap] at hx
    obtain ⟨idx, hidx, hx⟩ := hx
    rw [List.mem_filter, List.mem_range] at hidx
    have h1 : idx % (2 * s) < s := by simpa using hidx.2
    have h2 := hidx.1
    simp only [List.mem_cons, List.mem_singleton, List.not_mem_nil, or_false] at hx
    rcases hs with h | h | h | h | h | h <;> subst h <;> omega

theorem stage_word_pairing_witness :
    (∃ img', stage SWAP_BYTES 16 0xFFFF0000FFFF0000 (List.replicate 64 1) = some img' ∧
        img'.length = 64 ∧
        ∀ idx, idx < 64 → idx % (2 * 16) < 16 →
          img'.getD (idx + 16) 0 =
            (SWAP_BYTES ((List.replicate 64 1).getD (idx + 16) 0)
              ((List.replicate 64 1).getD idx 0) 16 0xFFFF0000FFFF0000).1 ∧
          img'.getD idx 0 =
            (SWAP_BYTES ((List.replicate 64 1).getD (idx + 16) 0)
              ((List.replicate 64 1).getD idx 0) 16 0xFFFF0000FFFF0000).2) ∧
      (∀ g, g ∈ whileTrace BASE (fun st => decide (st.2 < BASE))
          (groupStep SWAP_BYTES 16 0xFFFF0000FFFF0000) (List.replicate 64 1, 0) →
        ∀ st, st ∈ whileTrace BASE (fun x => decide (x.2 < 16 + g.2))
            (swapStep SWAP_BYTES 16 0xFFFF0000FFFF0000) (g.1, g.2) →
          st.2 % (2 * 16) < 16 ∧ st.2 + 16 < 64 ∧
          st.1.getD st.2 0 = (List.replicate 64 1).getD st.2 0 ∧
          st.1.getD (st.2 + 16) 0 = (List.replicate 64 1).getD (st.2 + 16) 0 ∧
          swapStep SWAP_BYTES 16 0xFFFF0000FFFF0000 st =
            some ((st.1.set (st.2 + 16)
                    (SWAP_BYTES ((List.replicate 64 1).getD (st.2 + 16) 0)
                      ((List.replicate 64 1).getD st.2 0) 16 0xFFFF0000FFFF0000).1).set st.2
                    (SWAP_BYTES ((List.replicate 64 1).getD (st.2 + 16) 0)
                      ((List.replicate 64 1).getD st.2 0) 16 0xFFFF0000FFFF0000).2,
                  st.2 + 1)) ∧
      stageSwaps SWAP_BYTES 16 0xFFFF0000FFFF0000 (List.replicate 64 1) =
        (List.range 64).filter (fun idx => idx % (2 * 16) < 16) ∧
      (stageSwaps SWAP_BYTES 16 0xFFFF0000FFFF0000 (List.replicate 64 1)).length = 32 ∧
      (∀ idx, idx ∈ stageSwaps SWAP_BYTES 16 0xFFFF0000FFFF0000 (List.replicate 64 1) →
        idx % (2 * 16) < 16 ∧ idx + 16 < 64) ∧
      (∀ idx, idx < 64 → idx % (2 * 16) < 16 →
        idx ∈ stageSwaps SWAP_BYTES 16 0xFFFF0000FFFF0000 (List.replicate 64 1)) ∧
      (∀ x, x < 64 →
        ((stageSwaps SWAP_BYTES 16 0xFFFF0000FFFF0000 (List.replicate 64 1)).flatMap
          (fun idx => [idx, idx + 16])).count x = 1) ∧
      (∀ x, x ∈ (stageSwaps SWAP_BYTES 16 0xFFFF0000FFFF0000 (List.replicate 64 1)).flatMap
          (fun idx => [idx, idx + 16]) → x < 64) :=
  stage_word_pairing SWAP_BYTES 16 0xFFFF0000FFFF0000 (Or.inr (Or.inl rfl))
    (List.replicate 64 1) (replicate_length_eq _ _ _ (by decide))

/-! ## Where every block goes -/

theorem block_words (orig : List Nat) (size : Nat) (hs : 0 < size)
    (hlen : orig.length = 8 * (64 * size * size)) (hb : isBytes orig) :
    ∃ out, rotate_bit_matrix orig (64 * size) = some out ∧ out.length = orig.length ∧
      ∀ r c, r < size → c < size →
        (blk orig size r c).length = 64 ∧
        (∀ m : Nat, m < 64 →
          load64 orig ((r * 64 * size + c + m * size : Nat) : Int) =
            some ((blk orig size r c).getD m 0)) ∧
        transpose_64 (blk orig size r c) = some (T (blk orig size r c)) ∧
        ∀ k : Nat, k < 64 →
          load64 out ((c * 64 * size + (size - 1 - r) + k * size : Nat) : Int) =
            some ((T (blk orig size r c)).getD (63 - k) 0) := by
  obtain ⟨out, hr, hl, _, hv⟩ := rotate_words orig size hs hlen hb
  refine ⟨out, hr, hl, ?_⟩
  intro r c hr hc
  refine ⟨blk_length _ _ _ _, ?_, T_eq _ (blk_length _ _ _ _), ?_⟩
  · intro m hm
    rw [blk_getD _ _ _ _ _ hm]
    exact load64_W orig size (64 * r + m) c _ (by congr 1; ring)
      (by rw [hlen]; exact inb _ _ _ (by omega) hc)
  · intro k hk
    have hρ : 64 * c + k < 64 * size := by omega
    have hc' : size - 1 - r < size := by omega
    have h1 := hv (64 * c + k) (size - 1 - r) hρ hc'
    have h2 : rotW orig size (64 * c + k) (size - 1 - r) =
        (T (blk orig size r c)).getD (63 - k) 0 := by
      unfold rotW
      rw [show size - 1 - (size - 1 - r) = r from by omega,
        show (64 * c + k) / 64 = c from by omega, show (64 * c + k) % 64 = k from by omega]
    rw [← h2, ← h1]
    exact load64_W out size (64 * c + k) (size - 1 - r) _ (by congr 1; ring)
      (by rw [hl, hlen]; exact inb _ _ _ hρ hc')

/-- C11: block relocation. For every `N` that is a positive multiple of 64,
with `size = N / 64`, and every buffer of `N * (N / 8)` bytes,
`rotate_bit_matrix` returns a buffer in which, for every block position
(`r`, `c`) with `r, c < size` and every `k < 64`, the word at index
`c * 64 * size + (size - 1 - r) + k * size` is word `63 - k` of what
`transpose_64` returns on the 64 words of the original block (`r`, `c`),
which are the words at `r * 64 * size + c + m * size`, `m < 64`: the block
lands, transposed and with its rows reversed, in the slot of block
(`c`, `size - 1 - r`), and that slot is its own for the center block of an
odd grid. -/
theorem block_relocation (N : Nat) (mem : List Nat) (hN : 0 < N) (h64 : N % 64 = 0)
    (hlen : mem.length = N * (N / 8)) (hb : ∀ b ∈ mem, b < 256) :
    ∃ out, rotate_bit_matrix mem N = some out ∧ out.length = mem.length ∧
      (∀ r c, r < N / 64 → c < N / 64 →
        ∃ B t, B.length = 64 ∧
          (∀ m : Nat, m < 64 →
            load64 mem ((r * 64 * (N / 64) + c + m * (N / 64) : Nat) : Int) =
              some (B.getD m 0)) ∧
          transpose_64 B = some t ∧
          ∀ k : Nat, k < 64 →
            load64 out ((c * 64 * (N / 64) + (N / 64 - 1 - r) + k * (N / 64) : Nat) : Int) =
              some (t.getD (63 - k) 0)) ∧
      ((N / 64) % 2 = 1 → ∀ k : Nat,
        (N / 64 / 2) * 64 * (N / 64) + (N / 64 - 1 - N / 64 / 2) + k * (N / 64) =
          (N / 64 / 2) * 64 * (N / 64) + N / 64 / 2 + k * (N / 64)) := by
  obtain ⟨e1, e2, e3⟩ := size_facts N hN h64
  obtain ⟨out, hr, hl, hv⟩ := block_words mem (N / 64) e2 (by rw [hlen, e3])
    (isBytes_of_forall_mem mem hb)
  rw [← e1] at hr
  refine ⟨out, hr, hl, ?_, ?_⟩
  · intro r c hr hc
    obtain ⟨h1, h2, h3, h4⟩ := hv r c hr hc
    exact ⟨_, _, h1, h2, h3, h4⟩
  · intro hodd k
    have : N / 64 - 1 - N / 64 / 2 = N / 64 / 2 := by omega
    rw [this]

theorem block_relocation_witness :
    ∃ out, rotate_bit_matrix (List.replicate 2048 0xA5) 128 = some out ∧
      out.length = (List.replicate 2048 0xA5).length ∧
      (∀ r c, r < 128 / 64 → c < 128 / 64 →
        ∃ B t, B.length = 64 ∧
          (∀ m : Nat, m < 64 →
            load64 (List.replicate 2048 0xA5)
                ((r * 64 * (128 / 64) + c + m * (128 / 64) : Nat) : Int) =
              some (B.getD m 0)) ∧
          transpose_64 B = some t ∧
          ∀ k : Nat, k < 64 →
            load64 out
                ((c * 64 * (128 / 64) + (128 / 64 - 1 - r) + k * (128 / 64) : Nat) : Int) =
              some (t.getD (63 - k) 0)) ∧
      ((128 / 64) % 2 = 1 → ∀ k : Nat,
        (128 / 64 / 2) * 64 * (128 / 64) + (128 / 64 - 1 - 128 / 64 / 2) + k * (128 / 64) =
          (128 / 64 / 2) * 64 * (128 / 64) + 128 / 64 / 2 + k * (128 / 64)) :=
  block_relocation 128 (List.replicate 2048 0xA5) (by decide) (by decide)
    (replicate_length_eq _ _ _ (by decide)) (replicate_bytes _ _ (by decide))

/-! ## Execution traces of the ring walk -/

theorem rotate_bit_matrix_eq (img : List Nat) (N : Nat) :
    rotate_bit_matrix img N =
      (whileLoop N (fun s => decide (s.i < ((N >>> LOG_BASE) + 1) / 2))
        (ringBody N (N >>> LOG_BASE)) (ringStart img N)).bind
        (fun s1 => if (N >>> LOG_BASE) &&& 1 ≠ 0 then
            centerStep s1.mem s1.blocks.block_1 (N >>> LOG_BASE)
          else some s1.mem) := rfl

theorem size_shift (size : Nat) : (64 * size) >>> LOG_BASE = size := by
  simp only [LOG_BASE, Nat.shiftRight_eq_div_pow]; omega

theorem ringStart_inv (orig : List Nat) (size : Nat)
    (hlen : orig.length = 8 * (64 * size * size)) (hb : isBytes orig) :
    IInv orig size 0 (ringStart orig (64 * size)) := by
  have hz : (List.replicate BASE 0).length = 64 := by simp [BASE]
  refine ⟨rfl, hlen, hb, hz, hz, hz, hz, ?_, fun ρ c _ _ =>
    ⟨fun h => absurd h (not_done_zero _ _ _), fun _ => rfl⟩⟩
  simp only [ringStart, size_shift, ringPtrs_init]

/-- The iterations of the two loops of the ring walk: the loop over `i` is
entered `(size + 1) / 2` times, the `t`-th time in a state that satisfies
`IInv`, and from that state the loop over `j` is entered `size / 2` times,
the `u`-th time in a state that satisfies `JInv`. -/
theorem ring_traces (orig : List Nat) (size : Nat) (hs : 0 < size)
    (hlen : orig.length = 8 * (64 * size * size)) (hb : isBytes orig) :
    (ringTrace orig (64 * size)).length = (size + 1) / 2 ∧
      ∀ t, t < (size + 1) / 2 → ∃ st, (ringTrace orig (64 * size))[t]? = some st ∧
        IInv orig size t st ∧
        (stepTrace (64 * size) st).length = size / 2 ∧
        ∀ u, u < size / 2 → ∃ s, (stepTrace (64 * size) st)[u]? = some s ∧
          JInv orig size t u s := by
  have houter := whileTrace_inv (fun st : IState => decide (st.i < (size + 1) / 2))
    (ringBody (64 * size) size) (fun t st => IInv orig size t st) ((size + 1) / 2)
    (fun t st ht hI =>
      ⟨by simp [hI.1, ht], ringBody_spec orig size t st hb ht hI⟩)
    (fun st hI => by simp [hI.1])
    (64 * size) (by omega) (ringStart orig (64 * size)) (ringStart_inv orig size hlen hb)
  unfold ringTrace
  rw [size_shift]
  refine ⟨houter.1, ?_⟩
  intro t ht
  obtain ⟨st, h1, hI⟩ := houter.2 t ht
  refine ⟨st, h1, hI, ?_⟩
  obtain ⟨hi, hl, hbm, l1, l2, l3, l4, hp, hm⟩ := hI
  have hinner := whileTrace_inv (fun s : JState => decide (s.j < size / 2))
    (ringStep (64 * size) size) (fun u s => JInv orig size t u s) (size / 2)
    (fun u s hu hJ =>
      ⟨by simp [hJ.1, hu], ringStep_spec orig size t u s hb ht hu hJ⟩)
    (fun s hJ => by simp [hJ.1])
    (64 * size) (by omega)
    { mem := st.mem, blocks := st.blocks, bp := st.np, j := 0 }
    ⟨rfl, hl, hbm, l1, l2, l3, l4, hp, hm⟩
  unfold stepTrace
  rw [size_shift]
  exact hinner

theorem ring_loop_single (mem : List Nat) :
    whileLoop 64 (fun s : IState => decide (s.i < ((64 >>> LOG_BASE) + 1) / 2))
        (ringBody 64 (64 >>> LOG_BASE)) (ringStart mem 64) =
      some { mem := mem, blocks := (ringStart mem 64).blocks,
             np := { p1 := (ringStart mem 64).np.p1 + ((64 : Nat) : Int),
                     p2 := (ringStart mem 64).np.p2 - 1,
                     p3 := (ringStart mem 64).np.p3 - ((64 : Nat) : Int),
                     p4 := (ringStart mem 64).np.p4 + 1 },
             i := 1 } := rfl

/-- C15: the edge case `size = 1`. For `N = 64` and every buffer of 64 words
(512 bytes) the loop over `i` is entered once, with `i = 0`, the body of the
loop over `j`, which moves the blocks of a ring, is never entered, since its
bound `size / 2` is 0, and the loop over `i` leaves the buffer as it was, so
that `rotate_bit_matrix` is the center step on the buffer; it returns, and word
`k` of the result is word `63 - k` of what `transpose_64` returns on the 64
words of the buffer, for every `k < 64`. -/
theorem rotate_single_block (mem : List Nat) (hlen : mem.length = 512)
    (hb : ∀ b ∈ mem, b < 256) :
    (ringTrace mem 64).map (fun st => st.i) = [0] ∧
      (∀ st, st ∈ ringTrace mem 64 → stepTrace 64 st = []) ∧
      (∃ s1, whileLoop 64 (fun s : IState => decide (s.i < ((64 >>> LOG_BASE) + 1) / 2))
          (ringBody 64 (64 >>> LOG_BASE)) (ringStart mem 64) = some s1 ∧ s1.mem = mem) ∧
      rotate_bit_matrix mem 64 = centerStep mem (List.replicate BASE 0) (64 >>> LOG_BASE) ∧
      ∃ B t out, B.length = 64 ∧
        (∀ m : Nat, m < 64 → load64 mem (m : Int) = some (B.getD m 0)) ∧
        transpose_64 B = some t ∧
        rotate_bit_matrix mem 64 = some out ∧ out.length = mem.length ∧
        ∀ k : Nat, k < 64 → load64 out (k : Int) = some (t.getD (63 - k) 0) := by
  have hbm := isBytes_of_forall_mem mem hb
  obtain ⟨hl, hv⟩ := ring_traces mem 1 (by decide) (by rw [hlen]) hbm
  obtain ⟨st, h1, hI, hsl, _⟩ := hv 0 (by decide)
  have htr : ringTrace mem 64 = [st] := by
    have hl1 : (ringTrace mem (64 * 1)).length = 1 := hl
    obtain ⟨a, ha⟩ := List.length_eq_one.mp hl1
    have h1' : (ringTrace mem (64 * 1))[0]? = some st := h1
    rw [ha] at h1'
    simp only [List.getElem?_cons_zero, Option.some.injEq] at h1'
    rw [← h1']
    exact ha
  refine ⟨?_, ?_, ⟨_, ring_loop_single mem, rfl⟩, ?_, ?_⟩
  · rw [htr]
    simp [hI.1]
  · intro st' hst'
    rw [htr, List.mem_singleton] at hst'
    subst hst'
    exact List.length_eq_zero.mp hsl
  · rw [rotate_bit_matrix_eq, ring_loop_single]
    rfl
  · obtain ⟨out, hr, hol, hw⟩ := block_words mem 1 (by decide) (by rw [hlen]) hbm
    obtain ⟨b1, b2, b3, b4⟩ := hw 0 0 (by decide) (by decide)
    refine ⟨_, _, out, b1, ?_, b3, hr, hol, ?_⟩
    · intro m hm
      have := b2 m hm
      rw [show 0 * 64 * 1 + 0 + m * 1 = m from by omega] at this
      exact this
    · intro k hk
      have := b4 k hk
      rw [show 0 * 64 * 1 + (1 - 1 - 0) + k * 1 = k from by omega] at this
      exact this

theorem rotate_single_block_witness :
    (ringTrace (0x80 :: List.replicate 511 0) 64).map (fun st => st.i) = [0] ∧
      (∀ st, st ∈ ringTrace (0x80 :: List.replicate 511 0) 64 → stepTrace 64 st = []) ∧
      (∃ s1, whileLoop 64 (fun s : IState => decide (s.i < ((64 >>> LOG_BASE) + 1) / 2))
          (ringBody 64 (64 >>> LOG_BASE)) (ringStart (0x80 :: List.replicate 511 0) 64) =
            some s1 ∧ s1.mem = 0x80 :: List.replicate 511 0) ∧
      rotate_bit_matrix (0x80 :: List.replicate 511 0) 64 =
        centerStep (0x80 :: List.replicate 511 0) (List.replicate BASE 0) (64 >>> LOG_BASE) ∧
      ∃ B t out, B.length = 64 ∧
        (∀ m : Nat, m < 64 →
          load64 (0x80 :: List.replicate 511 0) (m : Int) = some (B.getD m 0)) ∧
        transpose_64 B = some t ∧
        rotate_bit_matrix (0x80 :: List.replicate 511 0) 64 = some out ∧
        out.length = (0x80 :: List.replicate 511 0).length ∧
        ∀ k : Nat, k < 64 → load64 out (k : Int) = some (t.getD (63 - k) 0) :=
  rotate_single_block (0x80 :: List.replicate 511 0)
    (cons_replicate_length _ _ _ _ (by decide))
    (cons_replicate_bytes _ _ _ (by decide) (by decide))

/-! ## Addresses of the blocks of the ring walk -/

theorem ringPtrs_rows (size t u k : Nat) (ht : t + 1 ≤ size) (hu : u + 1 ≤ size) :
    (ringPtrs size t u).p1 + (size : Int) * (k : Int) =
        ((t * 64 * size + u + k * size : Nat) : Int) ∧
      (ringPtrs size t u).p2 + (size : Int) * (k : Int) =
        ((u * 64 * size + (size - 1 - t) + k * size : Nat) : Int) ∧
      (ringPtrs size t u).p3 + (size : Int) * (k : Int) =
        (((size - 1 - t) * 64 * size + (size - 1 - u) + k * size : Nat) : Int) ∧
      (ringPtrs size t u).p4 + (size : Int) * (k : Int) =
        (((size - 1 - u) * 64 * size + t + k * size : Nat) : Int) := by
  refine ⟨?_, ?_, ?_, ?_⟩
  · rw [show t * 64 * size + u + k * size = (64 * t + k) * size + u from by ring]
    exact addr1 size t u k
  · rw [show u * 64 * size + (size - 1 - t) + k * size = (64 * u + k) * size + (size - 1 - t)
      from by ring]
    exact addr2 size t u k ht
  · rw [show (size - 1 - t) * 64 * size + (size - 1 - u) + k * size =
      (64 * (size - 1 - t) + k) * size + (size - 1 - u) from by ring]
    exact addr3 size t u k ht hu
  · rw [show (size - 1 - u) * 64 * size + t + k * size = (64 * (size - 1 - u) + k) * size + t
      from by ring]
    exact addr4 size t u k hu

theorem ringPtrs_base (size t u : Nat) (ht : t + 1 ≤ size) (hu : u + 1 ≤ size) :
    (ringPtrs size t u).p1 = ((t * 64 * size + u : Nat) : Int) ∧
      (ringPtrs size t u).p2 = ((u * 64 * size + (size - 1 - t) : Nat) : Int) ∧
      (ringPtrs size t u).p3 = (((size - 1 - t) * 64 * size + (size - 1 - u) : Nat) : Int) ∧
      (ringPtrs size t u).p4 = (((size - 1 - u) * 64 * size + t : Nat) : Int) := by
  obtain ⟨h1, h2, h3, h4⟩ := ringPtrs_rows size t u 0 ht hu
  simp only [Nat.cast_zero, mul_zero, add_zero, Nat.zero_mul, Nat.add_zero] at h1 h2 h3 h4
  exact ⟨h1, h2, h3, h4⟩

theorem row_inb (size br bc k : Nat) (hbr : br < size) (hbc : bc < size) (hk : k < 64) :
    8 * (br * 64 * size + bc + k * size) + 8 ≤ 8 * (64 * size * size) := by
  rw [show br * 64 * size + bc + k * size = (64 * br + k) * size + bc from by ring]
  exact inb size (64 * br + k) bc (by omega) hbc

theorem fillStep_rows (mem : List Nat) (size : Nat) (bp : Ptrs) (b : Scratch)
    (k a1 a2 a3 a4 : Nat)
    (l1 : b.block_1.length = 64) (l2 : b.block_2.length = 64)
    (l3 : b.block_3.length = 64) (l4 : b.block_4.length = 64) (hk : k < 64)
    (e1 : bp.p1 + (size : Int) * (k : Int) = ((a1 : Nat) : Int))
    (e2 : bp.p2 + (size : Int) * (k : Int) = ((a2 : Nat) : Int))
    (e3 : bp.p3 + (size : Int) * (k : Int) = ((a3 : Nat) : Int))
    (e4 : bp.p4 + (size : Int) * (k : Int) = ((a4 : Nat) : Int))
    (i1 : 8 * a1 + 8 ≤ mem.length) (i2 : 8 * a2 + 8 ≤ mem.length)
    (i3 : 8 * a3 + 8 ≤ mem.length) (i4 : 8 * a4 + 8 ≤ mem.length) :
    fillStep mem size bp (b, k) =
      some ({ block_1 := b.block_1.set k (word mem a1),
              block_2 := b.block_2.set k (word mem a2),
              block_3 := b.block_3.set k (word mem a3),
              block_4 := b.block_4.set k (word mem a4) }, k + 1) := by
  simp only [fillStep, e1, e2, e3, e4, load64_eq _ _ i1, load64_eq _ _ i2, load64_eq _ _ i3,
    load64_eq _ _ i4, Option.bind_eq_bind, Option.some_bind, bind, Option.bind,
    wr_nat _ _ _ (show k < b.block_1.length by omega),
    wr_nat _ _ _ (show k < b.block_2.length by omega),
    wr_nat _ _ _ (show k < b.block_3.length by omega),
    wr_nat _ _ _ (show k < b.block_4.length by omega)]

theorem writeStep_rows (m : List Nat) (size : Nat) (bp : Ptrs) (b : Scratch)
    (k a1 a2 a3 a4 : Nat)
    (l1 : b.block_1.length = 64) (l2 : b.block_2.length = 64)
    (l3 : b.block_3.length = 64) (l4 : b.block_4.length = 64) (hk : k < 64)
    (e1 : bp.p1 + (size : Int) * (k : Int) = ((a1 : Nat) : Int))
    (e2 : bp.p2 + (size : Int) * (k : Int) = ((a2 : Nat) : Int))
    (e3 : bp.p3 + (size : Int) * (k : Int) = ((a3 : Nat) : Int))
    (e4 : bp.p4 + (size : Int) * (k : Int) = ((a4 : Nat) : Int))
    (i1 : 8 * a1 + 8 ≤ m.length) (i2 : 8 * a2 + 8 ≤ m.length)
    (i3 : 8 * a3 + 8 ≤ m.length) (i4 : 8 * a4 + 8 ≤ m.length) :
    writeStep b size bp (m, k) =
      some (storeLE 8 (storeLE 8 (storeLE 8 (storeLE 8 m (8 * a2) (b.block_1.getD (63 - k) 0))
        (8 * a3) (b.block_2.getD (63 - k) 0)) (8 * a4) (b.block_3.getD (63 - k) 0))
        (8 * a1) (b.block_4.getD (63 - k) 0), k + 1) := by
  have s2 := store64_eq m a2 (b.block_1.getD (63 - k) 0) i2
  have s3 := store64_eq (storeLE 8 m (8 * a2) (b.block_1.getD (63 - k) 0)) a3
    (b.block_2.getD (63 - k) 0) (by rw [storeLE_length]; exact i3)
  have s4 := store64_eq (storeLE 8 (storeLE 8 m (8 * a2) (b.block_1.getD (63 - k) 0))
    (8 * a3) (b.block_2.getD (63 - k) 0)) a4 (b.block_3.getD (63 - k) 0)
    (by rw [storeLE_length, storeLE_length]; exact i4)
  have s1 := store64_eq (storeLE 8 (storeLE 8 (storeLE 8 m (8 * a2)
    (b.block_1.getD (63 - k) 0)) (8 * a3) (b.block_2.getD (63 - k) 0)) (8 * a4)
    (b.block_3.getD (63 - k) 0)) a1 (b.block_4.getD (63 - k) 0)
    (by rw [storeLE_length, storeLE_length, storeLE_length]; exact i1)
  simp only [writeStep, rd_last _ k hk l1, rd_last _ k hk l2, rd_last _ k hk l3,
    rd_last _ k hk l4, e1, e2, e3, e4, s1, s2, s3, s4, Option.bind_eq_bind, Option.some_bind,
    bind, Option.bind]

theorem center_ptr (size : Nat) :
    ((size >>> 1) <<< LOG_BASE) * size + (size >>> 1) = (size / 2) * 64 * size + size / 2 := by
  simp only [LOG_BASE, Nat.shiftLeft_eq, Nat.shiftRight_eq_div_pow]

theorem centerStep_ptr (m b : List Nat) (size : Nat) :
    centerStep m b size =
      (whileLoop BASE (fun st => decide (st.2 < BASE))
        (centerFillStep m size (((size / 2) * 64 * size + size / 2 : Nat) : Int)) (b, 0)).bind
      (fun f => (transpose_64 f.1).bind
        (fun t => (whileLoop BASE (fun st => decide (st.2 < BASE))
          (centerWriteStep t size (((size / 2) * 64 * size + size / 2 : Nat) : Int))
          (m, 0)).bind (fun w => some w.1))) := by
  rw [← center_ptr]
  rfl

theorem center_rows (m b t : List Nat) (size k : Nat) (hs : 0 < size)
    (hm : m.length = 8 * (64 * size * size)) (hb : b.length = 64) (ht : t.length = 64)
    (hk : k < 64) :
    centerFillStep m size (((size / 2) * 64 * size + size / 2 : Nat) : Int) (b, k) =
        some (b.set k (word m ((size / 2) * 64 * size + size / 2 + k * size)), k + 1) ∧
      centerWriteStep t size (((size / 2) * 64 * size + size / 2 : Nat) : Int) (m, k) =
        some (storeLE 8 m (8 * ((size / 2) * 64 * size + size / 2 + k * size))
          (t.getD (63 - k) 0), k + 1) := by
  have e : (((size / 2) * 64 * size + size / 2 : Nat) : Int) + (size : Int) * (k : Int) =
      (((size / 2) * 64 * size + size / 2 + k * size : Nat) : Int) := by
    push_cast; ring
  have hi : 8 * ((size / 2) * 64 * size + size / 2 + k * size) + 8 ≤ m.length := by
    rw [hm]; exact row_inb size (size / 2) (size / 2) k (by omega) (by omega) hk
  constructor
  · simp only [centerFillStep, e, load64_eq _ _ hi, Option.bind_eq_bind, Option.some_bind,
      bind, Option.bind, wr_nat _ _ _ (show k < b.length by omega)]
  · simp only [centerWriteStep, rd_last _ k hk ht, e, store64_eq _ _ _ hi,
      Option.bind_eq_bind, Option.some_bind, bind, Option.bind]

theorem ring_addressing (orig : List Nat) (size : Nat) (hs : 0 < size)
    (hlen : orig.length = 8 * (64 * size * size)) (hb : isBytes orig) :
    (ringTrace orig (64 * size)).length = (size + 1) / 2 ∧
      ∀ i, i < (size + 1) / 2 → ∃ st, (ringTrace orig (64 * size))[i]? = some st ∧ st.i = i ∧
        (stepTrace (64 * size) st).length = size / 2 ∧
        ∀ j, j < size / 2 → ∃ s, (stepTrace (64 * size) st)[j]? = some s ∧ s.j = j ∧
          s.bp.p1 = ((i * 64 * size + j : Nat) : Int) ∧
          s.bp.p2 = ((j * 64 * size + (size - 1 - i) : Nat) : Int) ∧
          s.bp.p3 = (((size - 1 - i) * 64 * size + (size - 1 - j) : Nat) : Int) ∧
          s.bp.p4 = (((size - 1 - j) * 64 * size + i : Nat) : Int) ∧
          ∀ (b : Scratch) (k : Nat), b.block_1.length = 64 → b.block_2.length = 64 →
            b.block_3.length = 64 → b.block_4.length = 64 → k < 64 →
            fillStep s.mem size s.bp (b, k) =
              some ({ block_1 := b.block_1.set k (word s.mem (i * 64 * size + j + k * size)),
                      block_2 := b.block_2.set k
                        (word s.mem (j * 64 * size + (size - 1 - i) + k * size)),
                      block_3 := b.block_3.set k
                        (word s.mem ((size - 1 - i) * 64 * size + (size - 1 - j) + k * size)),
                      block_4 := b.block_4.set k
                        (word s.mem ((size - 1 - j) * 64 * size + i + k * size)) }, k + 1) ∧
            ∀ m : List Nat, m.length = s.mem.length →
              writeStep b size s.bp (m, k) =
                some (storeLE 8 (storeLE 8 (storeLE 8 (storeLE 8 m
                  (8 * (j * 64 * size + (size - 1 - i) + k * size))
                    (b.block_1.getD (63 - k) 0))
                  (8 * ((size - 1 - i) * 64 * size + (size - 1 - j) + k * size))
                    (b.block_2.getD (63 - k) 0))
                  (8 * ((size - 1 - j) * 64 * size + i + k * size))
                    (b.block_3.getD (63 - k) 0))
                  (8 * (i * 64 * size + j + k * size)) (b.block_4.getD (63 - k) 0), k + 1) := by
  obtain ⟨hl, hv⟩ := ring_traces orig size hs hlen hb
  refine ⟨hl, ?_⟩
  intro i hi
  obtain ⟨st, h1, hI, hsl, hsv⟩ := hv i hi
  refine ⟨st, h1, hI.1, hsl, ?_⟩
  intro j hj
  obtain ⟨s, h2, hJ⟩ := hsv j hj
  obtain ⟨hj', hml, _, _, _, _, _, hp, _⟩ := hJ
  obtain ⟨q1, q2, q3, _, _⟩ := quad_bounds size i j hi hj
  obtain ⟨b1, b2, b3, b4⟩ := ringPtrs_base size i j q1 q2
  refine ⟨s, h2, hj', ?_⟩
  rw [hp]
  refine ⟨b1, b2, b3, b4, ?_⟩
  intro b k l1 l2 l3 l4 hk
  obtain ⟨r1, r2, r3, r4⟩ := ringPtrs_rows size i j k q1 q2
  have i1 := row_inb size i j k (by omega) (by omega) hk
  have i2 := row_inb size j (size - 1 - i) k (by omega) (by omega) hk
  have i3 := row_inb size (size - 1 - i) (size - 1 - j) k (by omega) (by omega) hk
  have i4 := row_inb size (size - 1 - j) i k (by omega) (by omega) hk
  refine ⟨fillStep_rows s.mem size _ b k _ _ _ _ l1 l2 l3 l4 hk r1 r2 r3 r4
    (by rw [hml]; exact i1) (by rw [hml]; exact i2) (by rw [hml]; exact i3)
    (by rw [hml]; exact i4), ?_⟩
  intro m hm
  exact writeStep_rows m size _ b k _ _ _ _ l1 l2 l3 l4 hk r1 r2 r3 r4
    (by rw [hm, hml]; exact i1) (by rw [hm, hml]; exact i2) (by rw [hm, hml]; exact i3)
    (by rw [hm, hml]; exact i4)

/-- C14: block addressing of the ring walk. For every `N` that is a positive
multiple of 64, with `size = N / 64`, and every buffer of `N * (N / 8)` bytes,
the loop over `i` is entered `(size + 1) / 2` times and, in its iteration
`i`, the loop over `j` is entered `size / 2` times; on entry of step `j` of
ring `i` the four block pointers are the word offsets `br * 64 * size + bc` of
the blocks (`i`, `j`), (`j`, `size - 1 - i`), (`size - 1 - i`, `size - 1 - j`)
and (`size - 1 - j`, `i`), and for every `k < 64` the load step reads, and the
store step writes, the words at these offsets plus `k * size`. The center step
uses the offset of block (`size / 2`, `size / 2`) in the same way. -/
theorem ring_block_addressing (N : Nat) (mem : List Nat) (hN : 0 < N) (h64 : N % 64 = 0)
    (hlen : mem.length = N * (N / 8)) (hb : ∀ b ∈ mem, b < 256) :
    (ringTrace mem N).length = (N / 64 + 1) / 2 ∧
      (∀ i, i < (N / 64 + 1) / 2 → ∃ st, (ringTrace mem N)[i]? = some st ∧ st.i = i ∧
        (stepTrace N st).length = N / 64 / 2 ∧
        ∀ j, j < N / 64 / 2 → ∃ s, (stepTrace N st)[j]? = some s ∧ s.j = j ∧
          s.bp.p1 = ((i * 64 * (N / 64) + j : Nat) : Int) ∧
          s.bp.p2 = ((j * 64 * (N / 64) + (N / 64 - 1 - i) : Nat) : Int) ∧
          s.bp.p3 = (((N / 64 - 1 - i) * 64 * (N / 64) + (N / 64 - 1 - j) : Nat) : Int) ∧
          s.bp.p4 = (((N / 64 - 1 - j) * 64 * (N / 64) + i : Nat) : Int) ∧
          ∀ (b : Scratch) (k : Nat), b.block_1.length = 64 → b.block_2.length = 64 →
            b.block_3.length = 64 → b.block_4.length = 64 → k < 64 →
            fillStep s.mem (N / 64) s.bp (b, k) =
              some ({ block_1 := b.block_1.set k
                        (word s.mem (i * 64 * (N / 64) + j + k * (N / 64))),
                      block_2 := b.block_2.set k
                        (word s.mem (j * 64 * (N / 64) + (N / 64 - 1 - i) + k * (N / 64))),
                      block_3 := b.block_3.set k
                        (word s.mem ((N / 64 - 1 - i) * 64 * (N / 64) + (N / 64 - 1 - j) +
                          k * (N / 64))),
                      block_4 := b.block_4.set k
                        (word s.mem ((N / 64 - 1 - j) * 64 * (N / 64) + i + k * (N / 64))) },
                    k + 1) ∧
            ∀ m : List Nat, m.length = s.mem.length →
              writeStep b (N / 64) s.bp (m, k) =
                some (storeLE 8 (storeLE 8 (storeLE 8 (storeLE 8 m
                  (8 * (j * 64 * (N / 64) + (N / 64 - 1 - i) + k * (N / 64)))
                    (b.block_1.getD (63 - k) 0))
                  (8 * ((N / 64 - 1 - i) * 64 * (N / 64) + (N / 64 - 1 - j) + k * (N / 64)))
                    (b.block_2.getD (63 - k) 0))
                  (8 * ((N / 64 - 1 - j) * 64 * (N / 64) + i + k * (N / 64)))
                    (b.block_3.getD (63 - k) 0))
                  (8 * (i * 64 * (N / 64) + j + k * (N / 64)))
                    (b.block_4.getD (63 - k) 0), k + 1)) ∧
      ∀ (m b t : List Nat) (k : Nat), m.length = mem.length → b.length = 64 →
        t.length = 64 → k < 64 →
        centerStep m b (N / 64) =
          (whileLoop BASE (fun st => decide (st.2 < BASE))
            (centerFillStep m (N / 64)
              (((N / 64 / 2) * 64 * (N / 64) + N / 64 / 2 : Nat) : Int)) (b, 0)).bind
          (fun f => (transpose_64 f.1).bind
            (fun t => (whileLoop BASE (fun st => decide (st.2 < BASE))
              (centerWriteStep t (N / 64)
                (((N / 64 / 2) * 64 * (N / 64) + N / 64 / 2 : Nat) : Int))
              (m, 0)).bind (fun w => some w.1))) ∧
        centerFillStep m (N / 64) (((N / 64 / 2) * 64 * (N / 64) + N / 64 / 2 : Nat) : Int)
            (b, k) =
          some (b.set k (word m ((N / 64 / 2) * 64 * (N / 64) + N / 64 / 2 + k * (N / 64))),
            k + 1) ∧
        centerWriteStep t (N / 64) (((N / 64 / 2) * 64 * (N / 64) + N / 64 / 2 : Nat) : Int)
            (m, k) =
          some (storeLE 8 m (8 * ((N / 64 / 2) * 64 * (N / 64) + N / 64 / 2 + k * (N / 64)))
            (t.getD (63 - k) 0), k + 1) := by
  obtain ⟨e1, e2, e3⟩ := size_facts N hN h64
  have h := ring_addressing mem (N / 64) e2 (by rw [hlen, e3]) (isBytes_of_forall_mem mem hb)
  rw [← e1] at h
  refine ⟨h.1, h.2, ?_⟩
  intro m b t k hm hbl htl hk
  obtain ⟨c1, c2⟩ := center_rows m b t (N / 64) k e2 (by rw [hm, hlen, e3]) hbl htl hk
  exact ⟨centerStep_ptr m b (N / 64), c1, c2⟩

theorem ring_block_addressing_witness :
    (ringTrace (List.replicate 4608 0x5A) 192).length = (192 / 64 + 1) / 2 ∧
      (∀ i, i < (192 / 64 + 1) / 2 → ∃ st,
        (ringTrace (List.replicate 4608 0x5A) 192)[i]? = some st ∧ st.i = i ∧
        (stepTrace 192 st).length = 192 / 64 / 2 ∧
        ∀ j, j < 192 / 64 / 2 → ∃ s, (stepTrace 192 st)[j]? = some s ∧ s.j = j ∧
          s.bp.p1 = ((i * 64 * (192 / 64) + j : Nat) : Int) ∧
          s.bp.p2 = ((j * 64 * (192 / 64) + (192 / 64 - 1 - i) : Nat) : Int) ∧
          s.bp.p3 = (((192 / 64 - 1 - i) * 64 * (192 / 64) + (192 / 64 - 1 - j) : Nat) : Int) ∧
          s.bp.p4 = (((192 / 64 - 1 - j) * 64 * (192 / 64) + i : Nat) : Int) ∧
          ∀ (b : Scratch) (k : Nat), b.block_1.length = 64 → b.block_2.length = 64 →
            b.block_3.length = 64 → b.block_4.length = 64 → k < 64 →
            fillStep s.mem (192 / 64) s.bp (b, k) =
              some ({ block_1 := b.block_1.set k
                        (word s.mem (i * 64 * (192 / 64) + j + k * (192 / 64))),
                      block_2 := b.block_2.set k
                        (word s.mem (j * 64 * (192 / 64) + (192 / 64 - 1 - i) + k * (192 / 64))),
                      block_3 := b.block_3.set k
                        (word s.mem ((192 / 64 - 1 - i) * 64 * (192 / 64) + (192 / 64 - 1 - j) +
                          k * (192 / 64))),
                      block_4 := b.block_4.set k
                        (word s.mem ((192 / 64 - 1 - j) * 64 * (192 / 64) + i + k * (192 / 64))) },
                    k + 1) ∧
            ∀ m : List Nat, m.length = s.mem.length →
              writeStep b (192 / 64) s.bp (m, k) =
                some (storeLE 8 (storeLE 8 (storeLE 8 (storeLE 8 m
                  (8 * (j * 64 * (192 / 64) + (192 / 64 - 1 - i) + k * (192 / 64)))
                    (b.block_1.getD (63 - k) 0))
                  (8 * ((192 / 64 - 1 - i) * 64 * (192 / 64) + (192 / 64 - 1 - j) + k * (192 / 64)))
                    (b.block_2.getD (63 - k) 0))
                  (8 * ((192 / 64 - 1 - j) * 64 * (192 / 64) + i + k * (192 / 64)))
                    (b.block_3.getD (63 - k) 0))
                  (8 * (i * 64 * (192 / 64) + j + k * (192 / 64)))
                    (b.block_4.getD (63 - k) 0), k + 1)) ∧
      ∀ (m b t : List Nat) (k : Nat), m.length = (List.replicate 4608 0x5A).length →
        b.length = 64 →
        t.length = 64 → k < 64 →
        centerStep m b (192 / 64) =
          (whileLoop BASE (fun st => decide (st.2 < BASE))
            (centerFillStep m (192 / 64)
              (((192 / 64 / 2) * 64 * (192 / 64) + 192 / 64 / 2 : Nat) : Int)) (b, 0)).bind
          (fun f => (transpose_64 f.1).bind
            (fun t => (whileLoop BASE (fun st => decide (st.2 < BASE))
              (centerWriteStep t (192 / 64)
                (((192 / 64 / 2) * 64 * (192 / 64) + 192 / 64 / 2 : Nat) : Int))
              (m, 0)).bind (fun w => some w.1))) ∧
        centerFillStep m (192 / 64) (((192 / 64 / 2) * 64 * (192 / 64) + 192 / 64 / 2 : Nat) : Int)
            (b, k) =
          some (b.set k (word m ((192 / 64 / 2) * 64 * (192 / 64) + 192 / 64 / 2 + k * (192 / 64))),
            k + 1) ∧
        centerWriteStep t (192 / 64) (((192 / 64 / 2) * 64 * (192 / 64) + 192 / 64 / 2 : Nat) : Int)
            (m, k) =
          some (storeLE 8 m (8 * ((192 / 64 / 2) * 64 * (192 / 64) + 192 / 64 / 2 + k * (192 / 64)))
            (t.getD (63 - k) 0), k + 1) :=
  ring_block_addressing 192 (List.replicate 4608 0x5A) (by decide) (by decide)
    (replicate_length_eq _ _ _ (by decide)) (replicate_bytes _ _ (by decide))

/-! ## Every block once -/

/-- A loop that counts: when the loop returns, the values of the counter in
the states in which the body was entered are those from the initial one up to
the bound. -/
theorem whileTrace_counter {σ : Type} (cond : σ → Bool) (body : σ → Option σ)
    (k : σ → Nat) (n : Nat) (hcond : ∀ s, cond s = decide (k s < n))
    (hbody : ∀ s s', body s = some s' → k s' = k s + 1) :
    ∀ (fuel : Nat) (s r : σ), whileLoop fuel cond body s = some r →
      (whileTrace fuel cond body s).map k = List.range' (k s) (n - k s) := by
  intro fuel
  induction fuel with
  | zero =>
    intro s r h
    by_cases hc : cond s = true
    · simp [whileLoop, hc] at h
    · have hc' : cond s = false := by simpa using hc
      rw [whileTrace_done _ _ _ _ hc']
      rw [hcond] at hc'
      have : n - k s = 0 := by
        have := of_decide_eq_false hc'
        omega
      rw [this]
      rfl
  | succ fuel ih =>
    intro s r h
    by_cases hc : cond s = true
    · simp only [whileLoop, hc, if_true] at h
      obtain ⟨s', hb, hw⟩ := Option.bind_eq_some.mp h
      rw [whileTrace_step _ _ _ _ _ hc hb, List.map_cons, ih s' r hw, hbody s s' hb]
      rw [hcond] at hc
      have hlt := of_decide_eq_true hc
      rw [show n - k s = (n - (k s + 1)) + 1 from by omega, List.range'_succ]
    · have hc' : cond s = false := by simpa using hc
      rw [whileTrace_done _ _ _ _ hc']
      rw [hcond] at hc'
      have : n - k s = 0 := by
        have := of_decide_eq_false hc'
        omega
      rw [this]
      rfl

theorem count_flatMap_congr {α β γ : Type} [BEq β] [BEq γ] (l : List α)
    (f : α → List β) (g : α → List γ) (a : β) (b : γ)
    (h : ∀ x, x ∈ l → (f x).count a = (g x).count b) :
    (l.flatMap f).count a = (l.flatMap g).count b := by
  induction l with
  | nil => rfl
  | cons x xs ih =>
    rw [List.flatMap_cons, List.flatMap_cons, List.count_append, List.count_append,
      h x (List.mem_cons_self _ _), ih (fun y hy => h y (List.mem_cons_of_mem _ hy))]

theorem count_flatMap_range_single {β : Type} [BEq β] [LawfulBEq β] (g : Nat → List β)
    (a : β)
    (n K : Nat) (hK : K < n) (h : ∀ k, k < n → k ≠ K → (g k).count a = 0) :
    ((List.range n).flatMap g).count a = (g K).count a := by
  induction n with
  | zero => omega
  | succ n ih =>
    rw [List.range_succ, List.flatMap_append, List.count_append, List.flatMap_singleton]
    by_cases hn : K = n
    · subst hn
      have : ((List.range K).flatMap g).count a = 0 := by
        rw [List.count_eq_zero]
        intro hmem
        obtain ⟨k, hk, hak⟩ := List.mem_flatMap.mp hmem
        have hk' := List.mem_range.mp hk
        have := h k (by omega) (by omega)
        rw [List.count_eq_zero] at this
        exact this hak
      rw [this, Nat.zero_add]
    · rw [ih (by omega) (fun k hk hne => h k (by omega) hne), h n (by omega) (Ne.symm hn)]
      rfl

theorem rowAddr_inv (size r c k q : Nat) (hc : c < size) (hk : k < 64)
    (h : rowAddr size (r, c) k = q) :
    r = q / size / 64 ∧ c = q % size ∧ k = (q / size) % 64 := by
  have hs : 0 < size := by omega
  have e : q = c + size * (64 * r + k) := by
    rw [← h]; simp only [rowAddr]; ring
  have h1 : q / size = 64 * r + k := by
    rw [e, Nat.add_mul_div_left _ _ hs, Nat.div_eq_of_lt hc, Nat.zero_add]
  have h2 : q % size = c := by
    rw [e, Nat.add_mul_mod_self_left, Nat.mod_eq_of_lt hc]
  rw [h1, h2]
  omega

theorem rowAddr_of (size q : Nat) :
    rowAddr size (q / size / 64, q % size) ((q / size) % 64) = q := by
  simp only [rowAddr]
  have h1 := Nat.div_add_mod (q / size) 64
  have h2 := Nat.div_add_mod q size
  calc q / size / 64 * 64 * size + q % size + q / size % 64 * size
      = size * (64 * (q / size / 64) + q / size % 64) + q % size := by ring
    _ = q := by rw [h1, h2]

theorem rowAddr_lt (size : Nat) (p : Nat × Nat) (k : Nat) (h1 : p.1 < size) (h2 : p.2 < size)
    (hk : k < 64) : rowAddr size p k < 64 * size * size := by
  have := row_inb size p.1 p.2 k h1 h2 hk
  simp only [rowAddr]
  omega

/-- In the rows of a list of blocks, word offset `q` occurs as often as the
position of its block occurs in the list. -/
theorem count_rows (size q : Nat) (P : List (Nat × Nat))
    (hP : ∀ p, p ∈ P → p.2 < size) :
    ((List.range 64).flatMap
        (fun k => P.map (fun p => ((rowAddr size p k : Nat) : Int)))).count (q : Int) =
      P.count (q / size / 64, q % size) := by
  rw [count_flatMap_range_single _ _ 64 ((q / size) % 64) (Nat.mod_lt _ (by decide))]
  · induction P with
    | nil => rfl
    | cons p ps ih =>
      rw [List.map_cons, List.count_cons, List.count_cons,
        ih (fun x hx => hP x (List.mem_cons_of_mem _ hx))]
      congr 1
      have hp := hP p (List.mem_cons_self _ _)
      by_cases hpe : p = (q / size / 64, q % size)
      · subst hpe
        rw [rowAddr_of]
        simp
      · have : rowAddr size p ((q / size) % 64) ≠ q := by
          intro h
          obtain ⟨a1, a2, _⟩ := rowAddr_inv size p.1 p.2 _ q hp (Nat.mod_lt _ (by decide)) h
          apply hpe
          exact Prod.ext a1 a2
        have h1 : ((rowAddr size p ((q / size) % 64) : Nat) : Int) ≠ (q : Int) := by
          intro h; exact this (by exact_mod_cast h)
        simp [h1, hpe]
  · intro k hk hne
    rw [List.count_eq_zero]
    intro hmem
    obtain ⟨p, hp, he⟩ := List.mem_map.mp hmem
    have he' : rowAddr size p k = q := by exact_mod_cast he
    obtain ⟨_, _, a3⟩ := rowAddr_inv size p.1 p.2 k q (hP p hp) hk he'
    exact hne a3

theorem mem_quadPos (size i j : Nat) (p : Nat × Nat) :
    p ∈ quadPos size i j ↔ inQuad size i j p.1 p.2 := by
  obtain ⟨r, c⟩ := p
  simp only [quadPos, inQuad, List.mem_cons, List.mem_singleton, Prod.mk.injEq,
    List.not_mem_nil, or_false]

theorem quadPos_nodup (size i j : Nat) (hi : i < (size + 1) / 2) (hj : j < size / 2) :
    (quadPos size i j).Nodup := by
  obtain ⟨q1, q2, q3, q4, q5⟩ := quad_bounds size i j hi hj
  simp only [quadPos, List.nodup_cons, List.mem_cons, List.mem_singleton, Prod.mk.injEq,
    List.not_mem_nil, not_false_eq_true, List.nodup_nil, and_true, not_or, or_false]
  refine ⟨⟨?_, ?_, ?_⟩, ⟨?_, ?_⟩, ?_⟩ <;> omega

theorem quadPos_bounds (size i j : Nat) (hi : i < (size + 1) / 2) (hj : j < size / 2)
    (p : Nat × Nat) (hp : p ∈ quadPos size i j) : p.1 < size ∧ p.2 < size := by
  obtain ⟨q1, q2, q3, q4, q5⟩ := quad_bounds size i j hi hj
  rw [mem_quadPos] at hp
  unfold inQuad at hp
  omega

theorem mem_ringPos (size : Nat) (p : Nat × Nat) :
    p ∈ ringPos size ↔
      ∃ i j, i < (size + 1) / 2 ∧ j < size / 2 ∧ inQuad size i j p.1 p.2 := by
  simp only [ringPos, List.mem_flatMap, List.mem_range, mem_quadPos]
  constructor
  · rintro ⟨i, hi, j, hj, h⟩
    exact ⟨i, j, hi, hj, h⟩
  · rintro ⟨i, j, hi, hj, h⟩
    exact ⟨i, hi, j, hj, h⟩

theorem ringPos_nodup (size : Nat) : (ringPos size).Nodup := by
  unfold ringPos
  rw [List.nodup_flatMap]
  constructor
  · intro i hi
    have hi' := List.mem_range.mp hi
    rw [List.nodup_flatMap]
    constructor
    · intro j hj
      exact quadPos_nodup size i j hi' (List.mem_range.mp hj)
    · apply List.Nodup.pairwise_of_forall_ne (List.nodup_range _)
      intro j hj u hu hne p h1 h2
      rw [mem_quadPos] at h1 h2
      have := inQuad_disjoint size i j i u p.1 p.2 hi' (List.mem_range.mp hj) hi'
        (List.mem_range.mp hu) h1 h2
      exact hne this.2
  · apply List.Nodup.pairwise_of_forall_ne (List.nodup_range _)
    intro i hi t ht hne p h1 h2
    obtain ⟨j, hj, h1⟩ := List.mem_flatMap.mp h1
    obtain ⟨u, hu, h2⟩ := List.mem_flatMap.mp h2
    rw [mem_quadPos] at h1 h2
    have := inQuad_disjoint size i j t u p.1 p.2 (List.mem_range.mp hi) (List.mem_range.mp hj)
      (List.mem_range.mp ht) (List.mem_range.mp hu) h1 h2
    exact hne this.1

theorem center_not_mem_ringPos (size : Nat) (hodd : size % 2 = 1) :
    (size / 2, size / 2) ∉ ringPos size := by
  rw [mem_ringPos]
  rintro ⟨i, j, hi, hj, hq⟩
  unfold inQuad at hq
  simp only at hq
  omega

theorem mem_ringPos_grid (size r c : Nat) (hr : r < size) (hc : c < size) :
    (r, c) ∈ ringPos size ↔ ¬ (size % 2 = 1 ∧ r = size / 2 ∧ c = size / 2) := by
  constructor
  · rintro h ⟨h1, h2, h3⟩
    subst h2 h3
    exact center_not_mem_ringPos size h1 h
  · intro hn
    obtain ⟨i, j, _, hi, hj, hq⟩ := done_final size r c hr hc hn
    exact (mem_ringPos size (r, c)).mpr ⟨i, j, hi, hj, hq⟩

theorem walkPos_nodup (size : Nat) : (walkPos size).Nodup := by
  unfold walkPos
  rw [List.nodup_append]
  refine ⟨ringPos_nodup size, ?_, ?_⟩
  · split_ifs
    · exact List.nodup_singleton _
    · exact List.nodup_nil
  · intro p h1 h2
    split_ifs at h2 with hodd
    · rw [List.mem_singleton] at h2
      subst h2
      exact center_not_mem_ringPos size hodd h1
    · exact absurd h2 (List.not_mem_nil _)

theorem mem_walkPos (size r c : Nat) : (r, c) ∈ walkPos size ↔ r < size ∧ c < size := by
  unfold walkPos
  rw [List.mem_append]
  constructor
  · rintro (h | h)
    · obtain ⟨i, j, hi, hj, hq⟩ := (mem_ringPos size (r, c)).mp h
      exact quadPos_bounds size i j hi hj (r, c) ((mem_quadPos size i j (r, c)).mpr hq)
    · split_ifs at h with hodd
      · rw [List.mem_singleton, Prod.mk.injEq] at h
        omega
      · exact absurd h (List.not_mem_nil _)
  · rintro ⟨hr, hc⟩
    by_cases hcen : size % 2 = 1 ∧ r = size / 2 ∧ c = size / 2
    · right
      rw [if_pos hcen.1, List.mem_singleton, Prod.mk.injEq]
      exact hcen.2
    · left
      exact (mem_ringPos_grid size r c hr hc).mpr hcen

theorem count_one_of_nodup {α : Type} [BEq α] [LawfulBEq α] (a : α) (l : List α)
    (hn : l.Nodup) (hm : a ∈ l) : l.count a = 1 := by
  induction l with
  | nil => exact absurd hm (List.not_mem_nil _)
  | cons b l ih =>
    rw [List.nodup_cons] at hn
    rw [List.count_cons]
    by_cases hab : b = a
    · subst hab
      rw [List.count_eq_zero.mpr hn.1]
      simp
    · have hm' : a ∈ l := by
        rcases List.mem_cons.mp hm with h | h
        · exact absurd h.symm hab
        · exact h
      rw [ih hn.2 hm']
      simp [hab]

theorem count_walkPos (size r c : Nat) (hr : r < size) (hc : c < size) :
    (walkPos size).count (r, c) = 1 :=
  count_one_of_nodup _ _ (walkPos_nodup size) ((mem_walkPos size r c).mpr ⟨hr, hc⟩)

theorem length_flatMap_range {β : Type} (g : Nat → List β) (n c : Nat)
    (h : ∀ k, k < n → (g k).length = c) : ((List.range n).flatMap g).length = n * c := by
  induction n with
  | zero => simp
  | succ n ih =>
    rw [List.range_succ, List.flatMap_append, List.length_append, List.flatMap_singleton,
      ih (fun k hk => h k (by omega)), h n (by omega)]
    ring

theorem ringPos_length (size : Nat) : (ringPos size).length = (size + 1) / 2 * (size / 2 * 4) := by
  unfold ringPos
  apply length_flatMap_range
  intro i _
  apply length_flatMap_range
  intro j _
  rfl

theorem walkPos_length (size : Nat) : (walkPos size).length = size * size := by
  unfold walkPos
  rw [List.length_append, ringPos_length]
  obtain ⟨h, ⟨e0, e1, e2⟩ | ⟨e0, e1, e2⟩⟩ := half_cases size
  · rw [e1, e2, if_neg (by omega), e0]
    simp only [List.length_nil]
    ring
  · rw [e1, e2, if_pos (by omega), e0]
    simp only [List.length_singleton]
    ring

theorem fillStep_counter (mem : List Nat) (size : Nat) (bp : Ptrs) (st st' : Scratch × Nat)
    (h : fillStep mem size bp st = some st') : st'.2 = st.2 + 1 := by
  simp only [fillStep, Option.bind_eq_bind, bind, Option.bind_eq_some] at h
  obtain ⟨_, _, _, _, _, _, _, _, _, _, _, _, _, _, _, _, h⟩ := h
  rw [Option.some.injEq] at h
  rw [← h]

theorem writeStep_counter (b : Scratch) (size : Nat) (bp : Ptrs) (st st' : List Nat × Nat)
    (h : writeStep b size bp st = some st') : st'.2 = st.2 + 1 := by
  simp only [writeStep, Option.bind_eq_bind, bind, Option.bind_eq_some] at h
  obtain ⟨_, _, _, _, _, _, _, _, _, _, _, _, _, _, _, _, h⟩ := h
  rw [Option.some.injEq] at h
  rw [← h]

theorem centerFillStep_counter (mem : List Nat) (size : Nat) (p : Int)
    (st st' : List Nat × Nat) (h : centerFillStep mem size p st = some st') :
    st'.2 = st.2 + 1 := by
  simp only [centerFillStep, Option.bind_eq_bind, bind, Option.bind_eq_some] at h
  obtain ⟨_, _, _, _, h⟩ := h
  rw [Option.some.injEq] at h
  rw [← h]

theorem centerWriteStep_counter (t : List Nat) (size : Nat) (p : Int)
    (st st' : List Nat × Nat) (h : centerWriteStep t size p st = some st') :
    st'.2 = st.2 + 1 := by
  simp only [centerWriteStep, Option.bind_eq_bind, bind, Option.bind_eq_some] at h
  obtain ⟨_, _, _, _, h⟩ := h
  rw [Option.some.injEq] at h
  rw [← h]

theorem counter_trace {σ : Type} (body : (σ × Nat) → Option (σ × Nat)) (s0 : σ)
    (r : σ × Nat) (hbody : ∀ st st', body st = some st' → st'.2 = st.2 + 1)
    (h : whileLoop BASE (fun st : σ × Nat => decide (st.2 < BASE)) body (s0, 0) = some r) :
    (whileTrace BASE (fun st : σ × Nat => decide (st.2 < BASE)) body (s0, 0)).map
      (fun st => st.2) = List.range 64 := by
  rw [whileTrace_counter (fun st : σ × Nat => decide (st.2 < BASE)) body (fun st => st.2) BASE
    (fun _ => rfl) hbody BASE (s0, 0) r h, List.range_eq_range']
  rfl

theorem flatMap_trace {σ β : Type} (l : List (σ × Nat)) (g : Nat → List β)
    (h : l.map (fun st => st.2) = List.range 64) :
    l.flatMap (fun st => g st.2) = (List.range 64).flatMap g := by
  rw [← h, List.flatMap_map]

theorem map_trace {σ β : Type} (l : List (σ × Nat)) (g : Nat → β)
    (h : l.map (fun st => st.2) = List.range 64) :
    l.map (fun st => g st.2) = (List.range 64).map g := by
  rw [← h, List.map_map]
  rfl

theorem ringStep_parts (N size : Nat) (s s' : JState) (h : ringStep N size s = some s') :
    (∃ f, whileLoop BASE (fun st : Scratch × Nat => decide (st.2 < BASE))
        (fillStep s.mem size s.bp) (s.blocks, 0) = some f) ∧
      ∃ w, whileLoop BASE (fun st : List Nat × Nat => decide (st.2 < BASE))
        (writeStep s'.blocks size s.bp) (s.mem, 0) = some w := by
  simp only [ringStep, Option.bind_eq_bind, bind, Option.bind_eq_some] at h
  obtain ⟨f, hf, b1, _, b2, _, b3, _, b4, _, w, hw, h⟩ := h
  rw [Option.some.injEq] at h
  refine ⟨⟨f, hf⟩, w, ?_⟩
  rw [← h]
  exact hw

theorem stepReads_eq (N size : Nat) (s s' : JState) (h : ringStep N size s = some s') :
    stepReads size s = (List.range 64).flatMap (fillReads size s.bp) := by
  obtain ⟨⟨f, hf⟩, _⟩ := ringStep_parts N size s s' h
  unfold stepReads
  exact flatMap_trace _ _ (counter_trace _ _ f (fillStep_counter _ _ _) hf)

theorem stepWrites_eq (N size : Nat) (s s' : JState) (h : ringStep N size s = some s') :
    stepWrites N size s = (List.range 64).flatMap (writeStores size s.bp) := by
  obtain ⟨_, w, hw⟩ := ringStep_parts N size s s' h
  unfold stepWrites
  rw [h]
  exact flatMap_trace _ _ (counter_trace _ _ w (writeStep_counter _ _ _) hw)

theorem centerStep_parts (mem b out : List Nat) (size : Nat)
    (h : centerStep mem b size = some out) :
    ∃ f t w,
      whileLoop BASE (fun st : List Nat × Nat => decide (st.2 < BASE))
        (centerFillStep mem size
          ((((size >>> 1) <<< LOG_BASE) * size + (size >>> 1) : Nat) : Int)) (b, 0) = some f ∧
      transpose_64 f.1 = some t ∧
      whileLoop BASE (fun st : List Nat × Nat => decide (st.2 < BASE))
        (centerWriteStep t size
          ((((size >>> 1) <<< LOG_BASE) * size + (size >>> 1) : Nat) : Int)) (mem, 0) =
        some w := by
  simp only [centerStep, Option.bind_eq_bind, bind, Option.bind_eq_some] at h
  obtain ⟨f, hf, t, ht, w, hw, _⟩ := h
  exact ⟨f, t, w, hf, ht, hw⟩

theorem center_addr (size k : Nat) :
    ((((size >>> 1) <<< LOG_BASE) * size + (size >>> 1) : Nat) : Int) + (size : Int) * (k : Int) =
      ((rowAddr size (size / 2, size / 2) k : Nat) : Int) := by
  rw [center_ptr]
  simp only [rowAddr]
  push_cast; ring

theorem centerReads_eq (mem b out : List Nat) (size : Nat)
    (h : centerStep mem b size = some out) :
    centerReads mem b size =
      (List.range 64).map (fun k => ((rowAddr size (size / 2, size / 2) k : Nat) : Int)) := by
  obtain ⟨f, t, w, hf, _, _⟩ := centerStep_parts mem b out size h
  unfold centerReads
  simp only []
  rw [map_trace _ (fun k : Nat => ((((size >>> 1) <<< LOG_BASE) * size + (size >>> 1) : Nat) : Int)
      + (size : Int) * (k : Int))
    (counter_trace _ _ f (centerFillStep_counter _ _ _) hf)]
  exact List.map_congr_left (fun k _ => center_addr size k)

theorem centerWrites_eq (mem b out : List Nat) (size : Nat)
    (h : centerStep mem b size = some out) :
    centerWrites mem b size =
      (List.range 64).map (fun k => ((rowAddr size (size / 2, size / 2) k : Nat) : Int)) := by
  obtain ⟨f, t, w, hf, ht, hw⟩ := centerStep_parts mem b out size h
  unfold centerWrites
  simp only [hf, ht, Option.some_bind]
  rw [map_trace _ (fun k : Nat => ((((size >>> 1) <<< LOG_BASE) * size + (size >>> 1) : Nat) : Int)
      + (size : Int) * (k : Int))
    (counter_trace _ _ w (centerWriteStep_counter _ _ _) hw)]
  exact List.map_congr_left (fun k _ => center_addr size k)

theorem fillReads_quad (size t u k : Nat) (ht : t < (size + 1) / 2) (hu : u < size / 2) :
    fillReads size (ringPtrs size t u) k =
      (quadPos size t u).map (fun p => ((rowAddr size p k : Nat) : Int)) := by
  obtain ⟨q1, q2, _, _, _⟩ := quad_bounds size t u ht hu
  obtain ⟨r1, r2, r3, r4⟩ := ringPtrs_rows size t u k q1 q2
  simp only [fillReads, quadPos, rowAddr, List.map_cons, List.map_nil, r1, r2, r3, r4]

theorem writeStores_quad (size t u k : Nat) (ht : t < (size + 1) / 2) (hu : u < size / 2) :
    writeStores size (ringPtrs size t u) k =
      ([(u, size - 1 - t), (size - 1 - t, size - 1 - u), (size - 1 - u, t), (t, u)] :
        List (Nat × Nat)).map (fun p => ((rowAddr size p k : Nat) : Int)) := by
  obtain ⟨q1, q2, _, _, _⟩ := quad_bounds size t u ht hu
  obtain ⟨r1, r2, r3, r4⟩ := ringPtrs_rows size t u k q1 q2
  simp only [writeStores, rowAddr, List.map_cons, List.map_nil, r1, r2, r3, r4]

/-- The accesses of the ring loop, from the accesses of one ring step. -/
theorem ring_accesses (orig : List Nat) (size : Nat) (hs : 0 < size)
    (hlen : orig.length = 8 * (64 * size * size)) (hb : isBytes orig)
    (acc : JState → List Int) (Q : Nat → Nat → List (Nat × Nat))
    (hacc : ∀ t u s s', t < (size + 1) / 2 → u < size / 2 → s.bp = ringPtrs size t u →
      ringStep (64 * size) size s = some s' →
      acc s = (List.range 64).flatMap
        (fun k => (Q t u).map (fun p => ((rowAddr size p k : Nat) : Int)))) :
    (ringTrace orig (64 * size)).flatMap (fun st => (stepTrace (64 * size) st).flatMap acc) =
      (List.range ((size + 1) / 2)).flatMap (fun t => (List.range (size / 2)).flatMap
        (fun u => (List.range 64).flatMap
          (fun k => (Q t u).map (fun p => ((rowAddr size p k : Nat) : Int))))) := by
  obtain ⟨hl, hv⟩ := ring_traces orig size hs hlen hb
  apply flatMap_eq_range_flatMap _ _ _ _ hl
  intro t ht
  obtain ⟨st, h1, _, hsl, hsv⟩ := hv t ht
  refine ⟨st, h1, ?_⟩
  apply flatMap_eq_range_flatMap _ _ _ _ hsl
  intro u hu
  obtain ⟨s, h2, hJ⟩ := hsv u hu
  refine ⟨s, h2, ?_⟩
  obtain ⟨s', hstep, _⟩ := ringStep_spec orig size t u s hb ht hu hJ
  exact hacc t u s s' ht hu hJ.2.2.2.2.2.2.2.1 hstep

/-- Among the rows of the blocks of the ring loop, taken in any order within a
step, a word offset occurs as often as its block among the positions of the
ring loop. -/
theorem count_ring (size q : Nat) (Q : Nat → Nat → List (Nat × Nat))
    (hQ : ∀ t u, t < (size + 1) / 2 → u < size / 2 → (Q t u).Perm (quadPos size t u)) :
    ((List.range ((size + 1) / 2)).flatMap (fun t => (List.range (size / 2)).flatMap
        (fun u => (List.range 64).flatMap
          (fun k => (Q t u).map (fun p => ((rowAddr size p k : Nat) : Int)))))).count (q : Int) =
      (ringPos size).count (q / size / 64, q % size) := by
  unfold ringPos
  apply count_flatMap_congr
  intro t ht
  apply count_flatMap_congr
  intro u hu
  have ht' := List.mem_range.mp ht
  have hu' := List.mem_range.mp hu
  rw [count_rows size q (Q t u) (fun p hp =>
    (quadPos_bounds size t u ht' hu' p ((hQ t u ht' hu').mem_iff.mp hp)).2)]
  exact (hQ t u ht' hu').countP_eq _

theorem count_center (size q : Nat) (hs : 0 < size) :
    ((List.range 64).map
        (fun k => ((rowAddr size (size / 2, size / 2) k : Nat) : Int))).count (q : Int) =
      ([(size / 2, size / 2)] : List (Nat × Nat)).count (q / size / 64, q % size) := by
  rw [List.map_eq_flatMap]
  exact count_rows size q [(size / 2, size / 2)] (fun p hp => by
    rw [List.mem_singleton] at hp
    subst hp
    show size / 2 < size
    omega)

/-- The accesses of a whole run, from the accesses of one ring step and of the
center step. -/
theorem run_accesses (orig : List Nat) (size : Nat) (hs : 0 < size)
    (hlen : orig.length = 8 * (64 * size * size)) (hb : isBytes orig)
    (acc : JState → List Int) (cacc : List Nat → List Nat → Nat → List Int)
    (Q : Nat → Nat → List (Nat × Nat))
    (hQ : ∀ t u, t < (size + 1) / 2 → u < size / 2 → (Q t u).Perm (quadPos size t u))
    (hacc : ∀ t u s s', t < (size + 1) / 2 → u < size / 2 → s.bp = ringPtrs size t u →
      ringStep (64 * size) size s = some s' →
      acc s = (List.range 64).flatMap
        (fun k => (Q t u).map (fun p => ((rowAddr size p k : Nat) : Int))))
    (hcacc : ∀ m b out, centerStep m b size = some out →
      cacc m b size =
        (List.range 64).map (fun k => ((rowAddr size (size / 2, size / 2) k : Nat) : Int))) :
    (∀ q, q < 64 * size * size →
      ((ringTrace orig (64 * size)).flatMap
          (fun st => (stepTrace (64 * size) st).flatMap acc) ++
        (if size &&& 1 ≠ 0 then
          match whileLoop (64 * size) (fun s : IState => decide (s.i < (size + 1) / 2))
              (ringBody (64 * size) size) (ringStart orig (64 * size)) with
          | some s1 => cacc s1.mem s1.blocks.block_1 size
          | none => []
        else [])).count (q : Int) = 1) ∧
      ∀ a, a ∈ (ringTrace orig (64 * size)).flatMap
          (fun st => (stepTrace (64 * size) st).flatMap acc) ++
        (if size &&& 1 ≠ 0 then
          match whileLoop (64 * size) (fun s : IState => decide (s.i < (size + 1) / 2))
              (ringBody (64 * size) size) (ringStart orig (64 * size)) with
          | some s1 => cacc s1.mem s1.blocks.block_1 size
          | none => []
        else []) → ∃ q, q < 64 * size * size ∧ a = (q : Int) := by
  obtain ⟨s1, hw, _, hlen1, hb1, l1, _, _, _, _, hm⟩ := iloop_spec orig size
    (ringStart orig (64 * size)) hb hs (ringStart_inv orig size hlen hb)
  have hcen : (if size &&& 1 ≠ 0 then
        match whileLoop (64 * size) (fun s : IState => decide (s.i < (size + 1) / 2))
            (ringBody (64 * size) size) (ringStart orig (64 * size)) with
        | some s1 => cacc s1.mem s1.blocks.block_1 size
        | none => []
      else []) =
      if size % 2 = 1 then
        (List.range 64).map (fun k => ((rowAddr size (size / 2, size / 2) k : Nat) : Int))
      else [] := by
    rw [hw, Nat.and_one_is_mod]
    by_cases hodd : size % 2 = 1
    · rw [if_pos (by omega), if_pos hodd]
      obtain ⟨out, ho, _⟩ :=
        centerStep_spec orig s1.mem size s1.blocks.block_1 hb hodd hlen1 hb1 l1 hm
      exact hcacc _ _ out ho
    · rw [if_neg (by omega), if_neg hodd]
  rw [hcen, ring_accesses orig size hs hlen hb acc Q hacc]
  constructor
  · intro q hq
    have hR : q / size / 64 < size := by
      rw [Nat.div_div_eq_div_mul, Nat.div_lt_iff_lt_mul (by omega)]
      calc q < 64 * size * size := hq
        _ = size * (size * 64) := by ring
    have hC : q % size < size := Nat.mod_lt _ hs
    refine Eq.trans ?_ (count_walkPos size _ _ hR hC)
    unfold walkPos
    rw [List.count_append, List.count_append, count_ring size q Q hQ]
    congr 1
    by_cases hodd : size % 2 = 1
    · rw [if_pos hodd, if_pos hodd]
      exact count_center size q hs
    · rw [if_neg hodd, if_neg hodd]
      rfl
  · intro a ha
    rcases List.mem_append.mp ha with h | h
    · obtain ⟨t, ht, h⟩ := List.mem_flatMap.mp h
      obtain ⟨u, hu, h⟩ := List.mem_flatMap.mp h
      obtain ⟨k, hk, h⟩ := List.mem_flatMap.mp h
      obtain ⟨p, hp, h⟩ := List.mem_map.mp h
      have ht' := List.mem_range.mp ht
      have hu' := List.mem_range.mp hu
      have hpb := quadPos_bounds size t u ht' hu' p ((hQ t u ht' hu').mem_iff.mp hp)
      exact ⟨_, rowAddr_lt size p k hpb.1 hpb.2 (List.mem_range.mp hk), h.symm⟩
    · split_ifs at h with hodd
      · obtain ⟨k, hk, h⟩ := List.mem_map.mp h
        exact ⟨_, rowAddr_lt size (size / 2, size / 2) k (by show size / 2 < size; omega)
          (by show size / 2 < size; omega) (List.mem_range.mp hk), h.symm⟩
      · exact absurd h (List.not_mem_nil _)

theorem runReads_once (orig : List Nat) (size : Nat) (hs : 0 < size)
    (hlen : orig.length = 8 * (64 * size * size)) (hb : isBytes orig) :
    (∀ q, q < 64 * size * size → (runReads orig (64 * size)).count (q : Int) = 1) ∧
      ∀ a, a ∈ runReads orig (64 * size) → ∃ q, q < 64 * size * size ∧ a = (q : Int) := by
  have h := run_accesses orig size hs hlen hb (stepReads size) centerReads
    (fun t u => quadPos size t u) (fun _ _ _ _ => List.Perm.refl _)
    (fun t u s s' ht hu hp hstep => by
      rw [stepReads_eq _ _ s s' hstep, hp]
      congr 1
      funext k
      exact fillReads_quad size t u k ht hu)
    (fun m b out ho => centerReads_eq m b out size ho)
  unfold runReads
  rw [size_shift]
  exact h

theorem runWrites_once (orig : List Nat) (size : Nat) (hs : 0 < size)
    (hlen : orig.length = 8 * (64 * size * size)) (hb : isBytes orig) :
    (∀ q, q < 64 * size * size → (runWrites orig (64 * size)).count (q : Int) = 1) ∧
      ∀ a, a ∈ runWrites orig (64 * size) → ∃ q, q < 64 * size * size ∧ a = (q : Int) := by
  have h := run_accesses orig size hs hlen hb (stepWrites (64 * size) size) centerWrites
    (fun t u => [(u, size - 1 - t), (size - 1 - t, size - 1 - u), (size - 1 - u, t), (t, u)])
    (fun t u _ _ => by
      unfold quadPos
      exact (List.perm_append_comm :
        ([(u, size - 1 - t), (size - 1 - t, size - 1 - u), (size - 1 - u, t)] ++ [(t, u)]).Perm
          ([(t, u)] ++ [(u, size - 1 - t), (size - 1 - t, size - 1 - u), (size - 1 - u, t)])))
    (fun t u s s' ht hu hp hstep => by
      rw [stepWrites_eq _ _ s s' hstep, hp]
      congr 1
      funext k
      exact writeStores_quad size t u k ht hu)
    (fun m b out ho => centerWrites_eq m b out size ho)
  unfold runWrites
  rw [size_shift]
  exact h

/-- The ring steps that are executed, and what each of them loads and stores:
on entry of step `j` of ring `i` and for every `k < 64`, the offsets listed by
`fillReads` and `writeStores` are those of row `k` of the four blocks of
`quadPos size i j`, and on every buffer of the same size `fillStep` loads
exactly the words at these offsets and `writeStep` stores exactly to them. -/
theorem ring_step_accesses (orig : List Nat) (size : Nat) (hs : 0 < size)
    (hlen : orig.length = 8 * (64 * size * size)) (hb : isBytes orig) :
    (ringTrace orig (64 * size)).length = (size + 1) / 2 ∧
      ∀ i, i < (size + 1) / 2 → ∃ st, (ringTrace orig (64 * size))[i]? = some st ∧
        (stepTrace (64 * size) st).length = size / 2 ∧
        ∀ j, j < size / 2 → ∃ s, (stepTrace (64 * size) st)[j]? = some s ∧
          ∀ k, k < 64 →
            fillReads size s.bp k =
              [((i * 64 * size + j + k * size : Nat) : Int),
               ((j * 64 * size + (size - 1 - i) + k * size : Nat) : Int),
               (((size - 1 - i) * 64 * size + (size - 1 - j) + k * size : Nat) : Int),
               (((size - 1 - j) * 64 * size + i + k * size : Nat) : Int)] ∧
            writeStores size s.bp k =
              [((j * 64 * size + (size - 1 - i) + k * size : Nat) : Int),
               (((size - 1 - i) * 64 * size + (size - 1 - j) + k * size : Nat) : Int),
               (((size - 1 - j) * 64 * size + i + k * size : Nat) : Int),
               ((i * 64 * size + j + k * size : Nat) : Int)] ∧
            ∀ (m : List Nat) (b : Scratch), m.length = orig.length →
              b.block_1.length = 64 → b.block_2.length = 64 →
              b.block_3.length = 64 → b.block_4.length = 64 →
              fillStep m size s.bp (b, k) =
                some ({ block_1 := b.block_1.set k (word m (i * 64 * size + j + k * size)),
                        block_2 := b.block_2.set k
                          (word m (j * 64 * size + (size - 1 - i) + k * size)),
                        block_3 := b.block_3.set k
                          (word m ((size - 1 - i) * 64 * size + (size - 1 - j) + k * size)),
                        block_4 := b.block_4.set k
                          (word m ((size - 1 - j) * 64 * size + i + k * size)) }, k + 1) ∧
              writeStep b size s.bp (m, k) =
                some (storeLE 8 (storeLE 8 (storeLE 8 (storeLE 8 m
                  (8 * (j * 64 * size + (size - 1 - i) + k * size))
                    (b.block_1.getD (63 - k) 0))
                  (8 * ((size - 1 - i) * 64 * size + (size - 1 - j) + k * size))
                    (b.block_2.getD (63 - k) 0))
                  (8 * ((size - 1 - j) * 64 * size + i + k * size))
                    (b.block_3.getD (63 - k) 0))
                  (8 * (i * 64 * size + j + k * size)) (b.block_4.getD (63 - k) 0), k + 1) := by
  obtain ⟨hl, hv⟩ := ring_traces orig size hs hlen hb
  refine ⟨hl, ?_⟩
  intro i hi
  obtain ⟨st, h1, _, hsl, hsv⟩ := hv i hi
  refine ⟨st, h1, hsl, ?_⟩
  intro j hj
  obtain ⟨s, h2, hJ⟩ := hsv j hj
  refine ⟨s, h2, ?_⟩
  have hp : s.bp = ringPtrs size i j := hJ.2.2.2.2.2.2.2.1
  obtain ⟨q1, q2, q3, _, _⟩ := quad_bounds size i j hi hj
  intro k hk
  obtain ⟨r1, r2, r3, r4⟩ := ringPtrs_rows size i j k q1 q2
  have i1 := row_inb size i j k (by omega) (by omega) hk
  have i2 := row_inb size j (size - 1 - i) k (by omega) (by omega) hk
  have i3 := row_inb size (size - 1 - i) (size - 1 - j) k (by omega) (by omega) hk
  have i4 := row_inb size (size - 1 - j) i k (by omega) (by omega) hk
  rw [hp]
  refine ⟨by simp only [fillReads, r1, r2, r3, r4],
    by simp only [writeStores, r1, r2, r3, r4], ?_⟩
  intro m b hm l1 l2 l3 l4
  exact ⟨fillStep_rows m size _ b k _ _ _ _ l1 l2 l3 l4 hk r1 r2 r3 r4
      (by rw [hm, hlen]; exact i1) (by rw [hm, hlen]; exact i2) (by rw [hm, hlen]; exact i3)
      (by rw [hm, hlen]; exact i4),
    writeStep_rows m size _ b k _ _ _ _ l1 l2 l3 l4 hk r1 r2 r3 r4
      (by rw [hm, hlen]; exact i1) (by rw [hm, hlen]; exact i2) (by rw [hm, hlen]; exact i3)
      (by rw [hm, hlen]; exact i4)⟩

/-- The center step of an odd grid, and what it loads and stores. -/
theorem center_step_accesses (orig : List Nat) (size : Nat) (hs : 0 < size)
    (hlen : orig.length = 8 * (64 * size * size)) (hb : isBytes orig)
    (hodd : size % 2 = 1) :
    ∃ s1, whileLoop (64 * size) (fun s : IState => decide (s.i < (size + 1) / 2))
        (ringBody (64 * size) size) (ringStart orig (64 * size)) = some s1 ∧
      centerReads s1.mem s1.blocks.block_1 size =
        (List.range 64).map
          (fun k => (((size / 2) * 64 * size + size / 2 + k * size : Nat) : Int)) ∧
      centerWrites s1.mem s1.blocks.block_1 size =
        (List.range 64).map
          (fun k => (((size / 2) * 64 * size + size / 2 + k * size : Nat) : Int)) := by
  obtain ⟨s1, hw, _, hlen1, hb1, l1, _, _, _, _, hm⟩ := iloop_spec orig size
    (ringStart orig (64 * size)) hb hs (ringStart_inv orig size hlen hb)
  obtain ⟨out, ho, _⟩ :=
    centerStep_spec orig s1.mem size s1.blocks.block_1 hb hodd hlen1 hb1 l1 hm
  exact ⟨s1, hw, centerReads_eq _ _ out size ho, centerWrites_eq _ _ out size ho⟩

/-- C13: every block is handled exactly once. For every `size >= 1` the block
positions (`i`, `j`), (`j`, `size - 1 - i`), (`size - 1 - i`, `size - 1 - j`),
(`size - 1 - j`, `i`) over all `i < (size + 1) / 2` and `j < size / 2`, together
with the center position (`size / 2`, `size / 2`) when `size` is odd, are
pairwise distinct and are exactly the `size * size` positions of the grid; the
positions of the ring loop alone are all of the grid when `size` is even and
all but the center when `size` is odd. On every buffer of `64 * size` rows of
`size` words `rotate_bit_matrix` returns a buffer in which the slot of block
(`c`, `size - 1 - r`) holds the rows of `transpose_64` of the original block
(`r`, `c`) in reverse order, for every position of the grid. The loop over `i`
is entered `(size + 1) / 2` times and in each the loop over `j` is entered
`size / 2` times; in step `j` of ring `i`, for every `k < 64`, `fillStep` loads
exactly the words at the offsets of row `k` of the four blocks of the step and
`writeStep` stores exactly to them, and these are the offsets that `fillReads`
and `writeStores` list; the center step does the same with the rows of block
(`size / 2`, `size / 2`). Over the whole run every word offset below
`64 * size * size` is loaded exactly once and stored exactly once, and no other
offset is accessed. -/
theorem blocks_handled_once (size : Nat) (mem : List Nat) (hs : 1 ≤ size)
    (hlen : mem.length = 8 * (64 * size * size)) (hb : ∀ b ∈ mem, b < 256) :
    (walkPos size).Nodup ∧
      (∀ r c, (r, c) ∈ walkPos size ↔ r < size ∧ c < size) ∧
      (walkPos size).length = size * size ∧
      (size % 2 = 0 → ∀ r c, r < size → c < size → (r, c) ∈ ringPos size) ∧
      (size % 2 = 1 → ∀ r c, r < size → c < size →
        ((r, c) ∈ ringPos size ↔ ¬ (r = size / 2 ∧ c = size / 2))) ∧
      (∃ out, rotate_bit_matrix mem (64 * size) = some out ∧
        ∀ r c, r < size → c < size →
          ∃ B t, B.length = 64 ∧
            (∀ m : Nat, m < 64 →
              load64 mem ((r * 64 * size + c + m * size : Nat) : Int) =
                some (B.getD m 0)) ∧
            transpose_64 B = some t ∧
            ∀ k : Nat, k < 64 →
              load64 out ((c * 64 * size + (size - 1 - r) + k * size : Nat) : Int) =
                some (t.getD (63 - k) 0)) ∧
      ((ringTrace mem (64 * size)).length = (size + 1) / 2 ∧
          ∀ i, i < (size + 1) / 2 → ∃ st, (ringTrace mem (64 * size))[i]? = some st ∧
            (stepTrace (64 * size) st).length = size / 2 ∧
            ∀ j, j < size / 2 → ∃ s, (stepTrace (64 * size) st)[j]? = some s ∧
              ∀ k, k < 64 →
                fillReads size s.bp k =
                  [((i * 64 * size + j + k * size : Nat) : Int),
                   ((j * 64 * size + (size - 1 - i) + k * size : Nat) : Int),
                   (((size - 1 - i) * 64 * size + (size - 1 - j) + k * size : Nat) : Int),
                   (((size - 1 - j) * 64 * size + i + k * size : Nat) : Int)] ∧
                writeStores size s.bp k =
                  [((j * 64 * size + (size - 1 - i) + k * size : Nat) : Int),
                   (((size - 1 - i) * 64 * size + (size - 1 - j) + k * size : Nat) : Int),
                   (((size - 1 - j) * 64 * size + i + k * size : Nat) : Int),
                   ((i * 64 * size + j + k * size : Nat) : Int)] ∧
                ∀ (m : List Nat) (b : Scratch), m.length = mem.length →
                  b.block_1.length = 64 → b.block_2.length = 64 →
                  b.block_3.length = 64 → b.block_4.length = 64 →
                  fillStep m size s.bp (b, k) =
                    some ({ block_1 := b.block_1.set k (word m (i * 64 * size + j + k * size)),
                            block_2 := b.block_2.set k
                              (word m (j * 64 * size + (size - 1 - i) + k * size)),
                            block_3 := b.block_3.set k
                              (word m ((size - 1 - i) * 64 * size + (size - 1 - j) + k * size)),
                            block_4 := b.block_4.set k
                              (word m ((size - 1 - j) * 64 * size + i + k * size)) }, k + 1) ∧
                  writeStep b size s.bp (m, k) =
                    some (storeLE 8 (storeLE 8 (storeLE 8 (storeLE 8 m
                      (8 * (j * 64 * size + (size - 1 - i) + k * size))
                        (b.block_1.getD (63 - k) 0))
                      (8 * ((size - 1 - i) * 64 * size + (size - 1 - j) + k * size))
                        (b.block_2.getD (63 - k) 0))
                      (8 * ((size - 1 - j) * 64 * size + i + k * size))
                        (b.block_3.getD (63 - k) 0))
                      (8 * (i * 64 * size + j + k * size)) (b.block_4.getD (63 - k) 0), k + 1)) ∧
      (size % 2 = 1 →
        ∃ s1, whileLoop (64 * size) (fun s : IState => decide (s.i < (size + 1) / 2))
            (ringBody (64 * size) size) (ringStart mem (64 * size)) = some s1 ∧
          centerReads s1.mem s1.blocks.block_1 size =
            (List.range 64).map
              (fun k => (((size / 2) * 64 * size + size / 2 + k * size : Nat) : Int)) ∧
          centerWrites s1.mem s1.blocks.block_1 size =
            (List.range 64).map
              (fun k => (((size / 2) * 64 * size + size / 2 + k * size : Nat) : Int))) ∧
      (∀ (m b t : List Nat) (k : Nat), m.length = mem.length → b.length = 64 →
        t.length = 64 → k < 64 →
        centerStep m b size =
          (whileLoop BASE (fun st => decide (st.2 < BASE))
            (centerFillStep m size
              (((size / 2) * 64 * size + size / 2 : Nat) : Int)) (b, 0)).bind
          (fun f => (transpose_64 f.1).bind
            (fun t => (whileLoop BASE (fun st => decide (st.2 < BASE))
              (centerWriteStep t size
                (((size / 2) * 64 * size + size / 2 : Nat) : Int))
              (m, 0)).bind (fun w => some w.1))) ∧
        centerFillStep m size (((size / 2) * 64 * size + size / 2 : Nat) : Int) (b, k) =
          some (b.set k (word m ((size / 2) * 64 * size + size / 2 + k * size)), k + 1) ∧
        centerWriteStep t size (((size / 2) * 64 * size + size / 2 : Nat) : Int) (m, k) =
          some (storeLE 8 m (8 * ((size / 2) * 64 * size + size / 2 + k * size))
            (t.getD (63 - k) 0), k + 1)) ∧
      (∀ q : Nat, q < 64 * size * size →
        (runReads mem (64 * size)).count (q : Int) = 1 ∧
        (runWrites mem (64 * size)).count (q : Int) = 1) ∧
      (∀ a, a ∈ runReads mem (64 * size) ∨ a ∈ runWrites mem (64 * size) →
        ∃ q : Nat, q < 64 * size * size ∧ a = (q : Int)) := by
  have hbm := isBytes_of_forall_mem mem hb
  obtain ⟨r1, r2⟩ := runReads_once mem size hs hlen hbm
  obtain ⟨w1, w2⟩ := runWrites_once mem size hs hlen hbm
  obtain ⟨out, ho, _, hblocks⟩ := block_words mem size hs hlen hbm
  refine ⟨walkPos_nodup size, mem_walkPos size, walkPos_length size, ?_, ?_, ⟨out, ho, ?_⟩,
    ring_step_accesses mem size hs hlen hbm,
    fun hodd => center_step_accesses mem size hs hlen hbm hodd, ?_,
    fun q hq => ⟨r1 q hq, w1 q hq⟩, ?_⟩
  · intro he r c hr hc
    exact (mem_ringPos_grid size r c hr hc).mpr (by omega)
  · intro ho r c hr hc
    rw [mem_ringPos_grid size r c hr hc]
    constructor
    · intro h hcen
      exact h ⟨ho, hcen⟩
    · intro h hcen
      exact h hcen.2
  · intro r c hr hc
    obtain ⟨h1, h2, h3, h4⟩ := hblocks r c hr hc
    exact ⟨_, _, h1, h2, h3, h4⟩
  · intro m b t k hm hbl htl hk
    obtain ⟨c1, c2⟩ := center_rows m b t size k hs (by rw [hm, hlen]) hbl htl hk
    exact ⟨centerStep_ptr m b size, c1, c2⟩
  · rintro a (ha | ha)
    · exact r2 a ha
    · exact w2 a ha

theorem blocks_handled_once_witness :
    (walkPos 3).Nodup ∧
      (∀ r c, (r, c) ∈ walkPos 3 ↔ r < 3 ∧ c < 3) ∧
      (walkPos 3).length = 3 * 3 ∧
      (3 % 2 = 0 → ∀ r c, r < 3 → c < 3 → (r, c) ∈ ringPos 3) ∧
      (3 % 2 = 1 → ∀ r c, r < 3 → c < 3 →
        ((r, c) ∈ ringPos 3 ↔ ¬ (r = 3 / 2 ∧ c = 3 / 2))) ∧
      (∃ out, rotate_bit_matrix (List.replicate 4608 0x5A) (64 * 3) = some out ∧
        ∀ r c, r < 3 → c < 3 →
          ∃ B t, B.length = 64 ∧
            (∀ m : Nat, m < 64 →
              load64 (List.replicate 4608 0x5A) ((r * 64 * 3 + c + m * 3 : Nat) : Int) =
                some (B.getD m 0)) ∧
            transpose_64 B = some t ∧
            ∀ k : Nat, k < 64 →
              load64 out ((c * 64 * 3 + (3 - 1 - r) + k * 3 : Nat) : Int) =
                some (t.getD (63 - k) 0)) ∧
      ((ringTrace (List.replicate 4608 0x5A) (64 * 3)).length = (3 + 1) / 2 ∧
          ∀ i, i < (3 + 1) / 2 → ∃ st, (ringTrace (List.replicate 4608 0x5A) (64 * 3))[i]? = some
              st ∧
            (stepTrace (64 * 3) st).length = 3 / 2 ∧
            ∀ j, j < 3 / 2 → ∃ s, (stepTrace (64 * 3) st)[j]? = some s ∧
              ∀ k, k < 64 →
                fillReads 3 s.bp k =
                  [((i * 64 * 3 + j + k * 3 : Nat) : Int),
                   ((j * 64 * 3 + (3 - 1 - i) + k * 3 : Nat) : Int),
                   (((3 - 1 - i) * 64 * 3 + (3 - 1 - j) + k * 3 : Nat) : Int),
                   (((3 - 1 - j) * 64 * 3 + i + k * 3 : Nat) : Int)] ∧
                writeStores 3 s.bp k =
                  [((j * 64 * 3 + (3 - 1 - i) + k * 3 : Nat) : Int),
                   (((3 - 1 - i) * 64 * 3 + (3 - 1 - j) + k * 3 : Nat) : Int),
                   (((3 - 1 - j) * 64 * 3 + i + k * 3 : Nat) : Int),
                   ((i * 64 * 3 + j + k * 3 : Nat) : Int)] ∧
                ∀ (m : List Nat) (b : Scratch), m.length = (List.replicate 4608 0x5A).length →
                  b.block_1.length = 64 → b.block_2.length = 64 →
                  b.block_3.length = 64 → b.block_4.length = 64 →
                  fillStep m 3 s.bp (b, k) =
                    some ({ block_1 := b.block_1.set k (word m (i * 64 * 3 + j + k * 3)),
                            block_2 := b.block_2.set k
                              (word m (j * 64 * 3 + (3 - 1 - i) + k * 3)),
                            block_3 := b.block_3.set k
                              (word m ((3 - 1 - i) * 64 * 3 + (3 - 1 - j) + k * 3)),
                            block_4 := b.block_4.set k
                              (word m ((3 - 1 - j) * 64 * 3 + i + k * 3)) }, k + 1) ∧
                  writeStep b 3 s.bp (m, k) =
                    some (storeLE 8 (storeLE 8 (storeLE 8 (storeLE 8 m
                      (8 * (j * 64 * 3 + (3 - 1 - i) + k * 3))
                        (b.block_1.getD (63 - k) 0))
                      (8 * ((3 - 1 - i) * 64 * 3 + (3 - 1 - j) + k * 3))
                        (b.block_2.getD (63 - k) 0))
                      (8 * ((3 - 1 - j) * 64 * 3 + i + k * 3))
                        (b.block_3.getD (63 - k) 0))
                      (8 * (i * 64 * 3 + j + k * 3)) (b.block_4.getD (63 - k) 0), k + 1)) ∧
      (3 % 2 = 1 →
        ∃ s1, whileLoop (64 * 3) (fun s : IState => decide (s.i < (3 + 1) / 2))
            (ringBody (64 * 3) 3) (ringStart (List.replicate 4608 0x5A) (64 * 3)) = some s1 ∧
          centerReads s1.mem s1.blocks.block_1 3 =
            (List.range 64).map
              (fun k => (((3 / 2) * 64 * 3 + 3 / 2 + k * 3 : Nat) : Int)) ∧
          centerWrites s1.mem s1.blocks.block_1 3 =
            (List.range 64).map
              (fun k => (((3 / 2) * 64 * 3 + 3 / 2 + k * 3 : Nat) : Int))) ∧
      (∀ (m b t : List Nat) (k : Nat), m.length = (List.replicate 4608 0x5A).length → b.length = 64
          →
        t.length = 64 → k < 64 →
        centerStep m b 3 =
          (whileLoop BASE (fun st => decide (st.2 < BASE))
            (centerFillStep m 3
              (((3 / 2) * 64 * 3 + 3 / 2 : Nat) : Int)) (b, 0)).bind
          (fun f => (transpose_64 f.1).bind
            (fun t => (whileLoop BASE (fun st => decide (st.2 < BASE))
              (centerWriteStep t 3
                (((3 / 2) * 64 * 3 + 3 / 2 : Nat) : Int))
              (m, 0)).bind (fun w => some w.1))) ∧
        centerFillStep m 3 (((3 / 2) * 64 * 3 + 3 / 2 : Nat) : Int) (b, k) =
          some (b.set k (word m ((3 / 2) * 64 * 3 + 3 / 2 + k * 3)), k + 1) ∧
        centerWriteStep t 3 (((3 / 2) * 64 * 3 + 3 / 2 : Nat) : Int) (m, k) =
          some (storeLE 8 m (8 * ((3 / 2) * 64 * 3 + 3 / 2 + k * 3))
            (t.getD (63 - k) 0), k + 1)) ∧
      (∀ q : Nat, q < 64 * 3 * 3 →
        (runReads (List.replicate 4608 0x5A) (64 * 3)).count (q : Int) = 1 ∧
        (runWrites (List.replicate 4608 0x5A) (64 * 3)).count (q : Int) = 1) ∧
      (∀ a, a ∈ runReads (List.replicate 4608 0x5A) (64 * 3) ∨ a ∈ runWrites (List.replicate 4608
          0x5A) (64 * 3) →
        ∃ q : Nat, q < 64 * 3 * 3 ∧ a = (q : Int)) :=
  blocks_handled_once 3 (List.replicate 4608 0x5A) (by decide)
    (replicate_length_eq _ _ _ (by decide)) (replicate_bytes _ _ (by decide))

/-! ## The other bit-to-column convention -/

theorem getD_single (n a v k : Nat) (ha : a < n) :
    ((List.replicate n 0).set a v).getD k 0 = if k = a then v else 0 := by
  rw [getD_set_nat, List.length_replicate]
  by_cases h : k = a
  · subst h
    rw [if_pos ⟨rfl, ha⟩, if_pos rfl]
  · rw [if_neg (fun hc => h hc.1.symm), if_neg h]
    by_cases hk : k < n
    · exact getD_replicate_nat n 0 k hk
    · exact List.getD_eq_default _ _ (by rw [List.length_replicate]; omega)

theorem single_bytes (n a v : Nat) (hv : v < 256) :
    ∀ b ∈ (List.replicate n 0).set a v, b < 256 := by
  intro b hb
  rcases List.mem_or_eq_of_mem_set hb with h | h
  · simp only [List.mem_replicate] at h; omega
  · omega

theorem one_testBit (b : Nat) : (1 : Nat).testBit b = decide (b = 0) := by
  have := @Nat.testBit_two_pow 0 b
  simpa [eq_comm] using this

theorem cell_single (a i j : Nat) (ha : a < 512) :
    cell ((List.replicate 512 0).set a 1) 64 i j =
      decide (i * 8 + j / 8 = a ∧ 7 - j % 8 = 0) := by
  unfold cell
  rw [show 64 / 8 = 8 from rfl, getD_single 512 a 1 _ ha]
  by_cases h : i * 8 + j / 8 = a
  · rw [if_pos h, one_testBit]
    simp [h]
  · rw [if_neg h]
    simp [h]

theorem cellLSB_single (a i j : Nat) (ha : a < 512) (hj : j < 64) :
    cellLSB ((List.replicate 512 0).set a 1) 64 i j =
      decide (8 * i + j / 8 = a ∧ j % 8 = 0) := by
  unfold cellLSB
  rw [show 64 / 64 = 1 from rfl, Nat.mod_eq_of_lt hj, Nat.div_eq_of_lt hj, Nat.mul_one,
    Nat.add_zero,
    word_testBit _ _ _ (isBytes_of_forall_mem _ (single_bytes 512 a 1 (by decide))) hj,
    getD_single 512 a 1 _ ha]
  by_cases h : 8 * i + j / 8 = a
  · rw [if_pos h, one_testBit]
    simp [h]
  · rw [if_neg h]
    simp [h]

/-- C21: the rotation is the clockwise one only when columns are numbered from
the most-significant bit of each byte. For `N = 64`, on the buffer whose only
set bit is bit 0 of word 0, `rotate_bit_matrix` returns the buffer whose only
set bit is bit 56 of word 7. With cell (`i`, `j`) read as bit `j` of word `i`
the input is the matrix with only cell (0, 0) set and the output has only cell
(7, 56) set, while the clockwise rotation has only cell (0, 63) set; with the
most-significant-bit-first reading of `cell` the same output is the clockwise
rotation of the same input. -/
theorem lsb_first_reading_fails :
    rotate_bit_matrix ((List.replicate 512 0).set 0 1) 64 =
        some ((List.replicate 512 0).set 63 1) ∧
      load64 ((List.replicate 512 0).set 0 1) 0 = some 1 ∧
      load64 ((List.replicate 512 0).set 63 1) 7 = some (2 ^ 56) ∧
      (∀ i j, i < 64 → j < 64 →
        cellLSB ((List.replicate 512 0).set 0 1) 64 i j = decide (i = 0 ∧ j = 0)) ∧
      (∀ i j, i < 64 → j < 64 →
        cellLSB ((List.replicate 512 0).set 63 1) 64 i j = decide (i = 7 ∧ j = 56)) ∧
      cellLSB ((List.replicate 512 0).set 63 1) 64 0 63 = false ∧
      cellLSB ((List.replicate 512 0).set 0 1) 64 (64 - 1 - 63) 0 = true ∧
      ¬ (∀ i j, i < 64 → j < 64 →
        cellLSB ((List.replicate 512 0).set 63 1) 64 i j =
          cellLSB ((List.replicate 512 0).set 0 1) 64 (64 - 1 - j) i) ∧
      ∀ i j, i < 64 → j < 64 →
        cell ((List.replicate 512 0).set 63 1) 64 i j =
          cell ((List.replicate 512 0).set 0 1) 64 (64 - 1 - j) i := by
  have hin : ∀ i j, i < 64 → j < 64 →
      cellLSB ((List.replicate 512 0).set 0 1) 64 i j = decide (i = 0 ∧ j = 0) := by
    intro i j _ hj
    rw [cellLSB_single 0 i j (by decide) hj]
    have : (8 * i + j / 8 = 0 ∧ j % 8 = 0) ↔ (i = 0 ∧ j = 0) := by
      constructor <;> intro h <;> omega
    simp only [this]
  have hout : ∀ i j, i < 64 → j < 64 →
      cellLSB ((List.replicate 512 0).set 63 1) 64 i j = decide (i = 7 ∧ j = 56) := by
    intro i j _ hj
    rw [cellLSB_single 63 i j (by decide) hj]
    have : (8 * i + j / 8 = 63 ∧ j % 8 = 0) ↔ (i = 7 ∧ j = 56) := by
      constructor <;> intro h <;> omega
    simp only [this]
  have hmsb : ∀ i j, i < 64 → j < 64 →
      cell ((List.replicate 512 0).set 63 1) 64 i j =
        cell ((List.replicate 512 0).set 0 1) 64 (64 - 1 - j) i := by
    intro i j hi hj
    rw [cell_single 63 i j (by decide), cell_single 0 _ i (by decide)]
    have : (i * 8 + j / 8 = 63 ∧ 7 - j % 8 = 0) ↔
        ((64 - 1 - j) * 8 + i / 8 = 0 ∧ 7 - i % 8 = 0) := by
      constructor <;> intro h <;> omega
    simp only [this]
  have h0 : cellLSB ((List.replicate 512 0).set 63 1) 64 0 63 = false := by
    rw [hout 0 63 (by decide) (by decide)]; decide
  have h1 : cellLSB ((List.replicate 512 0).set 0 1) 64 (64 - 1 - 63) 0 = true := by
    rw [hin _ 0 (by decide) (by decide)]; decide
  refine ⟨?_, ?_, ?_, hin, hout, h0, h1, ?_, hmsb⟩
  · have hb := single_bytes 512 0 1 (by decide)
    have hb' := single_bytes 512 63 1 (by decide)
    obtain ⟨out, hr, hl, hob, hv⟩ := rotate_ok 64 ((List.replicate 512 0).set 0 1) (by decide)
      (by decide) (by rw [List.length_set, List.length_replicate]) hb
    have : out = (List.replicate 512 0).set 63 1 :=
      buf_ext_N 64 _ _ (by decide) (by decide) hl
        (by rw [List.length_set, List.length_replicate]) hob hb'
        (fun i j hi hj => by rw [hv i j hi hj, hmsb i j hi hj])
    rw [hr, this]
  · rw [show (0 : Int) = ((0 : Nat) : Int) from rfl,
      load64_eq _ 0 (by rw [List.length_set, List.length_replicate]; decide)]
    congr 1
  · rw [show (7 : Int) = ((7 : Nat) : Int) from rfl,
      load64_eq _ 7 (by rw [List.length_set, List.length_replicate]; decide)]
    congr 1
  · intro h
    have := h 0 63 (by decide) (by decide)
    rw [h0, h1] at this
    exact Bool.noConfusion this

/-! ## Linearity over XOR -/

theorem xorBuf_length (A B : List Nat) (n : Nat) (hA : A.length = n) (hB : B.length = n) :
    (xorBuf A B).length = n := by
  simp [xorBuf, hA, hB]

theorem xorBuf_getD (A B : List Nat) (h : A.length = B.length) (x : Nat) :
    (xorBuf A B).getD x 0 = A.getD x 0 ^^^ B.getD x 0 := by
  by_cases hx : x < A.length
  · have hx' : x < B.length := by omega
    have hz : x < (xorBuf A B).length := by simp [xorBuf, hx, hx']
    rw [List.getD_eq_getElem _ _ hz, List.getD_eq_getElem _ _ hx, List.getD_eq_getElem _ _ hx']
    simp [xorBuf]
  · rw [List.getD_eq_default _ _ (by simp [xorBuf]; omega),
      List.getD_eq_default _ _ (by omega), List.getD_eq_default _ _ (by omega)]
    rfl

theorem xorBuf_lt (A B : List Nat) (w : Nat) (hA : ∀ a ∈ A, a < 2 ^ w)
    (hB : ∀ b ∈ B, b < 2 ^ w) : ∀ c ∈ xorBuf A B, c < 2 ^ w := by
  intro c hc
  simp only [xorBuf, List.mem_iff_getElem, List.getElem_zipWith, List.length_zipWith] at hc
  obtain ⟨i, hi, rfl⟩ := hc
  exact Nat.xor_lt_two_pow (hA _ (List.getElem_mem _)) (hB _ (List.getElem_mem _))

theorem cell_xorBuf (A B : List Nat) (h : A.length = B.length) (N i j : Nat) :
    cell (xorBuf A B) N i j = xor (cell A N i j) (cell B N i j) := by
  unfold cell
  rw [xorBuf_getD A B h, Nat.testBit_xor]

theorem getD_lt_of_mem (A : List Nat) (w : Nat) (hA : ∀ a ∈ A, a < 2 ^ w) (x : Nat) :
    A.getD x 0 < 2 ^ w := by
  by_cases hx : x < A.length
  · rw [List.getD_eq_getElem _ _ hx]
    exact hA _ (List.getElem_mem _)
  · rw [List.getD_eq_default _ _ (by omega)]
    exact Nat.two_pow_pos w

theorem transpose_64_xor (X Y : List Nat) (hX : X.length = 64) (hY : Y.length = 64)
    (bX : ∀ x ∈ X, x < 2 ^ 64) (bY : ∀ y ∈ Y, y < 2 ^ 64) :
    ∃ tx ty, transpose_64 X = some tx ∧ transpose_64 Y = some ty ∧
      transpose_64 (xorBuf X Y) = some (xorBuf tx ty) := by
  obtain ⟨tx, hx, lx, vx, wx⟩ := transpose_64_spec X hX
  obtain ⟨ty, hy, ly, vy, wy⟩ := transpose_64_spec Y hY
  obtain ⟨tz, hz, lz, vz, wz⟩ := transpose_64_spec (xorBuf X Y) (xorBuf_length X Y 64 hX hY)
  refine ⟨tx, ty, hx, hy, ?_⟩
  have hxy : X.length = Y.length := by rw [hX, hY]
  have htt : tx.length = ty.length := by rw [lx, ly]
  have e : tz = xorBuf tx ty := by
    apply list_ext_getD _ _ 64 lz (xorBuf_length tx ty 64 lx ly)
    intro i hi
    rw [xorBuf_getD tx ty htt]
    apply Nat.eq_of_testBit_eq
    intro p
    rw [Nat.testBit_xor]
    by_cases hp : p < 64
    · rw [vz i hi p hp, vx i hi p hp, vy i hi p hp, xorBuf_getD X Y hxy, Nat.testBit_xor]
    · have z1 := wz (getD_lt_of_mem _ 64 (xorBuf_lt X Y 64 bX bY)) i
      have z2 := wx (getD_lt_of_mem _ 64 bX) i
      have z3 := wy (getD_lt_of_mem _ 64 bY) i
      rw [testBit_false_of_ge _ 64 p z1 (by omega), testBit_false_of_ge _ 64 p z2 (by omega),
        testBit_false_of_ge _ 64 p z3 (by omega)]
      rfl
  rw [hz, e]

/-- C22: `rotate_bit_matrix` and `transpose_64` are linear over XOR. For
every `N` that is a positive multiple of 64 and all buffers `A`, `B` of
`N * (N / 8)` bytes, `rotate_bit_matrix` returns on `A`, on `B` and on their
bytewise XOR, and the third result is the bytewise XOR of the first two; for
all blocks `X`, `Y` of 64 words of 64 bits, `transpose_64` returns on `X`, on
`Y` and on their wordwise XOR, and the third result is the wordwise XOR of the
first two. -/
theorem rotate_xor (N : Nat) (A B : List Nat) (hN : 0 < N) (h64 : N % 64 = 0)
    (hA : A.length = N * (N / 8)) (hB : B.length = N * (N / 8))
    (bA : ∀ a ∈ A, a < 256) (bB : ∀ b ∈ B, b < 256) :
    (∃ oa ob, rotate_bit_matrix A N = some oa ∧ rotate_bit_matrix B N = some ob ∧
        rotate_bit_matrix (xorBuf A B) N = some (xorBuf oa ob)) ∧
      ∀ X Y : List Nat, X.length = 64 → Y.length = 64 →
        (∀ x ∈ X, x < 2 ^ 64) → (∀ y ∈ Y, y < 2 ^ 64) →
        ∃ tx ty, transpose_64 X = some tx ∧ transpose_64 Y = some ty ∧
          transpose_64 (xorBuf X Y) = some (xorBuf tx ty) := by
  refine ⟨?_, transpose_64_xor⟩
  have hAB : A.length = B.length := by rw [hA, hB]
  have bC : ∀ c ∈ xorBuf A B, c < 256 := xorBuf_lt A B 8 bA bB
  obtain ⟨oa, ra, la, ba, va⟩ := rotate_ok N A hN h64 hA bA
  obtain ⟨ob, rb, lb, bb, vb⟩ := rotate_ok N B hN h64 hB bB
  obtain ⟨oc, rc, lc, bc, vc⟩ := rotate_ok N (xorBuf A B) hN h64 (xorBuf_length A B _ hA hB) bC
  refine ⟨oa, ob, ra, rb, ?_⟩
  have e : oc = xorBuf oa ob :=
    buf_ext_N N _ _ hN h64 lc (xorBuf_length oa ob _ la lb) bc (xorBuf_lt oa ob 8 ba bb)
      (fun i j hi hj => by
        rw [vc i j hi hj, cell_xorBuf A B hAB, cell_xorBuf oa ob (by rw [la, lb]),
          va i j hi hj, vb i j hi hj])
  rw [rc, e]

theorem rotate_xor_witness :
    (∃ oa ob, rotate_bit_matrix (List.replicate 2048 0xA5) 128 = some oa ∧
        rotate_bit_matrix (0x80 :: List.replicate 2047 0) 128 = some ob ∧
        rotate_bit_matrix (xorBuf (List.replicate 2048 0xA5) (0x80 :: List.replicate 2047 0))
          128 = some (xorBuf oa ob)) ∧
      ∀ X Y : List Nat, X.length = 64 → Y.length = 64 →
        (∀ x ∈ X, x < 2 ^ 64) → (∀ y ∈ Y, y < 2 ^ 64) →
        ∃ tx ty, transpose_64 X = some tx ∧ transpose_64 Y = some ty ∧
          transpose_64 (xorBuf X Y) = some (xorBuf tx ty) :=
  rotate_xor 128 (List.replicate 2048 0xA5) (0x80 :: List.replicate 2047 0) (by decide)
    (by decide) (replicate_length_eq _ _ _ (by decide))
    (cons_replicate_length _ _ _ _ (by decide)) (replicate_bytes _ _ (by decide))
    (cons_replicate_bytes _ _ _ (by decide) (by decide))

/-! ## Sizes below one block -/

/-- C23: the degenerate size. For every `N < 64`, `N = 0` included, and every
buffer, `size = N >> 6` is 0, the body of the loop over `i` is never entered,
the test `size & 1` of the center step fails, no word is loaded or stored, and
`rotate_bit_matrix` returns the buffer as it was. -/
theorem rotate_degenerate (N : Nat) (img : List Nat) (hN : N < 64) :
    N >>> LOG_BASE = 0 ∧
      ringTrace img N = [] ∧
      (N >>> LOG_BASE) &&& 1 = 0 ∧
      runReads img N = [] ∧
      runWrites img N = [] ∧
      rotate_bit_matrix img N = some img := by
  have hsz : N >>> LOG_BASE = 0 := by
    simp only [LOG_BASE, Nat.shiftRight_eq_div_pow]; omega
  have hc : (fun s : IState => decide (s.i < ((N >>> LOG_BASE) + 1) / 2)) (ringStart img N) =
      false := by
    rw [hsz]; rfl
  have htr : ringTrace img N = [] := whileTrace_done _ _ _ _ hc
  have hloop := whileLoop_done N (fun s : IState => decide (s.i < ((N >>> LOG_BASE) + 1) / 2))
    (ringBody N (N >>> LOG_BASE)) (ringStart img N) hc
  have hand : (N >>> LOG_BASE) &&& 1 = 0 := by rw [hsz]; rfl
  refine ⟨hsz, htr, hand, ?_, ?_, ?_⟩
  · unfold runReads
    rw [htr, if_neg (by rw [hand]; exact fun h => h rfl)]
    rfl
  · unfold runWrites
    rw [htr, if_neg (by rw [hand]; exact fun h => h rfl)]
    rfl
  · rw [rotate_bit_matrix_eq, hloop, Option.some_bind,
      if_neg (by rw [hand]; exact fun h => h rfl)]
    rfl

theorem rotate_degenerate_witness :
    63 >>> LOG_BASE = 0 ∧
      ringTrace [0x80, 1, 2, 3] 63 = [] ∧
      (63 >>> LOG_BASE) &&& 1 = 0 ∧
      runReads [0x80, 1, 2, 3] 63 = [] ∧
      runWrites [0x80, 1, 2, 3] 63 = [] ∧
      rotate_bit_matrix [0x80, 1, 2, 3] 63 = some [0x80, 1, 2, 3] :=
  rotate_degenerate 63 [0x80, 1, 2, 3] (by decide)

end SnailSpeed
